import Mathlib

/-!
# nezha: alert rules (`model/rule.go`) and notification throttle (`service/dao/notification.go`)

A shallow embedding of the two Go source files and theorems about them.

Modelling conventions

* `uint64` values are `Nat`, `int64` values are `Int`; every machine operation that can
  overflow is written with an explicit reduction modulo `2^64`.
* `float64` values are `F64`, IEEE 754 binary64: the finite values as rationals, the two
  zeros, `+Inf`, `-Inf` and `NaN`; the conversion from `uint64` and the four operations
  round to nearest, ties to even, with 53 significant bits, subnormals, overflow and
  underflow.  The conversion from `int64` is applied to Unix timestamps only, where it is
  exact (up to `2^53` seconds), and is taken exact.
* `time.Time` is the number of nanoseconds since the Unix epoch (an unbounded `Int`),
  `time.Duration` is an `int64` number of nanoseconds.
* One call of a Go function reads the clock several times; the model passes one instant
  `now` for the whole call.
* Go maps are total functions returning the zero value on a missing key; the pointers and
  maps handed to `Rule.Snapshot` (`server.State`, `server.Host`, the maps of the
  `CycleTransferStats`) are taken to be allocated.
* The ledger behind `db` is the list of its rows; a `SUM` that does not fit the 64-bit
  signed integers of the database fails, and the discarded error leaves the result `0`.
* A run-time panic (an integer division by zero) is the result `none`.
-/

namespace Nezha

/-! ## Machine integers -/

/-- Reduction of an integer to the `int64` range (two's complement wrap-around). -/
@[irreducible] def wrapInt64 (x : Int) : Int := (x + 9223372036854775808) % 18446744073709551616 - 9223372036854775808

/-- Reduction of a natural number to the `uint64` range. -/
@[irreducible] def wrapUint64 (x : Nat) : Nat := x % 18446744073709551616

/-- Go `a + b` on `uint64`. -/
def u64add (a b : Nat) : Nat := wrapUint64 (a + b)

/-- Go `a - b` on `uint64`. -/
def u64sub (a b : Nat) : Nat :=
  wrapUint64 (wrapUint64 a + (18446744073709551616 - wrapUint64 b))

/-- Go conversion `uint64(x)` of an `int64`. -/
@[irreducible] def uint64OfInt64 (x : Int) : Nat := (x % 18446744073709551616).toNat

/-- Go conversion `int64(x)` of a `uint64`. -/
def int64OfUint64 (x : Nat) : Int := wrapInt64 (x : Int)

/-! ## float64 -/

/-- Values of `float64` (IEEE 754 binary64): a finite value is its exact rational, `fin 0`
being `+0`; `negZero` is `-0`; then the two infinities and `NaN`.  Every operation below
returns a finite value that binary64 can hold. -/
inductive F64 where
  | fin (q : ℚ)
  | negZero
  | posInf
  | negInf
  | nan
  deriving DecidableEq

namespace F64

/-- Nearest integer of a rational, a tie going to the even neighbour. -/
def roundEven (x : ℚ) : Int :=
  if x - ⌊x⌋ < 1 / 2 then ⌊x⌋
  else if 1 / 2 < x - ⌊x⌋ then ⌊x⌋ + 1
  else if ⌊x⌋ % 2 = 0 then ⌊x⌋ else ⌊x⌋ + 1

/-- Binary exponent of the unit in the last place of binary64 at `q`: 52 below the exponent
of `q` (53 significant bits), and `-1074` throughout the subnormal range. -/
def ulpExp (q : ℚ) : Int := max (Int.log 2 |q|) (-1022) - 52

/-- The multiple of the unit in the last place nearest to `q`, ties to even. -/
def roundQ (q : ℚ) : ℚ := roundEven (q / 2 ^ ulpExp q) * 2 ^ ulpExp q

/-- The zero of sign `neg`. -/
def zero (neg : Bool) : F64 := if neg then negZero else fin 0

/-- The infinity of sign `neg`. -/
def inf (neg : Bool) : F64 := if neg then negInf else posInf

/-- The `float64` result of an operation whose exact result is `q` (round to nearest, ties
to even): overflow gives an infinity, underflow a zero with the sign of `q`; an exact zero
gets the sign `neg` the operation prescribes. -/
def round (q : ℚ) (neg : Bool) : F64 :=
  if q = 0 then zero neg
  else if 2 ^ 1024 ≤ |roundQ q| then inf (decide (q < 0))
  else if roundQ q = 0 then zero (decide (q < 0))
  else fin (roundQ q)

/-- The sign bit: `true` for negative values and for `-0`. -/
def sign : F64 → Bool
  | fin q => decide (q < 0)
  | negZero => true
  | posInf => false
  | negInf => true
  | nan => false

/-- The exact value of a finite `float64` (`0` for the others). -/
def val : F64 → ℚ
  | fin q => q
  | _ => 0

/-- Whether the value is `NaN`. -/
def isNaN : F64 → Bool
  | nan => true
  | _ => false

/-- Whether the value is an infinity. -/
def isInf : F64 → Bool
  | posInf => true
  | negInf => true
  | _ => false

/-- Go conversion `float64(n)` of a `uint64`: the nearest `float64`. -/
def ofNat (n : Nat) : F64 := round (n : ℚ) false

/-- Go conversion `float64(n)` of an `int64`.  The source converts Unix timestamps only;
the conversion is exact up to `2^53` seconds in magnitude, some 285 million years either
side of 1970, and is taken exact. -/
def ofInt (n : Int) : F64 := fin (n : ℚ)

/-- Go `a < b` on `float64`: false as soon as one side is `NaN`; the two zeros are equal. -/
def lt : F64 → F64 → Bool
  | fin a, fin b => decide (a < b)
  | fin a, negZero => decide (a < 0)
  | negZero, fin b => decide (0 < b)
  | fin _, posInf => true
  | negZero, posInf => true
  | negInf, fin _ => true
  | negInf, negZero => true
  | negInf, posInf => true
  | _, _ => false

/-- Go `a > b` on `float64`. -/
def gt (a b : F64) : Bool := lt b a

/-- Unary minus: the sign bit is flipped. -/
def neg : F64 → F64
  | fin a => if a = 0 then negZero else fin (-a)
  | negZero => fin 0
  | posInf => negInf
  | negInf => posInf
  | nan => nan

/-- Go `a + b` on `float64`.  An exact zero sum is `-0` only when both terms are negative
zeros. -/
def add (a b : F64) : F64 :=
  if a.isNaN || b.isNaN then nan
  else if a.isInf then (if b.isInf && (a.sign != b.sign) then nan else a)
  else if b.isInf then b
  else round (a.val + b.val) (a.sign && b.sign)

/-- Go `a - b` on `float64`. -/
def sub (a b : F64) : F64 := add a (neg b)

/-- Go `a * b` on `float64`; the sign of a zero or infinite product is the exclusive or of
the signs, zero times infinity is `NaN`. -/
def mul (a b : F64) : F64 :=
  if a.isNaN || b.isNaN then nan
  else if a.isInf then (if !b.isInf && b.val = 0 then nan else inf (a.sign != b.sign))
  else if b.isInf then (if a.val = 0 then nan else inf (a.sign != b.sign))
  else round (a.val * b.val) (a.sign != b.sign)

/-- Go `a / b` on `float64`; a finite non-zero value divided by a zero is the infinity whose
sign is the exclusive or of the signs, `0/0` and `Inf/Inf` are `NaN`. -/
def div (a b : F64) : F64 :=
  if a.isNaN || b.isNaN then nan
  else if a.isInf then (if b.isInf then nan else inf (a.sign != b.sign))
  else if b.isInf then zero (a.sign != b.sign)
  else if b.val = 0 then (if a.val = 0 then nan else inf (a.sign != b.sign))
  else round (a.val / b.val) (a.sign != b.sign)

/-- Go conversion `int64(x)` (also `time.Duration(x)`) of a `float64`: the fraction is
discarded (truncation towards zero).  When the value does not fit, the language leaves
the result to the implementation; the model fixes `-2^63`, the x86-64 result. -/
def toInt64 : F64 → Int
  | fin q =>
    let t := Int.tdiv q.num (q.den : Int)
    if -9223372036854775808 ≤ t ∧ t < 9223372036854775808 then t else -9223372036854775808
  | negZero => 0
  | _ => -9223372036854775808

/-- Go conversion `uint64(x)` of a `float64`: truncation towards zero.  When the value
does not fit, the language leaves the result to the implementation; the model fixes
`2^63`. -/
def toUint64 : F64 → Nat
  | fin q =>
    let t := Int.tdiv q.num (q.den : Int)
    if 0 ≤ t ∧ t < 18446744073709551616 then t.toNat else 9223372036854775808
  | negZero => 0
  | _ => 9223372036854775808

/-- A `float64` that is at most the rational `c`. -/
def LeRat : F64 → ℚ → Prop
  | fin r, c => r ≤ c
  | negZero, c => 0 ≤ c
  | negInf, _ => True
  | _, _ => False

/-- A `float64` that is at least the rational `c`. -/
def GeRat : F64 → ℚ → Prop
  | fin r, c => c ≤ r
  | negZero, c => c ≤ 0
  | posInf, _ => True
  | _, _ => False

/-- A rational that `float64` holds exactly: the rounding leaves it as it is, and it lies
below the overflow threshold. -/
def IsFloat (q : ℚ) : Prop := roundQ q = q ∧ |q| < 2 ^ 1024

instance (q : ℚ) : Decidable (IsFloat q) := inferInstanceAs (Decidable (_ ∧ _))

end F64

/-! ## time -/

/-- A `time.Time`: nanoseconds since the Unix epoch. -/
abbrev Time := Int

/-- A `time.Duration`: an `int64` count of nanoseconds. -/
abbrev Duration := Int

namespace Time

/-- Constant `time.Second`. -/
def Second : Duration := 1000000000

/-- Constant `time.Minute`. -/
def Minute : Duration := 60 * Second

/-- Constant `time.Hour`. -/
def Hour : Duration := 60 * Minute

/-- The zero `time.Time`, January 1 of year 1, 00:00:00 UTC. -/
def zero : Time := -62135596800 * 1000000000

/-- Method `t.IsZero()`. -/
def IsZero (t : Time) : Bool := decide (t = zero)

/-- Method `t.Unix()`: whole seconds since the epoch. -/
def Unix (t : Time) : Int := t / 1000000000

/-- Function `time.Unix(sec, 0)`. -/
def ofUnix (sec : Int) : Time := sec * 1000000000

/-- Method `t.After(u)`. -/
def After (t u : Time) : Bool := decide (u < t)

/-- Method `t.Add(d)`. -/
def Add (t : Time) (d : Duration) : Time := t + d

/-- Go `a * b` on `time.Duration` (an `int64` product). -/
def mulDuration (a b : Duration) : Duration := wrapInt64 (a * b)

/-- Go `a + b` on `time.Duration` (an `int64` sum). -/
def addDuration (a b : Duration) : Duration := wrapInt64 (a + b)

end Time

/-! ## `model/rule.go`: data model -/

/-- Constant `RuleCoverAll`. -/
def RuleCoverAll : Nat := 0

/-- Constant `RuleCoverIgnoreAll`. -/
def RuleCoverIgnoreAll : Nat := 1

/-- Type `Rule` (its field `Type` is `Type_` here).  The result type `interface{}` of the cached status holds `nil` or
`struct{}{}`; it is `Option Unit`, `none` for `nil` and `some ()` for `struct{}{}`. -/
structure Rule where
  Type_ : String
  Min : F64
  Max : F64
  CycleStart : Time
  CycleInterval : Nat
  Duration : Nat
  Cover : Nat
  Ignore : Nat → Bool
  NextTransferAt : Nat → Time
  LastCycleStatus : Nat → Option Unit

/-- Modelled from the spec: the type `HostState` (the metrics of a host snapshot) is
declared outside the source files; these are the fields `Rule.Snapshot` reads. -/
structure HostState where
  CPU : F64
  MemUsed : Nat
  SwapUsed : Nat
  DiskUsed : Nat
  NetInTransfer : Nat
  NetOutTransfer : Nat
  NetInSpeed : Nat
  NetOutSpeed : Nat
  Load1 : F64
  Load5 : F64
  Load15 : F64
  TcpConnCount : Nat
  UdpConnCount : Nat
  ProcessCount : Nat

/-- Modelled from the spec: the type `Host` (the static totals of a host) is declared
outside the source files; these are the fields `Rule.Snapshot` reads. -/
structure Host where
  MemTotal : Nat
  SwapTotal : Nat
  DiskTotal : Nat

/-- Modelled from the spec: the type `Server` is declared outside the source files; these
are the fields `Rule.Snapshot` reads.  The two hourly baselines are `int64`. -/
structure Server where
  ID : Nat
  Name : String
  LastActive : Time
  PrevHourlyTransferIn : Int
  PrevHourlyTransferOut : Int
  State : HostState
  Host : Host

/-- Modelled from the spec: the type `Transfer`, one row of the transfer ledger, is
declared outside the source files; these are the columns the queries of `Rule.Snapshot`
name. -/
structure Transfer where
  ServerID : Nat
  In : Nat
  Out : Nat
  CreatedAt : Time

/-- Modelled from the spec: the type `CycleTransferStats` is declared outside the source
files; these are the fields `Rule.Snapshot` writes. -/
structure CycleTransferStats where
  From : Time
  To : Time
  ServerName : Nat → String
  Transfer : Nat → Nat
  NextUpdate : Nat → Time

/-- Type `NResult`. -/
structure NResult where
  N : Nat

/-! ## `model/rule.go`: functions -/

/-- Function `percentage`. -/
def percentage (used total : Nat) : F64 :=
  if total = 0 then F64.fin 0
  else F64.div (F64.mul (F64.ofNat used) (F64.fin 100)) (F64.ofNat total)

/-- Function `strings.HasSuffix`. -/
def HasSuffix (s suffix : String) : Bool := suffix.data.isSuffixOf s.data

/-- Method `Rule.IsTransferDurationRule`. -/
def Rule.IsTransferDurationRule (r : Rule) : Bool := HasSuffix r.Type_ "_cycle"

/-- The local `interval := 3600 * int64(r.CycleInterval)` of `GetTransferDurationStart`. -/
def Rule.interval (r : Rule) : Int := wrapInt64 (3600 * int64OfUint64 r.CycleInterval)

/-- Method `Rule.GetTransferDurationStart`, at clock reading `now`.  All arithmetic is
`int64`; the quotient truncates towards zero; a zero `interval` is a run-time panic. -/
def Rule.GetTransferDurationStart (r : Rule) (now : Time) : Option Time :=
  let interval := r.interval
  if interval = 0 then none
  else
    some (Time.ofUnix (wrapInt64 (Time.Unix r.CycleStart +
      wrapInt64 (wrapInt64 (Int.tdiv (wrapInt64 (Time.Unix now - Time.Unix r.CycleStart)) interval)
        * interval))))

/-- The ledger query `SELECT SUM(col) AS n ... WHERE created_at > since AND server_id = id`
scanned into an `NResult`; the database is outside the source files.  Without rows `N`
stays `0`.  The database adds 64-bit signed integers: a total of `2^63` or more makes the
query fail, the source discards the error and `N` stays `0`. -/
def ledgerSum (db : List Transfer) (col : Transfer → Nat) (since : Time) (id : Nat) : NResult :=
  let total :=
    ((db.filter (fun t => decide (since < t.CreatedAt) && decide (t.ServerID = id))).map col).sum
  if total < 9223372036854775808 then ⟨total⟩ else ⟨0⟩

/-- The `switch r.Type_` of `Rule.Snapshot`: the sampled value `src`, or `none` when
`GetTransferDurationStart` panics. -/
def Rule.sample (r : Rule) (server : Server) (db : List Transfer) (now : Time) : Option F64 :=
  if r.Type_ = "cpu" then some server.State.CPU
  else if r.Type_ = "memory" then some (percentage server.State.MemUsed server.Host.MemTotal)
  else if r.Type_ = "swap" then some (percentage server.State.SwapUsed server.Host.SwapTotal)
  else if r.Type_ = "disk" then some (percentage server.State.DiskUsed server.Host.DiskTotal)
  else if r.Type_ = "net_in_speed" then some (F64.ofNat server.State.NetInSpeed)
  else if r.Type_ = "net_out_speed" then some (F64.ofNat server.State.NetOutSpeed)
  else if r.Type_ = "net_all_speed" then
    some (F64.ofNat (u64add server.State.NetOutSpeed server.State.NetOutSpeed))
  else if r.Type_ = "transfer_in" then some (F64.ofNat server.State.NetInTransfer)
  else if r.Type_ = "transfer_out" then some (F64.ofNat server.State.NetOutTransfer)
  else if r.Type_ = "transfer_all" then
    some (F64.ofNat (u64add server.State.NetOutTransfer server.State.NetInTransfer))
  else if r.Type_ = "offline" then
    (if Time.IsZero server.LastActive then some (F64.fin 0)
     else some (F64.ofInt (Time.Unix server.LastActive)))
  else if r.Type_ = "transfer_in_cycle" then
    let src := F64.ofNat (u64sub server.State.NetInTransfer (uint64OfInt64 server.PrevHourlyTransferIn))
    if r.CycleInterval ≠ 1 then
      (r.GetTransferDurationStart now).map
        (fun start => F64.add src (F64.ofNat (ledgerSum db Transfer.In start server.ID).N))
    else some src
  else if r.Type_ = "transfer_out_cycle" then
    let src := F64.ofNat (u64sub server.State.NetOutTransfer (uint64OfInt64 server.PrevHourlyTransferOut))
    if r.CycleInterval ≠ 1 then
      (r.GetTransferDurationStart now).map
        (fun start => F64.add src (F64.ofNat (ledgerSum db Transfer.Out start server.ID).N))
    else some src
  else if r.Type_ = "transfer_all_cycle" then
    let src := F64.ofNat (u64sub (u64add (u64sub server.State.NetOutTransfer
      (uint64OfInt64 server.PrevHourlyTransferOut)) server.State.NetInTransfer)
      (uint64OfInt64 server.PrevHourlyTransferIn))
    if r.CycleInterval ≠ 1 then
      (r.GetTransferDurationStart now).map
        (fun start => F64.add src
          (F64.ofNat (ledgerSum db (fun t => t.In + t.Out) start server.ID).N))
    else some src
  else if r.Type_ = "load1" then some server.State.Load1
  else if r.Type_ = "load5" then some server.State.Load5
  else if r.Type_ = "load15" then some server.State.Load15
  else if r.Type_ = "tcp_conn_count" then some (F64.ofNat server.State.TcpConnCount)
  else if r.Type_ = "udp_conn_count" then some (F64.ofNat server.State.UdpConnCount)
  else if r.Type_ = "process_count" then some (F64.ofNat server.State.ProcessCount)
  else some (F64.fin 0)

/-- The threshold test `(r.Max > 0 && src > r.Max) || (r.Min > 0 && src < r.Min)`. -/
def Rule.outOfBounds (r : Rule) (src : F64) : Bool :=
  (F64.gt r.Max (F64.fin 0) && F64.gt src r.Max) || (F64.gt r.Min (F64.fin 0) && F64.lt src r.Min)

/-- The first coverage guard of `Rule.Snapshot`: all hosts monitored, this one excluded. -/
def Rule.excluded (r : Rule) (id : Nat) : Bool :=
  decide (r.Cover = RuleCoverAll) && r.Ignore id

/-- The second coverage guard of `Rule.Snapshot`: all hosts ignored, this one not named. -/
def Rule.notIncluded (r : Rule) (id : Nat) : Bool :=
  decide (r.Cover = RuleCoverIgnoreAll) && !r.Ignore id

/-- The third guard of `Rule.Snapshot`: a cyclic rule whose next check is still ahead. -/
def Rule.debounced (r : Rule) (id : Nat) (now : Time) : Bool :=
  r.IsTransferDurationRule && Time.After (r.NextTransferAt id) now

/-- The re-check delay of a cyclic rule, in seconds:
`seconds := 1800 * ((r.Max - src) / r.Max); if seconds < 180 { seconds = 180 }`. -/
def Rule.rearmSeconds (r : Rule) (src : F64) : F64 :=
  let seconds := F64.mul (F64.fin 1800) (F64.div (F64.sub r.Max src) r.Max)
  if F64.lt seconds (F64.fin 180) then F64.fin 180 else seconds

/-- What one call of `Rule.Snapshot` leaves behind: the value returned, the rule with its
two caches, and the shared statistics. -/
structure SnapshotResult where
  ret : Option Unit
  rule : Rule
  stats : CycleTransferStats

/-- First half of the block `if r.IsTransferDurationRule() { ... }` of `Rule.Snapshot`:
the rule with `NextTransferAt[server.ID]` and `LastCycleStatus[server.ID]` re-armed. -/
def Rule.rearmCaches (r : Rule) (server : Server) (src : F64) (now : Time) : Rule :=
  { r with
    NextTransferAt := Function.update r.NextTransferAt server.ID
      (Time.Add now (Time.mulDuration Time.Second (F64.toInt64 (r.rearmSeconds src))))
    LastCycleStatus := Function.update r.LastCycleStatus server.ID
      (if r.outOfBounds src then some () else none) }

/-- Second half of the block `if r.IsTransferDurationRule() { ... }` of `Rule.Snapshot`,
run on the re-armed rule: the statistics with the host's name, usage and next update and
the window `[From, To)`; `none` when `GetTransferDurationStart` panics. -/
def Rule.fillStats (r : Rule) (cycleTransferStats : CycleTransferStats) (server : Server)
    (src : F64) (now : Time) : Option CycleTransferStats :=
  (r.GetTransferDurationStart now).map fun start =>
    { cycleTransferStats with
      ServerName := Function.update cycleTransferStats.ServerName server.ID server.Name
      Transfer := Function.update cycleTransferStats.Transfer server.ID (F64.toUint64 src)
      NextUpdate := Function.update cycleTransferStats.NextUpdate server.ID
        (r.NextTransferAt server.ID)
      From := start
      To := Time.Add start (Time.mulDuration Time.Hour (int64OfUint64 r.CycleInterval)) }

/-- The final decision of `Rule.Snapshot` on the sampled value. -/
def Rule.decision (r : Rule) (src : F64) (now : Time) : Option Unit :=
  if r.Type_ = "offline" && F64.gt (F64.sub (F64.ofInt (Time.Unix now)) src) (F64.fin 6) then
    some ()
  else if r.outOfBounds src then some ()
  else none

/-- Method `Rule.Snapshot`, at clock reading `now`, with the ledger `db`.  The result is
`none` when the call panics. -/
def Rule.Snapshot (r : Rule) (cycleTransferStats : CycleTransferStats) (server : Server)
    (db : List Transfer) (now : Time) : Option SnapshotResult :=
  if r.excluded server.ID then some ⟨none, r, cycleTransferStats⟩
  else if r.notIncluded server.ID then some ⟨none, r, cycleTransferStats⟩
  else if r.debounced server.ID now then
    some ⟨r.LastCycleStatus server.ID, r, cycleTransferStats⟩
  else
    (r.sample server db now).bind fun src =>
      if r.IsTransferDurationRule then
        ((r.rearmCaches server src now).fillStats cycleTransferStats server src now).map
          fun stats1 =>
            ⟨(r.rearmCaches server src now).decision src now,
              r.rearmCaches server src now, stats1⟩
      else some ⟨r.decision src now, r, cycleTransferStats⟩

/-- The case labels of the `switch r.Type` of `Rule.Snapshot`. -/
def metricTypes : List String :=
  ["cpu", "memory", "swap", "disk", "net_in_speed", "net_out_speed", "net_all_speed",
   "transfer_in", "transfer_out", "transfer_all", "offline", "transfer_in_cycle",
   "transfer_out_cycle", "transfer_all_cycle", "load1", "load5", "load15",
   "tcp_conn_count", "udp_conn_count", "process_count"]

/-! ## `service/dao/notification.go`: data model -/

/-- Constant `firstNotificationDelay`. -/
def firstNotificationDelay : Duration := Time.Minute * 15

/-- Modelled from the spec: the type `model.Notification`, one configured channel, is
declared outside the source files; this file reads its `ID` and calls its method `Send`,
`Name` and `URL` stand for the rest of the configuration. -/
structure Notification where
  ID : Nat
  Name : String
  URL : String
  deriving DecidableEq

/-- Modelled from the spec: the type `NotificationHistory` is declared outside the source
files: the current backoff `Duration` and the instant `Until` after which the next
identical alert is allowed. -/
structure NotificationHistory where
  Duration : Duration
  Until : Time
  deriving DecidableEq

/-- An entry of the throttle cache: the stored record and the instant it expires, in
nanoseconds since the epoch (`0`: never). -/
structure CacheItem where
  Object : NotificationHistory
  Expiration : Int
  deriving DecidableEq

/-- Modelled from the spec: the throttle cache `Cache` is declared outside the source files
(a `go-cache` instance): a map from keys to records with their own expiry, and the
expiration used when `Set` is given a zero time-to-live. -/
structure Cache where
  items : String → Option CacheItem
  defaultExpiration : Duration

/-- Modelled from the spec: `Cache.Get(k)` at clock reading `now`: the record under `k`,
unless there is none or its expiry has passed. -/
def Cache.Get (c : Cache) (k : String) (now : Time) : Option NotificationHistory :=
  match c.items k with
  | none => none
  | some item =>
    if 0 < item.Expiration ∧ item.Expiration < now then none else some item.Object

/-- Modelled from the spec: `Cache.Set(k, x, d)` at clock reading `now`: the record `x` is
stored under `k` and expires `d` from now; a zero `d` stands for the default expiration, a
negative one for no expiry.  Every other key keeps its entry. -/
def Cache.Set (c : Cache) (k : String) (x : NotificationHistory) (d : Duration) (now : Time) :
    Cache :=
  let d1 := if d = 0 then c.defaultExpiration else d
  let e := if 0 < d1 then Time.Add now d1 else 0
  { c with items := Function.update c.items k (some ⟨x, e⟩) }

/-- The package state of `dao`: the throttle cache and the registered channels
`notifications.nty`. -/
structure Dao where
  Cache : Cache
  nty : List Notification

/-- A message text: a Go string, that is a sequence of bytes. -/
abbrev Desc := List (Fin 256)

/-- The digest `md5.New().Sum` appends: MD5 of the empty input,
`d41d8cd98f00b204e9800998ecf8427e`. -/
def md5Empty : List (Fin 256) :=
  [0xd4, 0x1d, 0x8c, 0xd9, 0x8f, 0x00, 0xb2, 0x04, 0xe9, 0x80, 0x09, 0x98, 0xec, 0xf8, 0x42, 0x7e]

/-- Expression `md5.New().Sum(b)`: a fresh hash has absorbed nothing, and `Sum` appends its
current digest to `b`. -/
def md5NewSum (b : List (Fin 256)) : List (Fin 256) := b ++ md5Empty

/-- One hexadecimal digit of `encoding/hex`. -/
def hexDigit (n : Nat) : Char :=
  if n < 10 then Char.ofNat (48 + n) else Char.ofNat (87 + n)

/-- Function `hex.EncodeToString`. -/
def hexEncodeToString (b : List (Fin 256)) : String :=
  String.mk (b.flatMap fun x => [hexDigit (x.val / 16), hexDigit (x.val % 16)])

/-- The cache key `nID` of `SendNotification`. -/
def notificationID (desc : Desc) : String := hexEncodeToString (md5NewSum desc)

/-- What one call of `SendNotification` does outside the package state: whether the message
passed the throttle, the channels whose `Send` was called, in call order, and those of
them whose `Send` returned an error (each is logged). -/
structure Broadcast where
  admitted : Bool
  sent : List Notification
  failed : List Notification

/-- The loop at the end of `SendNotification`: `Send(desc)` on every registered channel in
order; `send n desc = false` stands for an error returned by the channel. -/
def broadcast (send : Notification → Desc → Bool) (nty : List Notification) (desc : Desc) :
    Broadcast :=
  ⟨true, nty, nty.filter fun n => !send n desc⟩

/-- Function `SendNotification`, at clock reading `now`, with the channels' `Send` given by
`send`.  The products `time.Hour*24` and `time.Minute*10` and the sum
`firstNotificationDelay+time.Minute*10` are constants; `nHistory.Duration *= 2` and
`nHistory.Duration+time.Minute*10` are `int64` operations at run time. -/
def SendNotification (send : Notification → Desc → Bool) (st : Dao) (desc : Desc)
    (muteable : Bool) (now : Time) : Dao × Broadcast :=
  if muteable then
    let nID := notificationID desc
    match st.Cache.Get nID now with
    | some nHistory =>
      if Time.After now nHistory.Until then
        let doubled := Time.mulDuration nHistory.Duration 2
        let duration := if Time.Hour * 24 < doubled then Time.Hour * 24 else doubled
        let updated : NotificationHistory := ⟨duration, Time.Add now duration⟩
        let cache := st.Cache.Set nID updated (Time.addDuration duration (Time.Minute * 10)) now
        ({ st with Cache := cache }, broadcast send st.nty desc)
      else (st, ⟨false, [], []⟩)
    | none =>
      let fresh : NotificationHistory :=
        ⟨firstNotificationDelay, Time.Add now firstNotificationDelay⟩
      let cache := st.Cache.Set nID fresh (firstNotificationDelay + Time.Minute * 10) now
      ({ st with Cache := cache }, broadcast send st.nty desc)
  else (st, broadcast send st.nty desc)

/-! ## `service/dao/notification.go`: the registry and the broadcast loop -/

/-- The loop `for i := 0; i < len(notifications.nty); i++` at the end of
`SendNotification`, from index `i` on: the channels whose `Send` is called, in call order,
and those whose `Send` returned an error; an error is logged and the loop goes on. -/
def sendLoop (send : Notification → Desc → Bool) (nty : List Notification) (desc : Desc)
    (i : Nat) : List Notification × List Notification :=
  if h : i < nty.length then
    let rest := sendLoop send nty desc (i + 1)
    (nty[i] :: rest.1, if send nty[i] desc then rest.2 else nty[i] :: rest.2)
  else ([], [])
termination_by nty.length - i

/-- The loop of `OnRefreshOrAddNotification`, from index `i` on, with the current list and
the flag `isEdit`: every channel whose `ID` is `n.ID` is overwritten in place. -/
def refreshLoop (n : Notification) (nty : List Notification) (i : Nat) (isEdit : Bool) :
    List Notification × Bool :=
  if h : i < nty.length then
    if nty[i].ID = n.ID then refreshLoop n (nty.set i n) (i + 1) true
    else refreshLoop n nty (i + 1) isEdit
  else (nty, isEdit)
termination_by nty.length - i
decreasing_by
  all_goals simp_wf
  all_goals omega

/-- Function `OnRefreshOrAddNotification`. -/
def OnRefreshOrAddNotification (st : Dao) (n : Notification) : Dao :=
  let r := refreshLoop n st.nty 0 false
  if !r.2 then { st with nty := r.1 ++ [n] } else { st with nty := r.1 }

/-- The loop of `OnDeleteNotification`, at its test `i < len(notifications.nty)`, with the
current list.  The index is a Go `int`; indexing or slicing out of range is a panic,
`none`.  A deletion is `append(nty[:i], nty[i+1:]...)` followed by `i--`, and every
iteration ends with `i++`. -/
def deleteLoop (id : Nat) (nty : List Notification) (i : Int) : Option (List Notification) :=
  if h : i < nty.length then
    if h0 : 0 ≤ i then
      if (nty.get ⟨i.toNat, by omega⟩).ID = id then
        deleteLoop id (nty.take i.toNat ++ nty.drop (i.toNat + 1)) ((i - 1) + 1)
      else deleteLoop id nty (i + 1)
    else none
  else some nty
termination_by ((nty.length : Int) - i).toNat
decreasing_by
  all_goals simp_wf
  all_goals omega

/-- Function `OnDeleteNotification`; `none` when the loop panics. -/
def OnDeleteNotification (st : Dao) (id : Nat) : Option Dao :=
  (deleteLoop id st.nty 0).map fun nty => { st with nty := nty }

/-- One call of `SendNotification`: the message, the flag `muteable` and the clock
reading. -/
structure SendCall where
  desc : Desc
  muteable : Bool
  now : Time

/-- The package state after a sequence of `SendNotification` calls. -/
def runSendCalls (send : Notification → Desc → Bool) (st : Dao) (calls : List SendCall) : Dao :=
  calls.foldl (fun s c => (SendNotification send s c.desc c.muteable c.now).1) st

/-! ## Concrete inputs -/

/-- A rule of the given type and bounds that covers every host, with empty caches and a
one-hour cycle anchored at the epoch. -/
def ruleOf (type : String) (min max : F64) : Rule :=
  { Type_ := type, Min := min, Max := max, CycleStart := 0, CycleInterval := 1, Duration := 0,
    Cover := RuleCoverAll, Ignore := fun _ => false,
    NextTransferAt := fun _ => Time.zero, LastCycleStatus := fun _ => none }

/-- A host state that reports the given CPU load and inbound transfer counter, all other
metrics zero. -/
def stateOf (cpu : F64) (netIn : Nat) : HostState :=
  { CPU := cpu, MemUsed := 0, SwapUsed := 0, DiskUsed := 0, NetInTransfer := netIn,
    NetOutTransfer := 0, NetInSpeed := 0, NetOutSpeed := 0, Load1 := F64.fin 0,
    Load5 := F64.fin 0, Load15 := F64.fin 0, TcpConnCount := 0, UdpConnCount := 0,
    ProcessCount := 0 }

/-- Host 1, last active at `lastActive`, with inbound baseline `prevIn` and all totals
zero. -/
def serverOf (lastActive : Time) (prevIn : Int) (state : HostState) : Server :=
  { ID := 1, Name := "host-1", LastActive := lastActive, PrevHourlyTransferIn := prevIn,
    PrevHourlyTransferOut := 0, State := state, Host := ⟨0, 0, 0⟩ }

/-- Statistics with nothing recorded. -/
def emptyStats : CycleTransferStats :=
  { From := Time.zero, To := Time.zero, ServerName := fun _ => "", Transfer := fun _ => 0,
    NextUpdate := fun _ => Time.zero }

/-- A cyclic rule that monitors every host except host 1, with a breach cached for every
host. -/
def excludingRule : Rule :=
  { ruleOf "transfer_in_cycle" (F64.fin 0) (F64.fin 100) with
    Ignore := fun id => decide (id = 1)
    LastCycleStatus := fun _ => some () }

/-- A cyclic rule whose one-hour cycle is anchored at second 100. -/
def lateAnchorRule : Rule :=
  { ruleOf "transfer_in_cycle" (F64.fin 0) (F64.fin 100) with CycleStart := 100000000000 }

/-- A cyclic rule with a 24-hour cycle anchored at the epoch. -/
def dailyRule : Rule :=
  { ruleOf "transfer_in_cycle" (F64.fin 0) (F64.fin 0) with CycleInterval := 24 }

/-- A ledger with three rows: one of host 1 inside the current window, one of host 1
before it, one of host 2. -/
def sampleLedger : List Transfer :=
  [⟨1, 10, 20, 90000000000000⟩, ⟨1, 5, 5, 80000000000000⟩, ⟨2, 1000, 0, 95000000000000⟩]

/-- A package state with one channel and one throttle record, for the empty message: backoff
15 minutes, next alert allowed after nanosecond 1000, no expiry. -/
def throttledDao : Dao :=
  { Cache :=
      { items := fun k =>
          if k = notificationID [] then some ⟨⟨900000000000, 1000⟩, 0⟩ else none
        defaultExpiration := 0 }
    nty := [⟨1, "ops", "https://example.org/hook"⟩] }

/-- A package state with one channel and an empty throttle cache. -/
def freshDao : Dao :=
  { Cache := { items := fun _ => none, defaultExpiration := 0 }
    nty := [⟨1, "ops", "https://example.org/hook"⟩] }

/-- A cyclic rule whose cycle interval is `2^60` hours. -/
def hugeIntervalRule : Rule :=
  { ruleOf "transfer_in_cycle" (F64.fin 0) (F64.fin 100) with
    CycleInterval := 1152921504606846976 }

/-- A cyclic rule whose cycle interval is 2562048 hours, a little over 292 years. -/
def centuriesRule : Rule :=
  { ruleOf "transfer_in_cycle" (F64.fin 0) (F64.fin 100) with CycleInterval := 2562048 }

/-! ## Lemmas on `float64` rounding -/

theorem F64.roundEven_intCast (n : Int) : F64.roundEven (n : ℚ) = n := by
  unfold F64.roundEven
  simp

theorem F64.floor_le_roundEven (x : ℚ) : ⌊x⌋ ≤ F64.roundEven x := by
  unfold F64.roundEven
  split_ifs <;> omega

theorem F64.roundEven_le_floor_add_one (x : ℚ) : F64.roundEven x ≤ ⌊x⌋ + 1 := by
  unfold F64.roundEven
  split_ifs <;> omega

theorem F64.roundEven_mono {x y : ℚ} (h : x ≤ y) : F64.roundEven x ≤ F64.roundEven y := by
  have hf : ⌊x⌋ ≤ ⌊y⌋ := Int.floor_mono h
  rcases lt_or_eq_of_le hf with hlt | heq
  · have h1 := F64.roundEven_le_floor_add_one x
    have h2 := F64.floor_le_roundEven y
    omega
  · unfold F64.roundEven
    rw [← heq]
    split_ifs <;> first | omega | (exfalso; linarith)

theorem F64.roundEven_le_of_le {x : ℚ} {n : Int} (h : x ≤ n) : F64.roundEven x ≤ n := by
  have := F64.roundEven_mono h
  rwa [F64.roundEven_intCast] at this

theorem F64.le_roundEven_of_le {x : ℚ} {n : Int} (h : (n : ℚ) ≤ x) : n ≤ F64.roundEven x := by
  have := F64.roundEven_mono h
  rwa [F64.roundEven_intCast] at this

theorem F64.ulp_pos (q : ℚ) : (0 : ℚ) < 2 ^ F64.ulpExp q := zpow_pos (by norm_num) _

theorem F64.abs_lt_zpow (q : ℚ) : |q| < 2 ^ (F64.ulpExp q + 53) := by
  have h1 : |q| < ((2 : ℕ) : ℚ) ^ (Int.log 2 |q| + 1) := Int.lt_zpow_succ_log_self (by norm_num) _
  rw [Nat.cast_ofNat] at h1
  refine lt_of_lt_of_le h1 (zpow_le_zpow_right₀ (by norm_num) ?_)
  unfold F64.ulpExp
  have := le_max_left (Int.log 2 |q|) (-1022)
  omega

theorem F64.zpow_le_abs (q : ℚ) (hq : q ≠ 0) (h : -1022 ≤ Int.log 2 |q|) :
    2 ^ (F64.ulpExp q + 52) ≤ |q| := by
  have h1 : ((2 : ℕ) : ℚ) ^ (Int.log 2 |q|) ≤ |q| :=
    Int.zpow_log_le_self (by norm_num) (abs_pos.mpr hq)
  rw [Nat.cast_ofNat] at h1
  have : F64.ulpExp q + 52 = Int.log 2 |q| := by
    unfold F64.ulpExp
    rw [max_eq_left h]
    omega
  rw [this]
  exact h1

theorem F64.ulpExp_mono {x y : ℚ} (hx : x ≠ 0) (h : |x| ≤ |y|) : F64.ulpExp x ≤ F64.ulpExp y := by
  unfold F64.ulpExp
  have := Int.log_mono_right (b := 2) (abs_pos.mpr hx) h
  have := max_le_max this (le_refl (-1022 : Int))
  omega

theorem F64.roundQ_nonneg {q : ℚ} (h : 0 ≤ q) : 0 ≤ F64.roundQ q := by
  unfold F64.roundQ
  have hu := F64.ulp_pos q
  have : (0 : Int) ≤ F64.roundEven (q / 2 ^ F64.ulpExp q) :=
    F64.le_roundEven_of_le (by simpa using div_nonneg h hu.le)
  exact mul_nonneg (by exact_mod_cast this) hu.le

theorem F64.roundQ_nonpos {q : ℚ} (h : q ≤ 0) : F64.roundQ q ≤ 0 := by
  unfold F64.roundQ
  have hu := F64.ulp_pos q
  have : F64.roundEven (q / 2 ^ F64.ulpExp q) ≤ (0 : Int) :=
    F64.roundEven_le_of_le (by simpa using div_nonpos_of_nonpos_of_nonneg h hu.le)
  exact mul_nonpos_of_nonpos_of_nonneg (by exact_mod_cast this) hu.le

theorem F64.zpow_split (e : Int) (k : ℕ) : (2 : ℚ) ^ (e + k) = 2 ^ k * 2 ^ e := by
  rw [zpow_add₀ (by norm_num), zpow_natCast, mul_comm]

theorem F64.roundQ_le_zpow (q : ℚ) : F64.roundQ q ≤ 2 ^ (F64.ulpExp q + 53) := by
  have hu := F64.ulp_pos q
  have h1 := lt_of_le_of_lt (le_abs_self q) (F64.abs_lt_zpow q)
  have h53 : F64.ulpExp q + 53 = F64.ulpExp q + ((53 : ℕ) : Int) := rfl
  rw [h53, F64.zpow_split] at h1 ⊢
  have h2 : q / 2 ^ F64.ulpExp q ≤ (((2 : Int) ^ 53 : Int) : ℚ) := by
    rw [div_le_iff₀ hu]
    push_cast
    exact h1.le
  have h3 := F64.roundEven_le_of_le h2
  unfold F64.roundQ
  have h4 : (F64.roundEven (q / 2 ^ F64.ulpExp q) : ℚ) ≤ 2 ^ 53 := by exact_mod_cast h3
  exact mul_le_mul_of_nonneg_right h4 hu.le

theorem F64.neg_zpow_le_roundQ (q : ℚ) : -(2 ^ (F64.ulpExp q + 53)) ≤ F64.roundQ q := by
  have hu := F64.ulp_pos q
  have h1 := lt_of_le_of_lt (neg_le_abs q) (F64.abs_lt_zpow q)
  have h53 : F64.ulpExp q + 53 = F64.ulpExp q + ((53 : ℕ) : Int) := rfl
  rw [h53, F64.zpow_split] at h1 ⊢
  have h2 : (((-(2 : Int) ^ 53 : Int)) : ℚ) ≤ q / 2 ^ F64.ulpExp q := by
    rw [le_div_iff₀ hu]
    push_cast
    linarith
  have h3 := F64.le_roundEven_of_le h2
  unfold F64.roundQ
  have h4 : -(2 ^ 53 : ℚ) ≤ (F64.roundEven (q / 2 ^ F64.ulpExp q) : ℚ) := by exact_mod_cast h3
  have := mul_le_mul_of_nonneg_right h4 hu.le
  linarith

theorem F64.zpow_le_roundQ {q : ℚ} (hq : 0 < q) (h : -1022 ≤ Int.log 2 |q|) :
    2 ^ (F64.ulpExp q + 52) ≤ F64.roundQ q := by
  have hu := F64.ulp_pos q
  have h1 := F64.zpow_le_abs q hq.ne' h
  rw [abs_of_pos hq] at h1
  have h52 : F64.ulpExp q + 52 = F64.ulpExp q + ((52 : ℕ) : Int) := rfl
  rw [h52, F64.zpow_split] at h1 ⊢
  have h2 : ((((2 : Int) ^ 52 : Int)) : ℚ) ≤ q / 2 ^ F64.ulpExp q := by
    rw [le_div_iff₀ hu]
    push_cast
    exact h1
  have h3 := F64.le_roundEven_of_le h2
  unfold F64.roundQ
  have h4 : (2 ^ 52 : ℚ) ≤ (F64.roundEven (q / 2 ^ F64.ulpExp q) : ℚ) := by exact_mod_cast h3
  exact mul_le_mul_of_nonneg_right h4 hu.le

theorem F64.roundQ_le_neg_zpow {q : ℚ} (hq : q < 0) (h : -1022 ≤ Int.log 2 |q|) :
    F64.roundQ q ≤ -(2 ^ (F64.ulpExp q + 52)) := by
  have hu := F64.ulp_pos q
  have h1 := F64.zpow_le_abs q hq.ne h
  rw [abs_of_neg hq] at h1
  have h52 : F64.ulpExp q + 52 = F64.ulpExp q + ((52 : ℕ) : Int) := rfl
  rw [h52, F64.zpow_split] at h1 ⊢
  have h2 : q / 2 ^ F64.ulpExp q ≤ (((-(2 : Int) ^ 52 : Int)) : ℚ) := by
    rw [div_le_iff₀ hu]
    push_cast
    linarith
  have h3 := F64.roundEven_le_of_le h2
  unfold F64.roundQ
  have h4 : (F64.roundEven (q / 2 ^ F64.ulpExp q) : ℚ) ≤ -(2 ^ 52 : ℚ) := by exact_mod_cast h3
  have := mul_le_mul_of_nonneg_right h4 hu.le
  linarith

theorem F64.normal_of_ulpExp_lt {x y : ℚ} (h : F64.ulpExp x < F64.ulpExp y) :
    -1022 ≤ Int.log 2 |y| := by
  unfold F64.ulpExp at h
  by_contra hc
  rw [max_eq_right (by omega : Int.log 2 |y| ≤ -1022)] at h
  have := le_max_right (Int.log 2 |x|) (-1022)
  omega

/-- Rounding to the nearest `float64` is monotone. -/
theorem F64.roundQ_mono {x y : ℚ} (h : x ≤ y) : F64.roundQ x ≤ F64.roundQ y := by
  rcases le_or_lt x 0 with hx | hx
  · rcases le_or_lt 0 y with hy | hy
    · exact le_trans (F64.roundQ_nonpos hx) (F64.roundQ_nonneg hy)
    · -- x ≤ y < 0
      have hxy : |y| ≤ |x| := by rw [abs_of_neg hy, abs_of_neg (lt_of_le_of_lt h hy)]; linarith
      rcases lt_or_eq_of_le (F64.ulpExp_mono hy.ne hxy) with hlt | heq
      · have h1 := F64.roundQ_le_neg_zpow (lt_of_le_of_lt h hy) (F64.normal_of_ulpExp_lt hlt)
        have h2 := F64.neg_zpow_le_roundQ y
        have h3 : (2 : ℚ) ^ (F64.ulpExp y + 53) ≤ 2 ^ (F64.ulpExp x + 52) :=
          zpow_le_zpow_right₀ (by norm_num) (by omega)
        linarith
      · unfold F64.roundQ
        rw [heq]
        have hu := F64.ulp_pos x
        have := F64.roundEven_mono (div_le_div_of_nonneg_right h hu.le)
        exact mul_le_mul_of_nonneg_right (by exact_mod_cast this) hu.le
  · have hy : 0 < y := lt_of_lt_of_le hx h
    have hxy : |x| ≤ |y| := by rw [abs_of_pos hx, abs_of_pos hy]; exact h
    rcases lt_or_eq_of_le (F64.ulpExp_mono hx.ne' hxy) with hlt | heq
    · have h1 := F64.zpow_le_roundQ hy (F64.normal_of_ulpExp_lt hlt)
      have h2 := F64.roundQ_le_zpow x
      have h3 : (2 : ℚ) ^ (F64.ulpExp x + 53) ≤ 2 ^ (F64.ulpExp y + 52) :=
        zpow_le_zpow_right₀ (by norm_num) (by omega)
      linarith
    · unfold F64.roundQ
      rw [heq]
      have hu := F64.ulp_pos y
      have := F64.roundEven_mono (div_le_div_of_nonneg_right h hu.le)
      exact mul_le_mul_of_nonneg_right (by exact_mod_cast this) hu.le

theorem F64.roundEven_eq_of_near (x : ℚ) (n : Int) (h1 : (n : ℚ) - 1 / 2 < x)
    (h2 : x < n + 1 / 2) : F64.roundEven x = n := by
  rcases le_or_lt (n : ℚ) x with h | h
  · have hf : ⌊x⌋ = n := Int.floor_eq_iff.mpr ⟨h, by linarith⟩
    unfold F64.roundEven
    rw [hf, if_pos (by linarith)]
  · have hf : ⌊x⌋ = n - 1 := Int.floor_eq_iff.mpr ⟨by push_cast; linarith, by push_cast; linarith⟩
    unfold F64.roundEven
    rw [hf, if_neg (by push_cast; linarith), if_pos (by push_cast; linarith)]
    omega

theorem F64.log_eq (q : ℚ) (e : Int) (h1 : 2 ^ e ≤ |q|) (h2 : |q| < 2 ^ (e + 1)) :
    Int.log 2 |q| = e := by
  have hpos : 0 < |q| := lt_of_lt_of_le (zpow_pos (by norm_num) e) h1
  have ha : e ≤ Int.log 2 |q| :=
    (Int.zpow_le_iff_le_log (by norm_num) hpos).mp (by rw [Nat.cast_ofNat]; exact h1)
  have hb : Int.log 2 |q| < e + 1 :=
    (Int.lt_zpow_iff_log_lt (by norm_num) hpos).mp (by rw [Nat.cast_ofNat]; exact h2)
  omega

/-- Evaluation of the rounding at a value of the normal range: `n` is the integer nearest
to `q` counted in units in the last place. -/
theorem F64.roundQ_eq_of_near (q : ℚ) (e n : Int) (h1 : 2 ^ e ≤ |q|) (h2 : |q| < 2 ^ (e + 1))
    (he : -1022 ≤ e) (hn1 : (n : ℚ) - 1 / 2 < q / 2 ^ (e - 52))
    (hn2 : q / 2 ^ (e - 52) < n + 1 / 2) : F64.roundQ q = n * 2 ^ (e - 52) := by
  have hu : F64.ulpExp q = e - 52 := by
    unfold F64.ulpExp
    rw [F64.log_eq q e h1 h2, max_eq_left he]
  unfold F64.roundQ
  rw [hu, F64.roundEven_eq_of_near _ n hn1 hn2]

/-- The values `k * 2^j` with `|k| < 2^53` and `j ≥ -1074` are fixed by the rounding. -/
theorem F64.roundQ_dyadic (k j : Int) (hk : |k| < 2 ^ 53) (hj : -1074 ≤ j) :
    F64.roundQ (k * 2 ^ j) = k * 2 ^ j := by
  by_cases h0 : k = 0
  · subst h0
    unfold F64.roundQ
    simp [F64.roundEven]
  have hq : (k : ℚ) * 2 ^ j ≠ 0 := mul_ne_zero (by exact_mod_cast h0) (zpow_ne_zero _ (by norm_num))
  have hlt : |(k : ℚ) * 2 ^ j| < 2 ^ (53 + j) := by
    rw [abs_mul, abs_of_pos (zpow_pos (by norm_num : (0 : ℚ) < 2) j), zpow_add₀ (by norm_num)]
    refine mul_lt_mul_of_pos_right ?_ (zpow_pos (by norm_num) j)
    have : ((|k| : Int) : ℚ) < ((2 ^ 53 : Int) : ℚ) := by exact_mod_cast hk
    push_cast at this
    exact_mod_cast this
  have hlog : Int.log 2 |(k : ℚ) * 2 ^ j| < 53 + j :=
    (Int.lt_zpow_iff_log_lt (by norm_num) (abs_pos.mpr hq)).mp (by rw [Nat.cast_ofNat]; exact hlt)
  have he : F64.ulpExp ((k : ℚ) * 2 ^ j) ≤ j := by
    unfold F64.ulpExp
    have := max_le (by omega : Int.log 2 |(k : ℚ) * 2 ^ j| ≤ j + 52) (by omega : (-1022 : Int) ≤ j + 52)
    omega
  obtain ⟨n, hn⟩ := Int.eq_ofNat_of_zero_le (by omega : 0 ≤ j - F64.ulpExp ((k : ℚ) * 2 ^ j))
  have hj2 : j = F64.ulpExp ((k : ℚ) * 2 ^ j) + n := by omega
  have key : ∀ (e : Int) (n : ℕ), j = e + n → ((k * 2 ^ n : Int) : ℚ) * 2 ^ e = k * 2 ^ j := by
    intro e n h
    rw [h, F64.zpow_split]
    push_cast
    ring
  have hkey := key _ n hj2
  unfold F64.roundQ
  have hdiv : (k : ℚ) * 2 ^ j / 2 ^ F64.ulpExp ((k : ℚ) * 2 ^ j) = ((k * 2 ^ n : Int) : ℚ) := by
    rw [div_eq_iff (zpow_ne_zero _ (by norm_num))]
    exact hkey.symm
  rw [hdiv, F64.roundEven_intCast]
  exact hkey

theorem F64.round_of_fixed (q : ℚ) (neg : Bool) (h0 : q ≠ 0) (hfix : F64.roundQ q = q)
    (hlt : |q| < 2 ^ 1024) : F64.round q neg = F64.fin q := by
  unfold F64.round
  rw [if_neg h0, hfix, if_neg (not_le.mpr hlt), if_neg h0]

theorem F64.round_natCast (n : Nat) (h : n ≤ 9007199254740992) :
    F64.round (n : ℚ) false = F64.fin n := by
  by_cases h0 : n = 0
  · subst h0
    simp [F64.round, F64.zero]
  have hq : (n : ℚ) ≠ 0 := by exact_mod_cast h0
  have hlt : |(n : ℚ)| < 2 ^ 1024 := by
    rw [abs_of_nonneg (by positivity)]
    have : (n : ℚ) ≤ 9007199254740992 := by exact_mod_cast h
    refine lt_of_le_of_lt this ?_
    norm_num
  refine F64.round_of_fixed _ _ hq ?_ hlt
  rcases lt_or_eq_of_le h with h1 | h1
  · have := F64.roundQ_dyadic (n : Int) 0 (by rw [abs_of_nonneg (by omega)]; omega) (by norm_num)
    simpa using this
  · have := F64.roundQ_dyadic 4503599627370496 1 (by norm_num) (by norm_num)
    rw [h1]
    norm_num at this ⊢
    exact this

theorem F64.ofNat_of_le (n : Nat) (h : n ≤ 9007199254740992) : F64.ofNat n = F64.fin n :=
  F64.round_natCast n h

/-- Rounding stays below every bound that is itself a `float64`. -/
theorem F64.round_LeRat {q c : ℚ} (neg : Bool) (h : q ≤ c) (hc : F64.roundQ c = c)
    (hc2 : c < 2 ^ 1024) : F64.LeRat (F64.round q neg) c := by
  have hm := F64.roundQ_mono h
  rw [hc] at hm
  unfold F64.round
  by_cases h0 : q = 0
  · rw [if_pos h0]
    subst h0
    cases neg <;> exact h
  rw [if_neg h0]
  by_cases hov : (2 : ℚ) ^ 1024 ≤ |F64.roundQ q|
  · rw [if_pos hov]
    rcases lt_or_gt_of_ne h0 with hneg | hpos
    · simp [F64.inf, hneg, F64.LeRat]
    · exfalso
      rw [abs_of_nonneg (F64.roundQ_nonneg hpos.le)] at hov
      linarith
  rw [if_neg hov]
  by_cases hz : F64.roundQ q = 0
  · rw [if_pos hz]
    rw [hz] at hm
    unfold F64.zero
    split <;> exact hm
  · rw [if_neg hz]
    exact hm

/-- Rounding stays above every bound that is itself a `float64`. -/
theorem F64.round_GeRat {q c : ℚ} (neg : Bool) (h : c ≤ q) (hc : F64.roundQ c = c)
    (hc2 : -(2 ^ 1024) < c) : F64.GeRat (F64.round q neg) c := by
  have hm := F64.roundQ_mono h
  rw [hc] at hm
  unfold F64.round
  by_cases h0 : q = 0
  · rw [if_pos h0]
    subst h0
    cases neg <;> exact h
  rw [if_neg h0]
  by_cases hov : (2 : ℚ) ^ 1024 ≤ |F64.roundQ q|
  · rw [if_pos hov]
    rcases lt_or_gt_of_ne h0 with hneg | hpos
    · exfalso
      rw [abs_of_nonpos (F64.roundQ_nonpos hneg.le)] at hov
      linarith
    · simp [F64.inf, not_lt.mpr hpos.le, F64.GeRat]
  rw [if_neg hov]
  by_cases hz : F64.roundQ q = 0
  · rw [if_pos hz]
    rw [hz] at hm
    unfold F64.zero
    split <;> exact hm
  · rw [if_neg hz]
    exact hm

/-! ## Lemmas on `float64` comparisons -/

theorem F64.lt_asymm (a b : F64) (h : F64.lt a b = true) : F64.lt b a = false := by
  cases a <;> cases b <;> simp_all [F64.lt] <;> exact le_of_lt h

theorem F64.gt_ofInt (a b : Int) : F64.gt (F64.ofInt a) (F64.ofInt b) = true ↔ b < a := by
  simp [F64.gt, F64.ofInt, F64.lt]

theorem F64.roundQ_intCast (k : Int) (hk : |k| < 2 ^ 53) : F64.roundQ (k : ℚ) = k := by
  simpa using F64.roundQ_dyadic k 0 hk (by norm_num)

theorem F64.round_flag (q : ℚ) (h : q ≠ 0) (n1 n2 : Bool) : F64.round q n1 = F64.round q n2 := by
  unfold F64.round
  rw [if_neg h, if_neg h]

theorem F64.add_fin (a b : ℚ) :
    F64.add (F64.fin a) (F64.fin b) = F64.round (a + b) (decide (a < 0) && decide (b < 0)) := rfl

theorem F64.sub_fin (a b : ℚ) : F64.sub (F64.fin a) (F64.fin b) = F64.round (a - b) false := by
  show F64.add (F64.fin a) (if b = 0 then F64.negZero else F64.fin (-b)) = _
  by_cases hb : b = 0
  · rw [if_pos hb]
    subst hb
    show F64.round (a + 0) (decide (a < 0) && true) = _
    rw [add_zero, sub_zero, Bool.and_true]
    by_cases ha : a = 0
    · subst ha
      simp [F64.round]
    · exact F64.round_flag a ha _ _
  · rw [if_neg hb, F64.add_fin, ← sub_eq_add_neg]
    by_cases hab : a - b = 0
    · have : a = b := by linarith
      subst this
      rw [sub_self]
      have : (decide (a < 0) && decide (-a < 0)) = false := by
        rw [Bool.and_eq_false_iff, decide_eq_false_iff_not, decide_eq_false_iff_not]
        by_cases h : a < 0
        · right; linarith
        · left; exact h
      rw [this]
    · exact F64.round_flag _ hab _ _

theorem F64.mul_fin (a b : ℚ) :
    F64.mul (F64.fin a) (F64.fin b) = F64.round (a * b) (decide (a < 0) != decide (b < 0)) := rfl

theorem F64.div_fin (a b : ℚ) (hb : b ≠ 0) :
    F64.div (F64.fin a) (F64.fin b) = F64.round (a / b) (decide (a < 0) != decide (b < 0)) := by
  unfold F64.div
  simp [F64.isNaN, F64.isInf, F64.val, F64.sign, hb]

theorem F64.lt_of_LeRat {x : F64} {c : ℚ} (h : F64.LeRat x c) : F64.lt (F64.fin c) x = false := by
  cases x <;> simp_all [F64.LeRat, F64.lt]

theorem F64.lt_of_GeRat {x : F64} {c d : ℚ} (h : F64.GeRat x c) (hd : d < c) :
    F64.lt (F64.fin d) x = true := by
  cases x <;> simp_all [F64.GeRat, F64.lt] <;> linarith

/-- The rounded difference of two integers exceeds 6 exactly when the difference does. -/
theorem F64.gt_sub_ofInt_six (a b : Int) :
    F64.gt (F64.sub (F64.ofInt a) (F64.ofInt b)) (F64.fin 6) = true ↔ 6 < a - b := by
  unfold F64.gt F64.ofInt
  rw [F64.sub_fin]
  constructor
  · intro h
    by_contra hc
    have hle : (a : ℚ) - b ≤ 6 := by
      have : a - b ≤ 6 := by omega
      exact_mod_cast this
    have h6 : F64.roundQ 6 = 6 := by
      simpa using F64.roundQ_intCast 6 (by norm_num)
    have := F64.lt_of_LeRat (F64.round_LeRat false hle h6 (by norm_num))
    rw [this] at h
    exact Bool.false_ne_true h
  · intro h
    have hge : (7 : ℚ) ≤ (a : ℚ) - b := by
      have : 7 ≤ a - b := by omega
      exact_mod_cast this
    have h7 : F64.roundQ 7 = 7 := by
      simpa using F64.roundQ_intCast 7 (by norm_num)
    exact F64.lt_of_GeRat (F64.round_GeRat false hge h7 (by norm_num)) (by norm_num)

/-! ## Lemmas on `float64` arithmetic -/

theorem F64.isFloat_intCast (k : Int) (hk : |k| < 2 ^ 53) : F64.IsFloat (k : ℚ) := by
  refine ⟨F64.roundQ_intCast k hk, ?_⟩
  have h1 : ((|k| : Int) : ℚ) < ((2 ^ 53 : Int) : ℚ) := by exact_mod_cast hk
  rw [Int.cast_abs] at h1
  refine lt_trans h1 ?_
  norm_num

theorem F64.zpow_1024 : (2 : ℚ) ^ (1024 : Int) = 2 ^ 1024 := zpow_natCast 2 1024

theorem F64.isFloat_zpow (j : Int) (h1 : -1074 ≤ j) (h2 : j < 1024) :
    F64.IsFloat ((2 : ℚ) ^ j) := by
  have h := F64.roundQ_dyadic 1 j (by norm_num) h1
  rw [Int.cast_one, one_mul] at h
  refine ⟨h, ?_⟩
  rw [abs_of_pos (zpow_pos (by norm_num) j)]
  have : (2 : ℚ) ^ j < 2 ^ (1024 : Int) := zpow_lt_zpow_right₀ (by norm_num) h2
  rw [F64.zpow_1024] at this
  exact this

theorem F64.round_le {q c : ℚ} (neg : Bool) (h : q ≤ c) (hc : F64.IsFloat c) :
    F64.LeRat (F64.round q neg) c :=
  F64.round_LeRat neg h hc.1 (lt_of_le_of_lt (le_abs_self c) hc.2)

theorem F64.round_ge {q c : ℚ} (neg : Bool) (h : c ≤ q) (hc : F64.IsFloat c) :
    F64.GeRat (F64.round q neg) c :=
  F64.round_GeRat neg h hc.1 (by have := lt_of_le_of_lt (neg_le_abs c) hc.2; linarith)

/-- The rounding of a value between 0 and a `float64` bound is a finite value between 0 and
that bound, and never `-0`. -/
theorem F64.round_nonneg {q c : ℚ} (h0 : 0 ≤ q) (h : q ≤ c) (hc : F64.IsFloat c) :
    ∃ r, F64.round q false = F64.fin r ∧ 0 ≤ r ∧ r ≤ c := by
  have hm := F64.roundQ_mono h
  rw [hc.1] at hm
  have hr0 := F64.roundQ_nonneg h0
  unfold F64.round
  by_cases hq : q = 0
  · rw [if_pos hq]
    exact ⟨0, rfl, le_refl _, by linarith⟩
  rw [if_neg hq, if_neg (by
    rw [abs_of_nonneg hr0, not_le]
    exact lt_of_le_of_lt hm (lt_of_le_of_lt (le_abs_self c) hc.2))]
  by_cases hz : F64.roundQ q = 0
  · rw [if_pos hz, decide_eq_false (not_lt.mpr h0)]
    exact ⟨0, rfl, le_refl _, by linarith⟩
  · rw [if_neg hz]
    exact ⟨_, rfl, hr0, hm⟩

theorem F64.ofNat_eq (n : Nat) (q : ℚ) (h : n ≤ 9007199254740992) (hq : (n : ℚ) = q) :
    F64.ofNat n = F64.fin q := by
  rw [← hq]
  exact F64.ofNat_of_le n h

/-- The conversion of a `uint64` is finite and not negative. -/
theorem F64.ofNat_nonneg (n : Nat) (h : n < 18446744073709551616) :
    ∃ r, F64.ofNat n = F64.fin r ∧ 0 ≤ r ∧ r ≤ 2 ^ (64 : Int) := by
  refine F64.round_nonneg (Nat.cast_nonneg n) ?_ (F64.isFloat_zpow 64 (by norm_num) (by norm_num))
  have : (n : ℚ) ≤ 18446744073709551616 := by exact_mod_cast h.le
  refine le_trans this ?_
  norm_num

/-- The sum of two conversions of `uint64` values is finite and not negative. -/
theorem F64.add_ofNat_nonneg (a b : Nat) (ha : a < 18446744073709551616)
    (hb : b < 18446744073709551616) :
    ∃ r, F64.add (F64.ofNat a) (F64.ofNat b) = F64.fin r ∧ 0 ≤ r := by
  obtain ⟨x, hx, hx0, hx1⟩ := F64.ofNat_nonneg a ha
  obtain ⟨y, hy, hy0, hy1⟩ := F64.ofNat_nonneg b hb
  rw [hx, hy, F64.add_fin, decide_eq_false (not_lt.mpr hx0), Bool.false_and]
  obtain ⟨r, hr, hr0, -⟩ := F64.round_nonneg (add_nonneg hx0 hy0)
    (show x + y ≤ 2 ^ (65 : Int) by
      have : (2 : ℚ) ^ (65 : Int) = 2 ^ (64 : Int) + 2 ^ (64 : Int) := by norm_num
      rw [this]; exact add_le_add hx1 hy1)
    (F64.isFloat_zpow 65 (by norm_num) (by norm_num))
  exact ⟨r, hr, hr0⟩

theorem F64.sub_LeRat (m q : ℚ) (hq : 0 ≤ q) (hm : F64.IsFloat m) :
    F64.LeRat (F64.sub (F64.fin m) (F64.fin q)) m := by
  rw [F64.sub_fin]
  exact F64.round_le false (by linarith) hm

theorem F64.div_neg_GeRat {a : F64} {c m d : ℚ} (h : F64.LeRat a c) (hc : c < 0) (hm : m < 0)
    (hcd : d ≤ c / m) (hd : F64.IsFloat d) :
    F64.GeRat (F64.div a (F64.fin m)) d := by
  cases a with
  | fin r =>
    rw [F64.div_fin r m hm.ne]
    exact F64.round_ge _ (le_trans hcd (div_le_div_of_nonpos_of_le hm.le h)) hd
  | negZero => exact absurd (show (0 : ℚ) ≤ c from h) (not_le.mpr hc)
  | negInf =>
    have : F64.div F64.negInf (F64.fin m) = F64.posInf := by
      simp [F64.div, F64.isNaN, F64.isInf, F64.sign, F64.inf, hm]
    rw [this]
    trivial
  | posInf => exact absurd h (by simp [F64.LeRat])
  | nan => exact absurd h (by simp [F64.LeRat])

theorem F64.mul_pos_GeRat {a : F64} {c k d : ℚ} (h : F64.GeRat a c) (hc : 0 < c) (hk : 0 < k)
    (hcd : d ≤ k * c) (hd : F64.IsFloat d) :
    F64.GeRat (F64.mul (F64.fin k) a) d := by
  cases a with
  | fin r =>
    rw [F64.mul_fin]
    exact F64.round_ge _ (le_trans hcd (mul_le_mul_of_nonneg_left h hk.le)) hd
  | negZero => exact absurd (show c ≤ (0 : ℚ) from h) (not_le.mpr hc)
  | posInf =>
    have : F64.mul (F64.fin k) F64.posInf = F64.posInf := by
      simp [F64.mul, F64.isNaN, F64.isInf, F64.val, F64.sign, F64.inf, hk.ne',
        not_lt.mpr hk.le]
    rw [this]
    trivial
  | negInf => exact absurd h (by simp [F64.GeRat])
  | nan => exact absurd h (by simp [F64.LeRat, F64.GeRat])

/-- Evaluation of the rounding at a value of the normal range, from the nearest integer `n`
of `q` counted in units in the last place. -/
theorem F64.round_of_roundEven (q : ℚ) (e n : Int) (neg : Bool) (h1 : 2 ^ e ≤ |q|)
    (h2 : |q| < 2 ^ (e + 1)) (he : -1022 ≤ e) (he2 : e < 1023)
    (hre : F64.roundEven (q / 2 ^ (e - 52)) = n) :
    F64.round q neg = F64.fin (n * 2 ^ (e - 52)) := by
  have hpos : 0 < |q| := lt_of_lt_of_le (zpow_pos (by norm_num) e) h1
  have hq0 : q ≠ 0 := abs_pos.mp hpos
  have hu : F64.ulpExp q = e - 52 := by
    unfold F64.ulpExp
    rw [F64.log_eq q e h1 h2, max_eq_left he]
  have hlog : -1022 ≤ Int.log 2 |q| := by rw [F64.log_eq q e h1 h2]; exact he
  have hr : F64.roundQ q = n * 2 ^ (e - 52) := by
    unfold F64.roundQ
    rw [hu, hre]
  have hup := F64.roundQ_le_zpow q
  have hlo := F64.neg_zpow_le_roundQ q
  rw [hu, show e - 52 + 53 = e + 1 by ring] at hup hlo
  have h1023 : (2 : ℚ) ^ (e + 1) < 2 ^ 1024 := by
    have : (2 : ℚ) ^ (e + 1) < 2 ^ (1024 : Int) := zpow_lt_zpow_right₀ (by norm_num) (by omega)
    rw [F64.zpow_1024] at this
    exact this
  have hnz : F64.roundQ q ≠ 0 := by
    have hz := zpow_pos (by norm_num : (0 : ℚ) < 2) (F64.ulpExp q + 52)
    rcases lt_or_gt_of_ne hq0 with hneg | hp
    · have := F64.roundQ_le_neg_zpow hneg hlog
      linarith
    · have := F64.zpow_le_roundQ hp hlog
      linarith
  unfold F64.round
  rw [if_neg hq0, if_neg (by
    rw [not_le, abs_lt]
    constructor <;> linarith), if_neg hnz, hr]

/-- Evaluation of the rounding away from a tie. -/
theorem F64.round_near (q : ℚ) (e n : Int) (neg : Bool) (h1 : 2 ^ e ≤ |q|)
    (h2 : |q| < 2 ^ (e + 1)) (he : -1022 ≤ e) (he2 : e < 1023)
    (hn1 : (n : ℚ) - 1 / 2 < q / 2 ^ (e - 52)) (hn2 : q / 2 ^ (e - 52) < n + 1 / 2) :
    F64.round q neg = F64.fin (n * 2 ^ (e - 52)) :=
  F64.round_of_roundEven q e n neg h1 h2 he he2 (F64.roundEven_eq_of_near _ n hn1 hn2)

/-- Evaluation of the rounding at a positive value, away from a tie. -/
theorem F64.round_near_pos (q : ℚ) (e n : Int) (neg : Bool) (hq : 0 < q) (h1 : 2 ^ e ≤ q)
    (h2 : q < 2 ^ (e + 1)) (he : -1022 ≤ e) (he2 : e < 1023)
    (hn1 : (n : ℚ) - 1 / 2 < q / 2 ^ (e - 52)) (hn2 : q / 2 ^ (e - 52) < n + 1 / 2) :
    F64.round q neg = F64.fin (n * 2 ^ (e - 52)) :=
  F64.round_near q e n neg (by rwa [abs_of_pos hq]) (by rwa [abs_of_pos hq]) he he2 hn1 hn2

/-- The rounding leaves an integer below `2^53` in magnitude as it is. -/
theorem F64.round_eq_int (q v : ℚ) (k : Int) (neg : Bool) (hk : |k| < 2 ^ 53) (h0 : k ≠ 0)
    (hq : q = v) (hv : v = k) : F64.round q neg = F64.fin v := by
  rw [hq, hv]
  exact F64.round_of_fixed _ _ (by exact_mod_cast h0) (F64.roundQ_intCast k hk)
    (F64.isFloat_intCast k hk).2

/-- The rounding leaves `k * 2^j` with `|k| < 2^53` as it is. -/
theorem F64.round_eq_dyadic (q v : ℚ) (k j : Int) (neg : Bool) (hk : |k| < 2 ^ 53) (h0 : k ≠ 0)
    (hj : -1074 ≤ j) (hj2 : j < 971) (hq : q = v) (hv : v = k * 2 ^ j) :
    F64.round q neg = F64.fin v := by
  rw [hq, hv]
  refine F64.round_of_fixed _ _ (mul_ne_zero (by exact_mod_cast h0) (zpow_ne_zero _ (by norm_num)))
    (F64.roundQ_dyadic k j hk hj) ?_
  rw [abs_mul, abs_of_pos (zpow_pos (by norm_num : (0 : ℚ) < 2) j)]
  have h1 : |(k : ℚ)| < 2 ^ (53 : Int) := by
    have : ((|k| : Int) : ℚ) < ((2 ^ 53 : Int) : ℚ) := by exact_mod_cast hk
    rw [Int.cast_abs] at this
    exact_mod_cast this
  have h2 : (2 : ℚ) ^ j ≤ 2 ^ (971 : Int) := zpow_le_zpow_right₀ (by norm_num) (by omega)
  have h3 : |(k : ℚ)| * 2 ^ j < 2 ^ (53 : Int) * 2 ^ (971 : Int) :=
    mul_lt_mul h1 h2 (zpow_pos (by norm_num) j) (by positivity)
  rw [← zpow_add₀ (by norm_num : (2 : ℚ) ≠ 0), show (53 : Int) + 971 = 1024 by norm_num,
    F64.zpow_1024] at h3
  exact h3

/-! ## Lemmas on `Rule.Snapshot` -/

theorem GetTransferDurationStart_isSome (r : Rule) (now : Time) (h : r.interval ≠ 0) :
    ∃ start, r.GetTransferDurationStart now = some start := by
  unfold Rule.GetTransferDurationStart
  exact ⟨_, if_neg h⟩

theorem cyclic_of_type_eq {r : Rule} {t : String} (ht : r.Type_ = t)
    (hs : HasSuffix t "_cycle" = true) : r.IsTransferDurationRule = true := by
  unfold Rule.IsTransferDurationRule
  rw [ht]; exact hs

theorem not_cyclic_of_type_eq {r : Rule} {t : String} (ht : r.Type_ = t)
    (hs : HasSuffix t "_cycle" = false) : r.IsTransferDurationRule = false := by
  unfold Rule.IsTransferDurationRule
  rw [ht]; exact hs

theorem type_ne_offline_of_cyclic {r : Rule} (h : r.IsTransferDurationRule = true) :
    r.Type_ ≠ "offline" := by
  intro ht
  rw [not_cyclic_of_type_eq ht (by decide)] at h
  exact Bool.false_ne_true h

theorem ite_ne_none {α : Type} {c : Prop} [Decidable c] {a b : Option α}
    (ha : c → a ≠ none) (hb : ¬ c → b ≠ none) : (if c then a else b) ≠ none := by
  by_cases h : c
  · rw [if_pos h]; exact ha h
  · rw [if_neg h]; exact hb h

theorem map_start_ne_none {α : Type} (r : Rule) (now : Time) (f : Time → α)
    (h : r.interval ≠ 0) : (r.GetTransferDurationStart now).map f ≠ none := by
  obtain ⟨start, hstart⟩ := GetTransferDurationStart_isSome r now h
  rw [hstart]; exact Option.some_ne_none _

theorem sample_ne_none (r : Rule) (server : Server) (db : List Transfer) (now : Time)
    (h : r.IsTransferDurationRule = true → r.interval ≠ 0) :
    r.sample server db now ≠ none := by
  unfold Rule.sample
  refine ite_ne_none (fun _ => Option.some_ne_none _) (fun _ => ?_)
  refine ite_ne_none (fun _ => Option.some_ne_none _) (fun _ => ?_)
  refine ite_ne_none (fun _ => Option.some_ne_none _) (fun _ => ?_)
  refine ite_ne_none (fun _ => Option.some_ne_none _) (fun _ => ?_)
  refine ite_ne_none (fun _ => Option.some_ne_none _) (fun _ => ?_)
  refine ite_ne_none (fun _ => Option.some_ne_none _) (fun _ => ?_)
  refine ite_ne_none (fun _ => Option.some_ne_none _) (fun _ => ?_)
  refine ite_ne_none (fun _ => Option.some_ne_none _) (fun _ => ?_)
  refine ite_ne_none (fun _ => Option.some_ne_none _) (fun _ => ?_)
  refine ite_ne_none (fun _ => Option.some_ne_none _) (fun _ => ?_)
  refine ite_ne_none (fun _ => ite_ne_none (fun _ => Option.some_ne_none _)
    (fun _ => Option.some_ne_none _)) (fun _ => ?_)
  refine ite_ne_none (fun ht => ite_ne_none
    (fun _ => map_start_ne_none r now _ (h (cyclic_of_type_eq ht (by decide))))
    (fun _ => Option.some_ne_none _)) (fun _ => ?_)
  refine ite_ne_none (fun ht => ite_ne_none
    (fun _ => map_start_ne_none r now _ (h (cyclic_of_type_eq ht (by decide))))
    (fun _ => Option.some_ne_none _)) (fun _ => ?_)
  refine ite_ne_none (fun ht => ite_ne_none
    (fun _ => map_start_ne_none r now _ (h (cyclic_of_type_eq ht (by decide))))
    (fun _ => Option.some_ne_none _)) (fun _ => ?_)
  refine ite_ne_none (fun _ => Option.some_ne_none _) (fun _ => ?_)
  refine ite_ne_none (fun _ => Option.some_ne_none _) (fun _ => ?_)
  refine ite_ne_none (fun _ => Option.some_ne_none _) (fun _ => ?_)
  refine ite_ne_none (fun _ => Option.some_ne_none _) (fun _ => ?_)
  refine ite_ne_none (fun _ => Option.some_ne_none _) (fun _ => ?_)
  refine ite_ne_none (fun _ => Option.some_ne_none _) (fun _ => ?_)
  exact Option.some_ne_none _

theorem sample_isSome (r : Rule) (server : Server) (db : List Transfer) (now : Time)
    (h : r.IsTransferDurationRule = true → r.interval ≠ 0) :
    ∃ src, r.sample server db now = some src :=
  Option.ne_none_iff_exists'.mp (sample_ne_none r server db now h)

/-- A skipped host: `Rule.Snapshot` returns `nil` and touches nothing. -/
theorem Snapshot_skipped (r : Rule) (stats : CycleTransferStats) (server : Server)
    (db : List Transfer) (now : Time)
    (h : r.excluded server.ID = true ∨ r.notIncluded server.ID = true) :
    r.Snapshot stats server db now = some ⟨none, r, stats⟩ := by
  unfold Rule.Snapshot
  rcases h with h | h
  · rw [if_pos h]
  · by_cases h1 : r.excluded server.ID = true
    · rw [if_pos h1]
    · rw [if_neg h1, if_pos h]

/-- A debounced evaluation: `Rule.Snapshot` returns the cached status and touches nothing. -/
theorem Snapshot_debounced (r : Rule) (stats : CycleTransferStats) (server : Server)
    (db : List Transfer) (now : Time)
    (hex : r.excluded server.ID = false) (hni : r.notIncluded server.ID = false)
    (hdeb : r.debounced server.ID now = true) :
    r.Snapshot stats server db now = some ⟨r.LastCycleStatus server.ID, r, stats⟩ := by
  unfold Rule.Snapshot
  rw [hex, hni, hdeb, if_neg Bool.false_ne_true, if_neg Bool.false_ne_true, if_pos rfl]

/-- A sampling evaluation of a rule that is not cyclic. -/
theorem Snapshot_plain (r : Rule) (stats : CycleTransferStats) (server : Server)
    (db : List Transfer) (now : Time) (src : F64)
    (hex : r.excluded server.ID = false) (hni : r.notIncluded server.ID = false)
    (hcyc : r.IsTransferDurationRule = false) (hs : r.sample server db now = some src) :
    r.Snapshot stats server db now = some ⟨r.decision src now, r, stats⟩ := by
  have hdeb : r.debounced server.ID now = false := by
    unfold Rule.debounced
    rw [hcyc, Bool.false_and]
  unfold Rule.Snapshot
  rw [hex, hni, hdeb, hs, if_neg Bool.false_ne_true, if_neg Bool.false_ne_true,
    if_neg Bool.false_ne_true, Option.some_bind, hcyc, if_neg Bool.false_ne_true]

theorem fillStats_isSome (r : Rule) (stats : CycleTransferStats) (server : Server)
    (src : F64) (now : Time) (h : r.interval ≠ 0) :
    ∃ stats1, r.fillStats stats server src now = some stats1 := by
  obtain ⟨start, hstart⟩ := GetTransferDurationStart_isSome r now h
  unfold Rule.fillStats
  rw [hstart]
  exact ⟨_, rfl⟩

/-- A sampling evaluation of a cyclic rule. -/
theorem Snapshot_cyclic (r : Rule) (stats : CycleTransferStats) (server : Server)
    (db : List Transfer) (now : Time) (src : F64)
    (hex : r.excluded server.ID = false) (hni : r.notIncluded server.ID = false)
    (hdeb : r.debounced server.ID now = false)
    (hcyc : r.IsTransferDurationRule = true) (hint : r.interval ≠ 0)
    (hs : r.sample server db now = some src) :
    ∃ stats1, (r.rearmCaches server src now).fillStats stats server src now = some stats1 ∧
      r.Snapshot stats server db now =
        some ⟨r.decision src now, r.rearmCaches server src now, stats1⟩ := by
  have hint2 : (r.rearmCaches server src now).interval ≠ 0 := hint
  obtain ⟨stats1, h1⟩ :=
    fillStats_isSome (r.rearmCaches server src now) stats server src now hint2
  refine ⟨stats1, h1, ?_⟩
  unfold Rule.Snapshot
  rw [hex, hni, hdeb, hs, if_neg Bool.false_ne_true, if_neg Bool.false_ne_true,
    if_neg Bool.false_ne_true, Option.some_bind, hcyc, if_pos rfl, h1]
  rfl

/-- Every sampling evaluation returns the decision on the sampled value. -/
theorem Snapshot_sampled (r : Rule) (stats : CycleTransferStats) (server : Server)
    (db : List Transfer) (now : Time)
    (hex : r.excluded server.ID = false) (hni : r.notIncluded server.ID = false)
    (hdeb : r.debounced server.ID now = false)
    (hrun : r.IsTransferDurationRule = true → r.interval ≠ 0) :
    ∃ src res, r.sample server db now = some src ∧
      r.Snapshot stats server db now = some res ∧ res.ret = r.decision src now := by
  obtain ⟨src, hs⟩ := sample_isSome r server db now hrun
  by_cases hcyc : r.IsTransferDurationRule = true
  · obtain ⟨stats1, -, h⟩ := Snapshot_cyclic r stats server db now src hex hni hdeb hcyc
      (hrun hcyc) hs
    exact ⟨src, _, hs, h, rfl⟩
  · rw [Bool.not_eq_true] at hcyc
    exact ⟨src, _, hs, Snapshot_plain r stats server db now src hex hni hcyc hs, rfl⟩

theorem decision_of_ne_offline (r : Rule) (src : F64) (now : Time) (h : r.Type_ ≠ "offline") :
    r.decision src now = if r.outOfBounds src then some () else none := by
  simp [Rule.decision, h]

theorem outOfBounds_iff (r : Rule) (src : F64) :
    r.outOfBounds src = true ↔
      (F64.gt r.Max (F64.fin 0) = true ∧ F64.gt src r.Max = true) ∨
      (F64.gt r.Min (F64.fin 0) = true ∧ F64.lt src r.Min = true) := by
  simp [Rule.outOfBounds]

theorem sample_in_cycle (r : Rule) (server : Server) (db : List Transfer) (now : Time)
    (h : r.Type_ = "transfer_in_cycle") :
    r.sample server db now =
      if r.CycleInterval ≠ 1 then
        (r.GetTransferDurationStart now).map (fun start =>
          F64.add (F64.ofNat (u64sub server.State.NetInTransfer
              (uint64OfInt64 server.PrevHourlyTransferIn)))
            (F64.ofNat (ledgerSum db Transfer.In start server.ID).N))
      else some (F64.ofNat (u64sub server.State.NetInTransfer
        (uint64OfInt64 server.PrevHourlyTransferIn))) := by
  unfold Rule.sample
  rw [h, if_neg (by decide), if_neg (by decide), if_neg (by decide), if_neg (by decide),
    if_neg (by decide), if_neg (by decide), if_neg (by decide), if_neg (by decide),
    if_neg (by decide), if_neg (by decide), if_neg (by decide), if_pos rfl]

theorem sample_out_cycle (r : Rule) (server : Server) (db : List Transfer) (now : Time)
    (h : r.Type_ = "transfer_out_cycle") :
    r.sample server db now =
      if r.CycleInterval ≠ 1 then
        (r.GetTransferDurationStart now).map (fun start =>
          F64.add (F64.ofNat (u64sub server.State.NetOutTransfer
              (uint64OfInt64 server.PrevHourlyTransferOut)))
            (F64.ofNat (ledgerSum db Transfer.Out start server.ID).N))
      else some (F64.ofNat (u64sub server.State.NetOutTransfer
        (uint64OfInt64 server.PrevHourlyTransferOut))) := by
  unfold Rule.sample
  rw [h, if_neg (by decide), if_neg (by decide), if_neg (by decide), if_neg (by decide),
    if_neg (by decide), if_neg (by decide), if_neg (by decide), if_neg (by decide),
    if_neg (by decide), if_neg (by decide), if_neg (by decide), if_neg (by decide), if_pos rfl]

theorem sample_all_cycle (r : Rule) (server : Server) (db : List Transfer) (now : Time)
    (h : r.Type_ = "transfer_all_cycle") :
    r.sample server db now =
      if r.CycleInterval ≠ 1 then
        (r.GetTransferDurationStart now).map (fun start =>
          F64.add (F64.ofNat (u64sub (u64add (u64sub server.State.NetOutTransfer
              (uint64OfInt64 server.PrevHourlyTransferOut)) server.State.NetInTransfer)
              (uint64OfInt64 server.PrevHourlyTransferIn)))
            (F64.ofNat (ledgerSum db (fun t => t.In + t.Out) start server.ID).N))
      else some (F64.ofNat (u64sub (u64add (u64sub server.State.NetOutTransfer
              (uint64OfInt64 server.PrevHourlyTransferOut)) server.State.NetInTransfer)
              (uint64OfInt64 server.PrevHourlyTransferIn))) := by
  unfold Rule.sample
  rw [h, if_neg (by decide), if_neg (by decide), if_neg (by decide), if_neg (by decide),
    if_neg (by decide), if_neg (by decide), if_neg (by decide), if_neg (by decide),
    if_neg (by decide), if_neg (by decide), if_neg (by decide), if_neg (by decide),
    if_neg (by decide), if_pos rfl]

/-- The re-check delay, from the three rounded steps of
`1800 * ((r.Max - src) / r.Max)`. -/
theorem rearmSeconds_of_steps (r : Rule) (m q a b c : ℚ) (hmax : r.Max = F64.fin m)
    (hm : m ≠ 0) (h1 : F64.round (m - q) false = F64.fin a)
    (h2 : F64.round (a / m) (decide (a < 0) != decide (m < 0)) = F64.fin b)
    (h3 : F64.round (1800 * b) (decide ((1800 : ℚ) < 0) != decide (b < 0)) = F64.fin c) :
    r.rearmSeconds (F64.fin q) = if c < 180 then F64.fin 180 else F64.fin c := by
  unfold Rule.rearmSeconds
  rw [hmax, F64.sub_fin, h1, F64.div_fin a m hm, h2, F64.mul_fin, h3]
  simp only [F64.lt]
  by_cases hc : c < 180
  · rw [if_pos hc, if_pos (decide_eq_true hc)]
  · rw [if_neg hc, if_neg (by simp [hc])]

/-! ## Claims on the threshold decision -/

/-- C1. For a rule whose `Type` is not "offline", on a host its coverage matches, an
evaluation that is not short-circuited by the debounce cache (and, for a cyclic rule, does
not divide by a zero cycle interval) samples a value `src` and returns `struct{}{}` exactly
when `(Max > 0 and src > Max) or (Min > 0 and src < Min)`. -/
theorem snapshot_breach_iff_thresholds (r : Rule) (stats : CycleTransferStats)
    (server : Server) (db : List Transfer) (now : Time)
    (htype : r.Type_ ≠ "offline")
    (hex : r.excluded server.ID = false) (hni : r.notIncluded server.ID = false)
    (hdeb : r.debounced server.ID now = false)
    (hrun : r.IsTransferDurationRule = true → r.interval ≠ 0) :
    ∃ src res, r.sample server db now = some src ∧
      r.Snapshot stats server db now = some res ∧
      (res.ret = some () ↔
        (F64.gt r.Max (F64.fin 0) = true ∧ F64.gt src r.Max = true) ∨
        (F64.gt r.Min (F64.fin 0) = true ∧ F64.lt src r.Min = true)) := by
  obtain ⟨src, res, hs, hres, hret⟩ := Snapshot_sampled r stats server db now hex hni hdeb hrun
  refine ⟨src, res, hs, hres, ?_⟩
  rw [hret, decision_of_ne_offline r src now htype, ← outOfBounds_iff]
  cases r.outOfBounds src <;> simp

theorem sample_cpu (r : Rule) (server : Server) (db : List Transfer) (now : Time)
    (h : r.Type_ = "cpu") : r.sample server db now = some server.State.CPU := by
  unfold Rule.sample
  rw [if_pos h]

/-- C1, at a concrete input: the rule `{Type: "cpu", Max: 90}` breaches at `CPU = 95` and does
not breach at `CPU = 50`. -/
theorem snapshot_breach_iff_thresholds_witness :
    (((ruleOf "cpu" (F64.fin 0) (F64.fin 90)).Snapshot emptyStats
        (serverOf 0 0 (stateOf (F64.fin 95) 0)) [] 0).map SnapshotResult.ret = some (some ())) ∧
    (((ruleOf "cpu" (F64.fin 0) (F64.fin 90)).Snapshot emptyStats
        (serverOf 0 0 (stateOf (F64.fin 50) 0)) [] 0).map SnapshotResult.ret = some none) := by
  constructor
  · obtain ⟨src, res, hs, hres, hiff⟩ := snapshot_breach_iff_thresholds
      (ruleOf "cpu" (F64.fin 0) (F64.fin 90)) emptyStats (serverOf 0 0 (stateOf (F64.fin 95) 0))
      [] 0 (by decide) (by decide) (by decide) (by decide) (fun h => absurd h (by decide))
    rw [sample_cpu _ _ _ _ rfl] at hs
    cases hs
    rw [hres]
    have : res.ret = some () := hiff.mpr (Or.inl ⟨by norm_num [ruleOf, F64.gt, F64.lt],
      by norm_num [ruleOf, F64.gt, F64.lt, serverOf, stateOf]⟩)
    rw [Option.map_some', this]
  · obtain ⟨src, res, hs, hres, hiff⟩ := snapshot_breach_iff_thresholds
      (ruleOf "cpu" (F64.fin 0) (F64.fin 90)) emptyStats (serverOf 0 0 (stateOf (F64.fin 50) 0))
      [] 0 (by decide) (by decide) (by decide) (by decide) (fun h => absurd h (by decide))
    rw [sample_cpu _ _ _ _ rfl] at hs
    cases hs
    rw [hres]
    have : res.ret = none := by
      cases hr : res.ret with
      | none => rfl
      | some u =>
        have h2 := hiff.mp hr
        norm_num [ruleOf, F64.gt, F64.lt, serverOf, stateOf] at h2
    rw [Option.map_some', this]

theorem sample_offline (r : Rule) (server : Server) (db : List Transfer) (now : Time)
    (h : r.Type_ = "offline") :
    r.sample server db now = some (F64.ofInt
      (if Time.IsZero server.LastActive = true then 0 else Time.Unix server.LastActive)) := by
  unfold Rule.sample
  rw [h, if_neg (by decide), if_neg (by decide), if_neg (by decide), if_neg (by decide),
    if_neg (by decide), if_neg (by decide), if_neg (by decide), if_neg (by decide),
    if_neg (by decide), if_neg (by decide), if_pos rfl]
  by_cases hz : Time.IsZero server.LastActive = true
  · rw [if_pos hz, if_pos hz]
    simp [F64.ofInt]
  · rw [if_neg hz, if_neg hz]

theorem decision_offline (r : Rule) (now : Time) (last : Int) (h : r.Type_ = "offline") :
    r.decision (F64.ofInt last) now = some () ↔
      (6 < Time.Unix now - last ∨ r.outOfBounds (F64.ofInt last) = true) := by
  have hgt : F64.gt (F64.sub (F64.ofInt (Time.Unix now)) (F64.ofInt last)) (F64.fin 6) = true ↔
      6 < Time.Unix now - last := F64.gt_sub_ofInt_six _ _
  unfold Rule.decision
  by_cases h6 : 6 < Time.Unix now - last
  · rw [if_pos (by simp [h, hgt.mpr h6])]
    simp [h6]
  · have hng : F64.gt (F64.sub (F64.ofInt (Time.Unix now)) (F64.ofInt last)) (F64.fin 6) = false := by
      rw [← Bool.not_eq_true]; exact fun hc => h6 (hgt.mp hc)
    rw [if_neg (by simp [hng])]
    cases r.outOfBounds (F64.ofInt last) <;> simp [h6]

/-- C2 (as amended). For a rule with `Type` "offline" on a host its coverage matches,
`Rule.Snapshot` at time `now` returns `struct{}{}` exactly when `now - src > 6` seconds or
`(Max > 0 and src > Max) or (Min > 0 and src < Min)`, where `src` is the Unix timestamp of
`LastActive`, or 0 when `LastActive` is the zero time.  When neither bound is set the
breach is exactly `now - src > 6`. -/
theorem snapshot_offline_breach_iff (r : Rule) (stats : CycleTransferStats)
    (server : Server) (db : List Transfer) (now : Time)
    (htype : r.Type_ = "offline")
    (hex : r.excluded server.ID = false) (hni : r.notIncluded server.ID = false) :
    ∃ res, r.Snapshot stats server db now = some res ∧
      (res.ret = some () ↔
        (6 < Time.Unix now -
            (if Time.IsZero server.LastActive = true then 0 else Time.Unix server.LastActive) ∨
          (F64.gt r.Max (F64.fin 0) = true ∧
            F64.gt (F64.ofInt (if Time.IsZero server.LastActive = true then 0
              else Time.Unix server.LastActive)) r.Max = true) ∨
          (F64.gt r.Min (F64.fin 0) = true ∧
            F64.lt (F64.ofInt (if Time.IsZero server.LastActive = true then 0
              else Time.Unix server.LastActive)) r.Min = true))) ∧
      (F64.gt r.Max (F64.fin 0) = false → F64.gt r.Min (F64.fin 0) = false →
        (res.ret = some () ↔ 6 < Time.Unix now -
            (if Time.IsZero server.LastActive = true then 0 else Time.Unix server.LastActive))) := by
  have hcyc : r.IsTransferDurationRule = false := not_cyclic_of_type_eq htype (by decide)
  refine ⟨_, Snapshot_plain r stats server db now _ hex hni hcyc
    (sample_offline r server db now htype), ?_, ?_⟩
  · show r.decision _ now = some () ↔ _
    rw [decision_offline r now _ htype, outOfBounds_iff]
  · intro hmax hmin
    show r.decision _ now = some () ↔ _
    rw [decision_offline r now _ htype, outOfBounds_iff, hmax, hmin]
    simp

/-- C2, at a concrete input: an "offline" rule without bounds, evaluated at second 1000,
breaches for a host last active at second 990 and does not for one last active at second
997. -/
theorem snapshot_offline_breach_iff_witness :
    (((ruleOf "offline" (F64.fin 0) (F64.fin 0)).Snapshot emptyStats
        (serverOf 990000000000 0 (stateOf (F64.fin 0) 0)) [] 1000000000000).map
          SnapshotResult.ret = some (some ())) ∧
    (((ruleOf "offline" (F64.fin 0) (F64.fin 0)).Snapshot emptyStats
        (serverOf 997000000000 0 (stateOf (F64.fin 0) 0)) [] 1000000000000).map
          SnapshotResult.ret = some none) := by
  constructor
  · obtain ⟨res, hres, -, h⟩ := snapshot_offline_breach_iff
      (ruleOf "offline" (F64.fin 0) (F64.fin 0)) emptyStats
      (serverOf 990000000000 0 (stateOf (F64.fin 0) 0)) [] 1000000000000 rfl (by decide)
      (by decide)
    have hr : res.ret = some () :=
      (h (by simp [ruleOf, F64.gt, F64.lt]) (by simp [ruleOf, F64.gt, F64.lt])).mpr
        (by norm_num [serverOf, Time.IsZero, Time.zero, Time.Unix])
    rw [hres, Option.map_some', hr]
  · obtain ⟨res, hres, -, h⟩ := snapshot_offline_breach_iff
      (ruleOf "offline" (F64.fin 0) (F64.fin 0)) emptyStats
      (serverOf 997000000000 0 (stateOf (F64.fin 0) 0)) [] 1000000000000 rfl (by decide)
      (by decide)
    have hr : res.ret = none := by
      cases hc : res.ret with
      | none => rfl
      | some u =>
        have h2 := (h (by simp [ruleOf, F64.gt, F64.lt]) (by simp [ruleOf, F64.gt, F64.lt])).mp hc
        norm_num [serverOf, Time.IsZero, Time.zero, Time.Unix] at h2
    rw [hres, Option.map_some', hr]

/-- C2, counterexample.  An "offline" rule with `Min = 2000` on a covered host last active
at second 997, evaluated at second 1000: `now - src = 3`, not more than 6, and still
`Rule.Snapshot` returns `struct{}{}`, because `src = 997 < Min`. -/
theorem snapshot_offline_min_counterexample :
    (ruleOf "offline" (F64.fin 2000) (F64.fin 0)).Type_ = "offline" ∧
    (ruleOf "offline" (F64.fin 2000) (F64.fin 0)).excluded
      (serverOf 997000000000 0 (stateOf (F64.fin 0) 0)).ID = false ∧
    (ruleOf "offline" (F64.fin 2000) (F64.fin 0)).notIncluded
      (serverOf 997000000000 0 (stateOf (F64.fin 0) 0)).ID = false ∧
    Time.Unix 1000000000000 - Time.Unix 997000000000 = 3 ∧
    ((ruleOf "offline" (F64.fin 2000) (F64.fin 0)).Snapshot emptyStats
        (serverOf 997000000000 0 (stateOf (F64.fin 0) 0)) [] 1000000000000).map
          SnapshotResult.ret = some (some ()) := by
  refine ⟨rfl, by decide, by decide, by norm_num [Time.Unix], ?_⟩
  rw [Snapshot_plain _ _ _ _ _ _ (by decide) (by decide) (by decide)
    (sample_offline _ _ _ _ rfl), Option.map_some']
  refine congrArg some ((decision_offline _ _ _ rfl).mpr (Or.inr ?_))
  norm_num [Rule.outOfBounds, ruleOf, serverOf, F64.gt, F64.lt, F64.ofInt, Time.IsZero,
    Time.zero, Time.Unix]

/-! ## Claims on coverage and the debounce cache -/

/-- C3. The two coverage guards of `Rule.Snapshot` fire exactly when
`(Cover = RuleCoverAll and Ignore[host])` or `(Cover = RuleCoverIgnoreAll and not
Ignore[host])`; in that case the call returns `nil`, leaves the rule (so `NextTransferAt`
and `LastCycleStatus`) and the `CycleTransferStats` as they were, and does so for every
ledger, every clock reading and every other snapshot of the same host. -/
theorem snapshot_skip_frame (r : Rule) (stats : CycleTransferStats) (server : Server) :
    ((r.excluded server.ID = true ∨ r.notIncluded server.ID = true) ↔
      ((r.Cover = RuleCoverAll ∧ r.Ignore server.ID = true) ∨
        (r.Cover = RuleCoverIgnoreAll ∧ r.Ignore server.ID = false))) ∧
    (((r.Cover = RuleCoverAll ∧ r.Ignore server.ID = true) ∨
        (r.Cover = RuleCoverIgnoreAll ∧ r.Ignore server.ID = false)) →
      ∀ (server2 : Server) (db : List Transfer) (now : Time), server2.ID = server.ID →
        r.Snapshot stats server2 db now = some ⟨none, r, stats⟩) := by
  have hiff : (r.excluded server.ID = true ∨ r.notIncluded server.ID = true) ↔
      ((r.Cover = RuleCoverAll ∧ r.Ignore server.ID = true) ∨
        (r.Cover = RuleCoverIgnoreAll ∧ r.Ignore server.ID = false)) := by
    simp [Rule.excluded, Rule.notIncluded]
  refine ⟨hiff, fun h server2 db now hid => ?_⟩
  exact Snapshot_skipped r stats server2 db now (by rw [hid]; exact hiff.mpr h)

/-- C4 (as amended). For every rule, cyclic or not, and every host its coverage does not
match, `Rule.Snapshot` returns `nil` (no breach), whatever `LastCycleStatus` holds for that
host, and leaves the rule and the statistics as they were. -/
theorem snapshot_unmatched_no_breach (r : Rule) (stats : CycleTransferStats)
    (server : Server) (db : List Transfer) (now : Time)
    (h : (r.Cover = RuleCoverAll ∧ r.Ignore server.ID = true) ∨
      (r.Cover = RuleCoverIgnoreAll ∧ r.Ignore server.ID = false)) :
    ∃ res, r.Snapshot stats server db now = some res ∧ res.ret = none ∧ res.rule = r ∧
      res.stats = stats := by
  refine ⟨_, Snapshot_skipped r stats server db now ?_, rfl, rfl, rfl⟩
  simpa [Rule.excluded, Rule.notIncluded] using h

/-- C4, at a concrete input: the cyclic rule that ignores host 1 returns `nil` for host 1
although a breach is cached for it. -/
theorem snapshot_unmatched_no_breach_witness :
    excludingRule.IsTransferDurationRule = true ∧
    excludingRule.LastCycleStatus (serverOf 0 0 (stateOf (F64.fin 0) 0)).ID = some () ∧
    ∃ res, excludingRule.Snapshot emptyStats (serverOf 0 0 (stateOf (F64.fin 0) 0)) [] 0 =
        some res ∧ res.ret = none ∧ res.rule = excludingRule ∧ res.stats = emptyStats :=
  ⟨by decide, rfl, snapshot_unmatched_no_breach excludingRule emptyStats
    (serverOf 0 0 (stateOf (F64.fin 0) 0)) [] 0 (Or.inl ⟨rfl, rfl⟩)⟩

/-- C4, counterexample.  A cyclic rule with `Cover = RuleCoverAll` that ignores host 1 and
has a breach cached for it: `Rule.Snapshot` for host 1 returns `nil`, not the cached
`LastCycleStatus`. -/
theorem snapshot_unmatched_cyclic_counterexample :
    excludingRule.IsTransferDurationRule = true ∧
    excludingRule.excluded (serverOf 0 0 (stateOf (F64.fin 0) 0)).ID = true ∧
    excludingRule.LastCycleStatus (serverOf 0 0 (stateOf (F64.fin 0) 0)).ID = some () ∧
    (excludingRule.Snapshot emptyStats (serverOf 0 0 (stateOf (F64.fin 0) 0)) [] 0).map
      SnapshotResult.ret = some none := by
  refine ⟨by decide, by decide, rfl, ?_⟩
  rw [Snapshot_skipped _ _ _ _ _ (Or.inl (by decide))]
  rfl

theorem rearmCaches_next (r : Rule) (server : Server) (src : F64) (now : Time) :
    (r.rearmCaches server src now).NextTransferAt server.ID =
      Time.Add now (Time.mulDuration Time.Second (F64.toInt64 (r.rearmSeconds src))) := by
  unfold Rule.rearmCaches
  exact Function.update_same _ _ _

theorem rearmCaches_status (r : Rule) (server : Server) (src : F64) (now : Time) :
    (r.rearmCaches server src now).LastCycleStatus server.ID =
      if r.outOfBounds src then some () else none := by
  unfold Rule.rearmCaches
  exact Function.update_same _ _ _

/-- C5. For a cyclic rule on a host its coverage matches: a call at `t0` that samples the
metric returns a result, that result is the `LastCycleStatus` it caches for the host, and
every later call at a time `t1` strictly before the `NextTransferAt` it stored returns the
same result and leaves the rule and the statistics unchanged, for every second snapshot of
the host and every ledger. -/
theorem snapshot_debounce_idempotent (r : Rule) (stats : CycleTransferStats)
    (server : Server) (db : List Transfer) (t0 : Time)
    (server2 : Server) (db2 : List Transfer) (t1 : Time)
    (hcyc : r.IsTransferDurationRule = true)
    (hex : r.excluded server.ID = false) (hni : r.notIncluded server.ID = false)
    (hdeb : r.debounced server.ID t0 = false)
    (hint : r.interval ≠ 0)
    (hid : server2.ID = server.ID) :
    ∃ res0, r.Snapshot stats server db t0 = some res0 ∧
      res0.ret = res0.rule.LastCycleStatus server.ID ∧
      (t0 ≤ t1 → t1 < res0.rule.NextTransferAt server.ID →
        res0.rule.Snapshot res0.stats server2 db2 t1 =
          some ⟨res0.ret, res0.rule, res0.stats⟩) := by
  obtain ⟨src, hs⟩ := sample_isSome r server db t0 (fun _ => hint)
  obtain ⟨stats1, -, h0⟩ := Snapshot_cyclic r stats server db t0 src hex hni hdeb hcyc hint hs
  have hret : r.decision src t0 = (r.rearmCaches server src t0).LastCycleStatus server.ID := by
    rw [rearmCaches_status, decision_of_ne_offline r src t0 (type_ne_offline_of_cyclic hcyc)]
  refine ⟨_, h0, hret, fun _ hlt => ?_⟩
  have hdeb2 : (r.rearmCaches server src t0).debounced server2.ID t1 = true := by
    unfold Rule.debounced
    have hc : (r.rearmCaches server src t0).IsTransferDurationRule = true := hcyc
    rw [hc, Bool.true_and, hid]
    unfold Time.After
    exact decide_eq_true hlt
  have hex2 : (r.rearmCaches server src t0).excluded server2.ID = false := by
    rw [hid]; exact hex
  have hni2 : (r.rearmCaches server src t0).notIncluded server2.ID = false := by
    rw [hid]; exact hni
  rw [Snapshot_debounced _ _ _ _ _ hex2 hni2 hdeb2, hid, ← hret]

/-- C5, at a concrete input: a `transfer_in_cycle` rule with `Max = 100` samples 50 at time
0 and re-arms for 900 s; one second later, with other metrics and a non-empty ledger, the
call returns the same result and changes nothing. -/
theorem snapshot_debounce_idempotent_witness :
    ∃ res0, (ruleOf "transfer_in_cycle" (F64.fin 0) (F64.fin 100)).Snapshot emptyStats
        (serverOf 0 0 (stateOf (F64.fin 0) 50)) [] 0 = some res0 ∧
      res0.ret = res0.rule.LastCycleStatus 1 ∧
      res0.rule.NextTransferAt 1 = 900000000000 ∧
      res0.rule.Snapshot res0.stats (serverOf 0 0 (stateOf (F64.fin 0) 5000)) sampleLedger
        1000000000 = some ⟨res0.ret, res0.rule, res0.stats⟩ := by
  have hint : (ruleOf "transfer_in_cycle" (F64.fin 0) (F64.fin 100)).interval ≠ 0 := by
    norm_num [Rule.interval, int64OfUint64, wrapInt64, ruleOf]
  have hs : (ruleOf "transfer_in_cycle" (F64.fin 0) (F64.fin 100)).sample
      (serverOf 0 0 (stateOf (F64.fin 0) 50)) [] 0 = some (F64.fin 50) := by
    rw [sample_in_cycle _ _ _ _ rfl]
    norm_num [ruleOf, serverOf, stateOf, u64sub, wrapUint64, uint64OfInt64]
    exact F64.ofNat_eq 50 50 (by norm_num) (by norm_num)
  obtain ⟨res0, h0, hret, hnext⟩ := snapshot_debounce_idempotent
    (ruleOf "transfer_in_cycle" (F64.fin 0) (F64.fin 100)) emptyStats
    (serverOf 0 0 (stateOf (F64.fin 0) 50)) [] 0
    (serverOf 0 0 (stateOf (F64.fin 0) 5000)) sampleLedger 1000000000
    (by decide) (by decide) (by decide) (by decide) hint rfl
  obtain ⟨stats1, -, h1⟩ := Snapshot_cyclic
    (ruleOf "transfer_in_cycle" (F64.fin 0) (F64.fin 100)) emptyStats
    (serverOf 0 0 (stateOf (F64.fin 0) 50)) [] 0 (F64.fin 50)
    (by decide) (by decide) (by decide) (by decide) hint hs
  have hres : res0 = ⟨_, _, stats1⟩ := Option.some.inj (h0.symm.trans h1)
  have hn : res0.rule.NextTransferAt 1 = 900000000000 := by
    rw [hres]
    show Rule.NextTransferAt (Rule.rearmCaches _ _ _ _) (serverOf 0 0 (stateOf (F64.fin 0) 50)).ID = _
    rw [rearmCaches_next, rearmSeconds_of_steps _ 100 50 50 (1 / 2) 900 rfl (by norm_num)
      (F64.round_eq_int _ _ 50 _ (by norm_num) (by norm_num) (by norm_num) (by norm_num))
      (F64.round_eq_dyadic _ _ 1 (-1) _ (by norm_num) (by norm_num) (by norm_num) (by norm_num)
        (by norm_num) (by norm_num))
      (F64.round_eq_int _ _ 900 _ (by norm_num) (by norm_num) (by norm_num) (by norm_num))]
    norm_num [F64.toInt64, Time.mulDuration, Time.Second, wrapInt64, Time.Add]
  refine ⟨res0, h0, hret, hn, hnext (by decide) ?_⟩
  show (1000000000 : Int) < res0.rule.NextTransferAt 1
  rw [hn]
  decide

/-! ## Claims on the sampled value -/

theorem ledgerSum_lt (db : List Transfer) (col : Transfer → Nat) (since : Time) (id : Nat) :
    (ledgerSum db col since id).N < 9223372036854775808 := by
  unfold ledgerSum
  simp only []
  split
  · assumption
  · decide

theorem wrapUint64_lt (x : Nat) : wrapUint64 x < 18446744073709551616 := by
  unfold wrapUint64
  omega

theorem u64sub_lt (a b : Nat) : u64sub a b < 18446744073709551616 := wrapUint64_lt _

theorem wrapInt64_of_range (x : Int) (h1 : -9223372036854775808 ≤ x)
    (h2 : x < 9223372036854775808) : wrapInt64 x = x := by
  unfold wrapInt64
  omega

theorem interval_eq (r : Rule) (hI : 3600 * (r.CycleInterval : Int) < 9223372036854775808) :
    r.interval = 3600 * (r.CycleInterval : Int) := by
  unfold Rule.interval int64OfUint64
  rw [wrapInt64_of_range (r.CycleInterval : Int) (by omega) (by omega),
    wrapInt64_of_range _ (by omega) hI]

theorem ofUnix_le_of_le_Unix (s : Int) (t : Time) (h : s ≤ Time.Unix t) :
    Time.ofUnix s ≤ t := by
  unfold Time.Unix at h
  show (s * 1000000000 : Int) ≤ t
  omega

theorem lt_ofUnix_of_Unix_lt (s : Int) (t : Time) (h : Time.Unix t < s) :
    t < Time.ofUnix s := by
  unfold Time.Unix at h
  have h2 : @LT.lt Int _ t (s * 1000000000) := by omega
  exact h2

/-- C7 (as amended). For a cycle interval of at least one hour whose length in seconds
`I = 3600 * CycleInterval` fits `int64`, and a clock reading `now` that is not before the
anchor `CycleStart` (whole Unix seconds of magnitude below `2^62`),
`Rule.GetTransferDurationStart` returns `anchor + floor((now - anchor) / I) * I`, and this
instant `s` is the start of the window that contains `now`: `s <= now < s + I`. -/
theorem window_start_floor (r : Rule) (now : Time)
    (hc : 1 ≤ r.CycleInterval)
    (hI : 3600 * (r.CycleInterval : Int) < 9223372036854775808)
    (hnow : Time.Unix r.CycleStart ≤ Time.Unix now)
    (ha : -4611686018427387904 ≤ Time.Unix r.CycleStart)
    (hn : Time.Unix now < 4611686018427387904) :
    ∃ s : Int, r.GetTransferDurationStart now = some (Time.ofUnix s) ∧
      s = Time.Unix r.CycleStart +
        (Time.Unix now - Time.Unix r.CycleStart) / (3600 * (r.CycleInterval : Int)) *
          (3600 * (r.CycleInterval : Int)) ∧
      s ≤ Time.Unix now ∧ Time.Unix now < s + 3600 * (r.CycleInterval : Int) ∧
      Time.ofUnix s ≤ now ∧ now < Time.ofUnix (s + 3600 * (r.CycleInterval : Int)) := by
  have hpos : 0 < 3600 * (r.CycleInterval : Int) := by omega
  have hd0 : 0 ≤ Time.Unix now - Time.Unix r.CycleStart := by omega
  have hq0 : 0 ≤ (Time.Unix now - Time.Unix r.CycleStart) / (3600 * (r.CycleInterval : Int)) :=
    Int.ediv_nonneg hd0 (le_of_lt hpos)
  have hqle : (Time.Unix now - Time.Unix r.CycleStart) / (3600 * (r.CycleInterval : Int)) ≤
      Time.Unix now - Time.Unix r.CycleStart := Int.ediv_le_self _ hd0
  have hmul : (Time.Unix now - Time.Unix r.CycleStart) / (3600 * (r.CycleInterval : Int)) *
      (3600 * (r.CycleInterval : Int)) ≤ Time.Unix now - Time.Unix r.CycleStart :=
    Int.ediv_mul_le _ (ne_of_gt hpos)
  have hlt : Time.Unix now - Time.Unix r.CycleStart <
      (Time.Unix now - Time.Unix r.CycleStart) / (3600 * (r.CycleInterval : Int)) *
        (3600 * (r.CycleInterval : Int)) + 3600 * (r.CycleInterval : Int) := by
    have := Int.lt_ediv_add_one_mul_self (Time.Unix now - Time.Unix r.CycleStart) hpos
    rw [add_mul, one_mul] at this
    exact this
  have hmul0 : 0 ≤ (Time.Unix now - Time.Unix r.CycleStart) / (3600 * (r.CycleInterval : Int)) *
      (3600 * (r.CycleInterval : Int)) := mul_nonneg hq0 (le_of_lt hpos)
  refine ⟨_, ?_, rfl, by omega, by omega, ofUnix_le_of_le_Unix _ _ (by omega),
    lt_ofUnix_of_Unix_lt _ _ (by omega)⟩
  unfold Rule.GetTransferDurationStart
  simp only []
  rw [interval_eq r hI, if_neg (ne_of_gt hpos),
    wrapInt64_of_range (Time.Unix now - Time.Unix r.CycleStart) (by omega) (by omega),
    Int.tdiv_eq_ediv hd0 (le_of_lt hpos),
    wrapInt64_of_range ((Time.Unix now - Time.Unix r.CycleStart) /
      (3600 * (r.CycleInterval : Int))) (by omega) (by omega),
    wrapInt64_of_range ((Time.Unix now - Time.Unix r.CycleStart) /
      (3600 * (r.CycleInterval : Int)) * (3600 * (r.CycleInterval : Int))) (by omega) (by omega),
    wrapInt64_of_range _ (by omega) (by omega)]

/-- C7, at a concrete input: a 24-hour cycle anchored at the epoch, read at second 100000,
starts at second 86400. -/
theorem window_start_floor_witness :
    ∃ s : Int, dailyRule.GetTransferDurationStart 100000000000000 = some (Time.ofUnix s) ∧
      s = 86400 ∧ s ≤ Time.Unix 100000000000000 ∧ Time.Unix 100000000000000 < s + 86400 := by
  obtain ⟨s, h1, h2, h3, h4, -, -⟩ := window_start_floor dailyRule 100000000000000
    (by decide) (by decide) (by decide) (by decide) (by decide)
  refine ⟨s, h1, ?_, h3, ?_⟩
  · rw [h2]; decide
  · have : (3600 * (dailyRule.CycleInterval : Int)) = 86400 := by decide
    rw [this] at h4; exact h4

/-- C7, counterexample.  With the anchor at second 100, a one-hour interval and the clock
at second 50, `Rule.GetTransferDurationStart` returns second 100 (the quotient `-50 / 3600`
truncates to 0), while `anchor + floor((now - anchor) / I) * I` is `-3500`; the returned
instant is after `now`, so it does not start a window that contains `now`. -/
theorem window_start_before_anchor_counterexample :
    lateAnchorRule.CycleInterval = 1 ∧ Time.Unix lateAnchorRule.CycleStart = 100 ∧
    Time.Unix 50000000000 = 50 ∧
    lateAnchorRule.GetTransferDurationStart 50000000000 = some (Time.ofUnix 100) ∧
    (100 + (50 - 100) / (3600 * 1) * (3600 * 1) : Int) = -3500 ∧
    ¬ (Time.ofUnix 100 ≤ 50000000000) := by
  refine ⟨rfl, by decide, by decide, ?_, by decide, by decide⟩
  norm_num [Rule.GetTransferDurationStart, Rule.interval, int64OfUint64, wrapInt64, Time.Unix,
    Time.ofUnix, lateAnchorRule, ruleOf, (by decide : Int.tdiv 50 3600 = 0)]

theorem sample_unknown (r : Rule) (server : Server) (db : List Transfer) (now : Time)
    (h : r.Type_ ∉ metricTypes) : r.sample server db now = some (F64.fin 0) := by
  simp only [metricTypes, List.mem_cons, List.mem_singleton, not_or, List.not_mem_nil,
    or_false] at h
  obtain ⟨h1, h2, h3, h4, h5, h6, h7, h8, h9, h10, h11, h12, h13, h14, h15, h16, h17, h18,
    h19, h20⟩ := h
  unfold Rule.sample
  rw [if_neg h1, if_neg h2, if_neg h3, if_neg h4, if_neg h5, if_neg h6, if_neg h7, if_neg h8,
    if_neg h9, if_neg h10, if_neg h11, if_neg h12, if_neg h13, if_neg h14, if_neg h15,
    if_neg h16, if_neg h17, if_neg h18, if_neg h19, if_neg h20]

theorem sample_memory (r : Rule) (server : Server) (db : List Transfer) (now : Time)
    (h : r.Type_ = "memory") :
    r.sample server db now = some (percentage server.State.MemUsed server.Host.MemTotal) := by
  unfold Rule.sample
  rw [h, if_neg (by decide), if_pos rfl]

theorem sample_swap (r : Rule) (server : Server) (db : List Transfer) (now : Time)
    (h : r.Type_ = "swap") :
    r.sample server db now = some (percentage server.State.SwapUsed server.Host.SwapTotal) := by
  unfold Rule.sample
  rw [h, if_neg (by decide), if_neg (by decide), if_pos rfl]

theorem sample_disk (r : Rule) (server : Server) (db : List Transfer) (now : Time)
    (h : r.Type_ = "disk") :
    r.sample server db now = some (percentage server.State.DiskUsed server.Host.DiskTotal) := by
  unfold Rule.sample
  rw [h, if_neg (by decide), if_neg (by decide), if_neg (by decide), if_pos rfl]

theorem percentage_zero_total (used : Nat) : percentage used 0 = F64.fin 0 := by
  unfold percentage
  rw [if_pos rfl]

/-- The percentage of 1 in 3 is the `float64` nearest to `100/3`, `33.333333333333336`, which
is above `100/3`. -/
theorem percentage_one_of_three :
    percentage 1 3 = F64.fin (4691249611844267 * 2 ^ (-47 : Int)) ∧
      (100 / 3 : ℚ) < 4691249611844267 * 2 ^ (-47 : Int) := by
  constructor
  · unfold percentage
    rw [if_neg (by decide), F64.ofNat_eq 1 1 (by norm_num) (by norm_num),
      F64.ofNat_eq 3 3 (by norm_num) (by norm_num), F64.mul_fin,
      F64.round_eq_int _ 100 100 _ (by norm_num) (by norm_num) (by norm_num) (by norm_num),
      F64.div_fin _ _ (by norm_num),
      F64.round_near_pos _ 5 4691249611844267 _ (by norm_num) (by norm_num) (by norm_num)
        (by norm_num) (by norm_num) (by norm_num) (by norm_num)]
    norm_num
  · norm_num

theorem outOfBounds_zero (r : Rule) :
    r.outOfBounds (F64.fin 0) = F64.gt r.Min (F64.fin 0) := by
  unfold Rule.outOfBounds F64.gt
  cases h : F64.lt (F64.fin 0) r.Max
  · simp
  · rw [F64.lt_asymm _ _ h]
    simp

/-- The degenerate samples of C8: a `Type` outside the `switch`, or a percentage metric
whose total is 0. -/
theorem sample_degenerate (r : Rule) (server : Server) (db : List Transfer) (now : Time)
    (hdeg : r.Type_ ∉ metricTypes ∨ (r.Type_ = "memory" ∧ server.Host.MemTotal = 0) ∨
      (r.Type_ = "swap" ∧ server.Host.SwapTotal = 0) ∨
      (r.Type_ = "disk" ∧ server.Host.DiskTotal = 0)) :
    r.sample server db now = some (F64.fin 0) ∧ r.Type_ ≠ "offline" := by
  rcases hdeg with h | ⟨h, hz⟩ | ⟨h, hz⟩ | ⟨h, hz⟩
  · refine ⟨sample_unknown r server db now h, fun ht => h ?_⟩
    rw [ht]; decide
  · rw [sample_memory r server db now h, hz, percentage_zero_total]
    exact ⟨rfl, by rw [h]; decide⟩
  · rw [sample_swap r server db now h, hz, percentage_zero_total]
    exact ⟨rfl, by rw [h]; decide⟩
  · rw [sample_disk r server db now h, hz, percentage_zero_total]
    exact ⟨rfl, by rw [h]; decide⟩

/-- C8 (as amended). For a rule whose `Type` is outside the `switch`, and for a memory, swap
or disk rule on a host whose corresponding total is 0, the sampled value is 0, and an
evaluation on a covered host that is not short-circuited by the debounce cache returns
`struct{}{}` exactly when `Min > 0`: no breach for any `Max` as long as `Min` is not set,
a breach as soon as it is. -/
theorem snapshot_degenerate_sample (r : Rule) (stats : CycleTransferStats)
    (server : Server) (db : List Transfer) (now : Time)
    (hdeg : r.Type_ ∉ metricTypes ∨ (r.Type_ = "memory" ∧ server.Host.MemTotal = 0) ∨
      (r.Type_ = "swap" ∧ server.Host.SwapTotal = 0) ∨
      (r.Type_ = "disk" ∧ server.Host.DiskTotal = 0))
    (hex : r.excluded server.ID = false) (hni : r.notIncluded server.ID = false)
    (hdeb : r.debounced server.ID now = false)
    (hrun : r.IsTransferDurationRule = true → r.interval ≠ 0) :
    r.sample server db now = some (F64.fin 0) ∧
    ∃ res, r.Snapshot stats server db now = some res ∧
      (res.ret = some () ↔ F64.gt r.Min (F64.fin 0) = true) := by
  obtain ⟨hs0, htype⟩ := sample_degenerate r server db now hdeg
  obtain ⟨src, res, hs, hres, hret⟩ := Snapshot_sampled r stats server db now hex hni hdeb hrun
  have hsrc : src = F64.fin 0 := Option.some.inj (hs.symm.trans hs0)
  refine ⟨hs0, res, hres, ?_⟩
  rw [hret, hsrc, decision_of_ne_offline r _ now htype, outOfBounds_zero]
  cases F64.gt r.Min (F64.fin 0) <;> simp

/-- C8, at a concrete input: a memory rule with `Max = 90` and no `Min` on a host whose
`MemTotal` is 0 samples 0 and does not breach. -/
theorem snapshot_degenerate_sample_witness :
    (ruleOf "memory" (F64.fin 0) (F64.fin 90)).sample
        (serverOf 0 0 (stateOf (F64.fin 0) 0)) [] 0 = some (F64.fin 0) ∧
    ((ruleOf "memory" (F64.fin 0) (F64.fin 90)).Snapshot emptyStats
        (serverOf 0 0 (stateOf (F64.fin 0) 0)) [] 0).map SnapshotResult.ret = some none := by
  obtain ⟨h0, res, hres, hiff⟩ := snapshot_degenerate_sample
    (ruleOf "memory" (F64.fin 0) (F64.fin 90)) emptyStats
    (serverOf 0 0 (stateOf (F64.fin 0) 0)) [] 0 (Or.inr (Or.inl ⟨rfl, rfl⟩))
    (by decide) (by decide) (by decide) (fun h => absurd h (by decide))
  refine ⟨h0, ?_⟩
  have hr : res.ret = none := by
    cases hc : res.ret with
    | none => rfl
    | some u =>
      have h2 := hiff.mp hc
      simp [ruleOf, F64.gt, F64.lt] at h2
  rw [hres, Option.map_some', hr]

/-- C8, counterexample.  A memory rule with `Min = 10` on a covered host whose `MemTotal` is
0: the sampled value is 0 and `Rule.Snapshot` returns `struct{}{}`, a breach. -/
theorem snapshot_zero_total_counterexample :
    (serverOf 0 0 (stateOf (F64.fin 0) 0)).Host.MemTotal = 0 ∧
    (ruleOf "memory" (F64.fin 10) (F64.fin 0)).sample
        (serverOf 0 0 (stateOf (F64.fin 0) 0)) [] 0 = some (F64.fin 0) ∧
    ((ruleOf "memory" (F64.fin 10) (F64.fin 0)).Snapshot emptyStats
        (serverOf 0 0 (stateOf (F64.fin 0) 0)) [] 0).map SnapshotResult.ret =
      some (some ()) := by
  have hs : (ruleOf "memory" (F64.fin 10) (F64.fin 0)).sample
      (serverOf 0 0 (stateOf (F64.fin 0) 0)) [] 0 = some (F64.fin 0) := by
    rw [sample_memory _ _ _ _ rfl]
    exact congrArg some (percentage_zero_total _)
  refine ⟨rfl, hs, ?_⟩
  rw [Snapshot_plain _ _ _ _ _ _ (by decide) (by decide) (by decide) hs, Option.map_some']
  refine congrArg some ?_
  show (ruleOf "memory" (F64.fin 10) (F64.fin 0)).decision (F64.fin 0) 0 = some ()
  rw [decision_of_ne_offline _ _ _ (by decide), outOfBounds_zero]
  norm_num [ruleOf, F64.gt, F64.lt]

/-! ## Claims on `SendNotification` -/

theorem SendNotification_miss (send : Notification → Desc → Bool) (st : Dao) (desc : Desc)
    (now : Time) (hmiss : st.Cache.Get (notificationID desc) now = none) :
    SendNotification send st desc true now =
      (Dao.mk (st.Cache.Set (notificationID desc)
          ⟨firstNotificationDelay, Time.Add now firstNotificationDelay⟩
          (firstNotificationDelay + Time.Minute * 10) now) st.nty,
        broadcast send st.nty desc) := by
  unfold SendNotification
  simp only [if_true]
  rw [hmiss]

/-- C9. For a muteable message whose key has no live entry in the throttle cache,
`SendNotification` at time `now` admits the message (it calls `Send` on every registered
channel) and stores under the key a `NotificationHistory` with `Duration` 15 minutes and
`Until = now + 15 minutes` with a time-to-live of 25 minutes, so that the entry expires at
`now + 25 minutes`; every other cache entry and the channel list are unchanged. -/
theorem send_notification_miss (send : Notification → Desc → Bool) (st : Dao) (desc : Desc)
    (now : Time) (hmiss : st.Cache.Get (notificationID desc) now = none) :
    (SendNotification send st desc true now).2.admitted = true ∧
    (SendNotification send st desc true now).2.sent = st.nty ∧
    (SendNotification send st desc true now).1.Cache =
      st.Cache.Set (notificationID desc) ⟨900000000000, now + 900000000000⟩ 1500000000000 now ∧
    (SendNotification send st desc true now).1.Cache.items (notificationID desc) =
      some ⟨⟨900000000000, now + 900000000000⟩, now + 1500000000000⟩ ∧
    (∀ k, k ≠ notificationID desc →
      (SendNotification send st desc true now).1.Cache.items k = st.Cache.items k) ∧
    (SendNotification send st desc true now).1.nty = st.nty := by
  rw [SendNotification_miss send st desc now hmiss]
  have hd : firstNotificationDelay = 900000000000 := by decide
  have ht : firstNotificationDelay + Time.Minute * 10 = 1500000000000 := by decide
  rw [hd] at ht ⊢
  rw [ht]
  refine ⟨rfl, rfl, rfl, ?_, fun k hk => ?_, rfl⟩
  · simp [Cache.Set, Time.Add]
  · simp [Cache.Set, Function.update_noteq hk]

/-- C9, at a concrete input: the message "hi" on an empty cache at nanosecond 5000. -/
theorem send_notification_miss_witness :
    freshDao.Cache.Get (notificationID [104, 105]) 5000 = none ∧
    (SendNotification (fun _ _ => true) freshDao [104, 105] true 5000).2.admitted = true ∧
    (SendNotification (fun _ _ => true) freshDao [104, 105] true 5000).2.sent = freshDao.nty ∧
    (SendNotification (fun _ _ => true) freshDao [104, 105] true 5000).1.Cache.items
        (notificationID [104, 105]) =
      some ⟨⟨900000000000, 5000 + 900000000000⟩, 5000 + 1500000000000⟩ :=
  have h := send_notification_miss (fun _ _ => true) freshDao [104, 105] 5000 rfl
  ⟨rfl, h.1, h.2.1, h.2.2.2.1⟩

theorem SendNotification_expired (send : Notification → Desc → Bool) (st : Dao) (desc : Desc)
    (now : Time) (h : NotificationHistory)
    (hhit : st.Cache.Get (notificationID desc) now = some h) (hexp : h.Until < now) :
    SendNotification send st desc true now =
      (Dao.mk (st.Cache.Set (notificationID desc)
          ⟨if Time.Hour * 24 < Time.mulDuration h.Duration 2 then Time.Hour * 24
            else Time.mulDuration h.Duration 2,
           Time.Add now (if Time.Hour * 24 < Time.mulDuration h.Duration 2 then Time.Hour * 24
            else Time.mulDuration h.Duration 2)⟩
          (Time.addDuration (if Time.Hour * 24 < Time.mulDuration h.Duration 2 then Time.Hour * 24
            else Time.mulDuration h.Duration 2) (Time.Minute * 10)) now) st.nty,
        broadcast send st.nty desc) := by
  unfold SendNotification
  simp only [if_true]
  rw [hhit]
  have ha : Time.After now h.Until = true := by
    unfold Time.After
    exact decide_eq_true hexp
  simp only [ha, if_true]

theorem SendNotification_muted (send : Notification → Desc → Bool) (st : Dao) (desc : Desc)
    (now : Time) (h : NotificationHistory)
    (hhit : st.Cache.Get (notificationID desc) now = some h) (hnot : now ≤ h.Until) :
    SendNotification send st desc true now = (st, ⟨false, [], []⟩) := by
  unfold SendNotification
  simp only [if_true]
  rw [hhit]
  have ha : Time.After now h.Until = false := by
    unfold Time.After
    exact decide_eq_false (not_lt.mpr hnot)
  simp only [ha, Bool.false_eq_true, if_false]

theorem backoff_duration_eq (d : Int) (hlo : -4611686018427387904 ≤ d)
    (hhi : d < 4611686018427387904) :
    (if Time.Hour * 24 < Time.mulDuration d 2 then Time.Hour * 24 else Time.mulDuration d 2) =
      min (2 * d) 86400000000000 := by
  have h24 : Time.Hour * 24 = 86400000000000 := by decide
  unfold Time.mulDuration
  rw [h24, wrapInt64_of_range (d * 2) (by omega) (by omega)]
  show (if (86400000000000 : Int) < d * 2 then (86400000000000 : Int) else d * 2) =
    min (2 * d) 86400000000000
  split <;> omega

theorem backoff_ttl_eq (d : Int) (hlo : -9223372036854775808 ≤ d) (hhi : d ≤ 86400000000000) :
    Time.addDuration d (Time.Minute * 10) = d + 600000000000 := by
  have h10 : Time.Minute * 10 = 600000000000 := by decide
  unfold Time.addDuration
  rw [h10, wrapInt64_of_range _ (by omega) (by omega)]

/-- C10 (as amended). For a muteable message whose key has a live cached record `h`, at a
time `now` strictly after `h.Until` (and with `h.Duration` of magnitude below `2^62`
nanoseconds, so that doubling it does not overflow `int64`), `SendNotification` admits the
message and replaces the record by one with `Duration = min(2 * h.Duration, 24 hours)` and
`Until = now +` that duration, stored with a time-to-live of that duration plus 10 minutes;
every other cache entry and the channel list are unchanged. -/
theorem send_notification_expired (send : Notification → Desc → Bool) (st : Dao)
    (desc : Desc) (now : Time) (h : NotificationHistory)
    (hhit : st.Cache.Get (notificationID desc) now = some h)
    (hexp : h.Until < now)
    (hlo : (-4611686018427387904 : Int) ≤ h.Duration)
    (hhi : h.Duration < (4611686018427387904 : Int)) :
    (SendNotification send st desc true now).2.admitted = true ∧
    (SendNotification send st desc true now).2.sent = st.nty ∧
    (SendNotification send st desc true now).1.Cache =
      st.Cache.Set (notificationID desc)
        ⟨min (2 * h.Duration) 86400000000000, now + min (2 * h.Duration) 86400000000000⟩
        (min (2 * h.Duration) 86400000000000 + 600000000000) now ∧
    (0 < min (2 * h.Duration) 86400000000000 + 600000000000 →
      (SendNotification send st desc true now).1.Cache.items (notificationID desc) =
        some ⟨⟨min (2 * h.Duration) 86400000000000,
            now + min (2 * h.Duration) 86400000000000⟩,
          now + (min (2 * h.Duration) 86400000000000 + 600000000000)⟩) ∧
    (∀ k, k ≠ notificationID desc →
      (SendNotification send st desc true now).1.Cache.items k = st.Cache.items k) ∧
    (SendNotification send st desc true now).1.nty = st.nty := by
  have hmin : (-9223372036854775808 : Int) ≤ min (2 * h.Duration) 86400000000000 :=
    le_min (by omega) (by decide)
  rw [SendNotification_expired send st desc now h hhit hexp,
    backoff_duration_eq h.Duration hlo hhi,
    backoff_ttl_eq _ hmin (min_le_right _ _)]
  refine ⟨rfl, rfl, rfl, fun hpos => ?_, fun k hk => ?_, rfl⟩
  · have hne : min (2 * h.Duration) 86400000000000 + 600000000000 ≠ 0 := ne_of_gt hpos
    simp [Cache.Set, Time.Add, hne, hpos]
  · simp [Cache.Set, Function.update_noteq hk]

/-- C10, at a concrete input: the record of the empty message (15 minutes, `Until` at
nanosecond 1000) is replaced at nanosecond 2000 by one of 30 minutes that expires 40
minutes later. -/
theorem send_notification_expired_witness :
    throttledDao.Cache.Get (notificationID []) 2000 = some ⟨900000000000, 1000⟩ ∧
    (SendNotification (fun _ _ => true) throttledDao [] true 2000).2.admitted = true ∧
    (SendNotification (fun _ _ => true) throttledDao [] true 2000).1.Cache.items
        (notificationID []) =
      some ⟨⟨1800000000000, 2000 + 1800000000000⟩, 2000 + 2400000000000⟩ := by
  have hget : throttledDao.Cache.Get (notificationID []) 2000 = some ⟨900000000000, 1000⟩ := by
    simp [Cache.Get, throttledDao]
  have h := send_notification_expired (fun _ _ => true) throttledDao [] 2000
    ⟨900000000000, 1000⟩ hget (by decide) (by decide) (by decide)
  refine ⟨hget, h.1, ?_⟩
  have h4 := h.2.2.2.1 (by decide)
  rw [h4]
  have hm : min (2 * (900000000000 : Int)) 86400000000000 = 1800000000000 := by decide
  simp only [hm]
  rfl

/-- C10, counterexample.  The record of the empty message has `Until` at nanosecond 1000;
at `now = 1000`, which is `now >= h.Until`, `SendNotification` does not admit the message:
no channel is called and the record stays as it was. -/
theorem send_notification_at_until_counterexample :
    throttledDao.Cache.Get (notificationID []) 1000 = some ⟨900000000000, 1000⟩ ∧
    (SendNotification (fun _ _ => true) throttledDao [] true 1000).2.admitted = false ∧
    (SendNotification (fun _ _ => true) throttledDao [] true 1000).2.sent = [] ∧
    (SendNotification (fun _ _ => true) throttledDao [] true 1000).1.Cache.items
        (notificationID []) = some ⟨⟨900000000000, 1000⟩, 0⟩ := by
  have hget : throttledDao.Cache.Get (notificationID []) 1000 = some ⟨900000000000, 1000⟩ := by
    simp [Cache.Get, throttledDao]
  rw [SendNotification_muted _ _ _ _ _ hget (by decide)]
  refine ⟨hget, rfl, rfl, ?_⟩
  simp [throttledDao]

/-! ## Claims on the throttle: suppression, broadcast and keys -/

theorem Cache_Get_Set_same (c : Cache) (k : String) (x : NotificationHistory) (d : Duration)
    (t now : Time) (hd : (0 : Int) < d) (hnow : now ≤ t + d) :
    (c.Set k x d t).Get k now = some x := by
  have hd0 : d ≠ 0 := ne_of_gt hd
  unfold Cache.Get Cache.Set
  simp only [hd0, if_false, hd, if_true, Function.update_same, Time.Add]
  rw [if_neg]
  intro hc
  have h2 : @LT.lt Int _ (t + d) now := hc.2
  have h3 : @LE.le Int _ now (t + d) := hnow
  omega

/-- C11. For a muteable message whose key has a live cached record `h`, at a time `now`
before `h.Until`, `SendNotification` suppresses the message: `Send` is called on no channel
and the package state, the cache included, is returned unchanged.  Hence, after a first
call at `t0` on a key without live entry, which admits, the calls at any `t1` and `t2`
before `t0 + 15 minutes` are both suppressed and leave the state of the first call. -/
theorem send_notification_muted (send : Notification → Desc → Bool) (st : Dao) (desc : Desc)
    (now t0 t1 t2 : Time) (h : NotificationHistory) :
    (st.Cache.Get (notificationID desc) now = some h → now < h.Until →
      SendNotification send st desc true now = (st, ⟨false, [], []⟩)) ∧
    (st.Cache.Get (notificationID desc) t0 = none →
      t1 < t0 + 900000000000 → t2 < t0 + 900000000000 →
      (SendNotification send st desc true t0).2.admitted = true ∧
      SendNotification send (SendNotification send st desc true t0).1 desc true t1 =
        ((SendNotification send st desc true t0).1, ⟨false, [], []⟩) ∧
      SendNotification send (SendNotification send (SendNotification send st desc true t0).1
          desc true t1).1 desc true t2 =
        ((SendNotification send st desc true t0).1, ⟨false, [], []⟩)) := by
  refine ⟨fun hhit hlt => SendNotification_muted send st desc now h hhit (le_of_lt hlt),
    fun hmiss h1 h2 => ?_⟩
  have hd : firstNotificationDelay = 900000000000 := by decide
  have ht : firstNotificationDelay + Time.Minute * 10 = 1500000000000 := by decide
  have hget : ∀ t : Time, t < t0 + 900000000000 →
      (SendNotification send st desc true t0).1.Cache.Get (notificationID desc) t =
        some ⟨900000000000, t0 + 900000000000⟩ := by
    intro t hlt
    rw [SendNotification_miss send st desc t0 hmiss, hd] at *
    rw [ht]
    have h3 : @LT.lt Int _ t (t0 + 900000000000) := hlt
    have h4 : @LE.le Int _ t (t0 + 1500000000000) := by omega
    exact Cache_Get_Set_same _ _ _ _ _ _ (by decide) h4
  have hmute : ∀ t : Time, t < t0 + 900000000000 →
      SendNotification send (SendNotification send st desc true t0).1 desc true t =
        ((SendNotification send st desc true t0).1, ⟨false, [], []⟩) :=
    fun t hlt => SendNotification_muted send _ desc t _ (hget t hlt) (le_of_lt hlt)
  refine ⟨?_, hmute t1 h1, ?_⟩
  · rw [SendNotification_miss send st desc t0 hmiss]
    rfl
  · rw [hmute t1 h1]
    exact hmute t2 h2

/-- C11, at a concrete input: the message "hi" sent three times to a state with an empty
cache, at nanoseconds 5000, 6000 and 60000000000: only the first call admits. -/
theorem send_notification_muted_witness :
    (SendNotification (fun _ _ => true) freshDao [104, 105] true 5000).2.admitted = true ∧
    (SendNotification (fun _ _ => true)
      (SendNotification (fun _ _ => true) freshDao [104, 105] true 5000).1
      [104, 105] true 6000).2 = ⟨false, [], []⟩ ∧
    (SendNotification (fun _ _ => true) (SendNotification (fun _ _ => true)
      (SendNotification (fun _ _ => true) freshDao [104, 105] true 5000).1
      [104, 105] true 6000).1 [104, 105] true 60000000000).2 = ⟨false, [], []⟩ := by
  have h := (send_notification_muted (fun _ _ => true) freshDao [104, 105] 0 5000 6000
    60000000000 ⟨0, 0⟩).2 rfl (by decide) (by decide)
  refine ⟨h.1, ?_, ?_⟩
  · rw [h.2.1]
  · rw [h.2.2]

theorem getElem_append_length (pre suf : List Notification) (c : Notification)
    (h : pre.length < (pre ++ c :: suf).length) : (pre ++ c :: suf)[pre.length] = c := by
  rw [List.getElem_append_right (Nat.le_refl _)]
  simp

theorem sendLoop_append (send : Notification → Desc → Bool) (desc : Desc) :
    ∀ (suf pre : List Notification),
      sendLoop send (pre ++ suf) desc pre.length =
        (suf, suf.filter fun n => !send n desc) := by
  intro suf
  induction suf with
  | nil =>
    intro pre
    rw [sendLoop, dif_neg (by simp)]
    rfl
  | cons c rest ih =>
    intro pre
    have hlt : pre.length < (pre ++ c :: rest).length := by simp
    rw [sendLoop, dif_pos hlt]
    have hrec : sendLoop send (pre ++ c :: rest) desc (pre.length + 1) =
        (rest, rest.filter fun n => !send n desc) := by
      have := ih (pre ++ [c])
      simpa using this
    simp only [hrec, getElem_append_length pre rest c hlt]
    cases hs : send c desc <;> simp [List.filter, hs]

theorem sendLoop_zero (send : Notification → Desc → Bool) (nty : List Notification)
    (desc : Desc) :
    sendLoop send nty desc 0 = (nty, nty.filter fun n => !send n desc) :=
  sendLoop_append send desc nty []

/-- C12. With `muteable` false `SendNotification` admits whatever the throttle cache holds:
the package state is returned unchanged and the outcome is the same for every cache.
Whenever a call admits, the loop over the registry calls `Send(desc)` once on every
registered channel, in registry order, whatever the channels answer; the channels that
answered with an error are only recorded. -/
theorem send_notification_broadcast (send : Notification → Desc → Bool) (st : Dao)
    (desc : Desc) (now : Time) :
    SendNotification send st desc false now =
      (st, ⟨true, st.nty, st.nty.filter fun n => !send n desc⟩) ∧
    (∀ st2 : Dao, st2.nty = st.nty →
      (SendNotification send st2 desc false now).2 =
        (SendNotification send st desc false now).2) ∧
    (∀ muteable : Bool, (SendNotification send st desc muteable now).2.admitted = true →
      (SendNotification send st desc muteable now).2.sent = st.nty ∧
      (SendNotification send st desc muteable now).2.failed =
        st.nty.filter fun n => !send n desc) ∧
    sendLoop send st.nty desc 0 = (st.nty, st.nty.filter fun n => !send n desc) := by
  have hfalse : ∀ s : Dao, SendNotification send s desc false now =
      (s, ⟨true, s.nty, s.nty.filter fun n => !send n desc⟩) := by
    intro s
    unfold SendNotification
    simp only [Bool.false_eq_true, if_false]
    rfl
  refine ⟨hfalse st, fun st2 h2 => ?_, fun muteable hadm => ?_, sendLoop_zero send st.nty desc⟩
  · rw [hfalse st2, hfalse st, h2]
  · cases muteable with
    | false => rw [hfalse st]; exact ⟨rfl, rfl⟩
    | true =>
      cases hget : st.Cache.Get (notificationID desc) now with
      | none =>
        rw [SendNotification_miss send st desc now hget]
        exact ⟨rfl, rfl⟩
      | some h =>
        by_cases hexp : h.Until < now
        · rw [SendNotification_expired send st desc now h hget hexp]
          exact ⟨rfl, rfl⟩
        · rw [SendNotification_muted send st desc now h hget (not_lt.mp hexp)] at hadm
          exact absurd hadm Bool.false_ne_true

theorem hexDigit_injective : ∀ a b : Fin 16, hexDigit a.val = hexDigit b.val → a = b := by
  decide

theorem hexPair_injective (x y : Fin 256)
    (h : [hexDigit (x.val / 16), hexDigit (x.val % 16)] =
      [hexDigit (y.val / 16), hexDigit (y.val % 16)]) : x = y := by
  have h1 : hexDigit (x.val / 16) = hexDigit (y.val / 16) := by
    injection h
  have h2 : hexDigit (x.val % 16) = hexDigit (y.val % 16) := by
    injection h with _ h'
    injection h'
  have hx := x.isLt
  have hy := y.isLt
  have e1 := hexDigit_injective ⟨x.val / 16, by omega⟩ ⟨y.val / 16, by omega⟩ h1
  have e2 := hexDigit_injective ⟨x.val % 16, by omega⟩ ⟨y.val % 16, by omega⟩ h2
  have e1' : x.val / 16 = y.val / 16 := congrArg Fin.val e1
  have e2' : x.val % 16 = y.val % 16 := congrArg Fin.val e2
  apply Fin.ext
  omega

theorem hexChars_injective : ∀ a b : List (Fin 256),
    (a.flatMap fun x => [hexDigit (x.val / 16), hexDigit (x.val % 16)]) =
      (b.flatMap fun x => [hexDigit (x.val / 16), hexDigit (x.val % 16)]) → a = b := by
  intro a
  induction a with
  | nil =>
    intro b h
    cases b with
    | nil => rfl
    | cons y ys => simp [List.flatMap] at h
  | cons x xs ih =>
    intro b h
    cases b with
    | nil => simp [List.flatMap] at h
    | cons y ys =>
      simp only [List.flatMap_cons, List.cons_append, List.nil_append, List.cons.injEq] at h
      obtain ⟨h1, h2, h3⟩ := h
      have hxy : x = y := hexPair_injective x y (by rw [h1, h2])
      rw [hxy, ih ys h3]

theorem notificationID_injective (m1 m2 : Desc) (h : notificationID m1 = notificationID m2) :
    m1 = m2 := by
  unfold notificationID hexEncodeToString md5NewSum at h
  have h1 := hexChars_injective _ _ (congrArg String.data h)
  exact List.append_cancel_right h1

theorem SendNotification_frame (send : Notification → Desc → Bool) (st : Dao) (desc : Desc)
    (muteable : Bool) (now : Time) :
    (SendNotification send st desc muteable now).1.nty = st.nty ∧
    (SendNotification send st desc muteable now).1.Cache.defaultExpiration =
      st.Cache.defaultExpiration ∧
    ∀ k, k ≠ notificationID desc →
      (SendNotification send st desc muteable now).1.Cache.items k = st.Cache.items k := by
  cases muteable with
  | false =>
    have h : SendNotification send st desc false now = (st, broadcast send st.nty desc) := by
      unfold SendNotification
      simp only [Bool.false_eq_true, if_false]
    rw [h]
    exact ⟨rfl, rfl, fun _ _ => rfl⟩
  | true =>
    cases hget : st.Cache.Get (notificationID desc) now with
    | none =>
      rw [SendNotification_miss send st desc now hget]
      exact ⟨rfl, rfl, fun k hk => by simp [Cache.Set, Function.update_noteq hk]⟩
    | some h =>
      by_cases hexp : h.Until < now
      · rw [SendNotification_expired send st desc now h hget hexp]
        exact ⟨rfl, rfl, fun k hk => by simp [Cache.Set, Function.update_noteq hk]⟩
      · rw [SendNotification_muted send st desc now h hget (not_lt.mp hexp)]
        exact ⟨rfl, rfl, fun _ _ => rfl⟩

theorem Cache_Get_congr (c1 c2 : Cache) (k : String) (now : Time)
    (h : c1.items k = c2.items k) : c1.Get k now = c2.Get k now := by
  unfold Cache.Get
  rw [h]

theorem SendNotification_outcome_congr (send : Notification → Desc → Bool) (st1 st2 : Dao)
    (desc : Desc) (muteable : Bool) (now : Time) (hnty : st1.nty = st2.nty)
    (hitem : st1.Cache.items (notificationID desc) = st2.Cache.items (notificationID desc)) :
    (SendNotification send st1 desc muteable now).2 =
      (SendNotification send st2 desc muteable now).2 := by
  have hg := Cache_Get_congr st1.Cache st2.Cache (notificationID desc) now hitem
  cases muteable with
  | false =>
    have h : ∀ s : Dao, SendNotification send s desc false now =
        (s, broadcast send s.nty desc) := by
      intro s
      unfold SendNotification
      simp only [Bool.false_eq_true, if_false]
    rw [h st1, h st2, hnty]
  | true =>
    cases hget : st2.Cache.Get (notificationID desc) now with
    | none =>
      rw [SendNotification_miss send st2 desc now hget,
        SendNotification_miss send st1 desc now (hg.trans hget), hnty]
    | some h =>
      by_cases hexp : h.Until < now
      · rw [SendNotification_expired send st2 desc now h hget hexp,
          SendNotification_expired send st1 desc now h (hg.trans hget) hexp, hnty]
      · rw [SendNotification_muted send st2 desc now h hget (not_lt.mp hexp),
          SendNotification_muted send st1 desc now h (hg.trans hget) (not_lt.mp hexp)]

theorem runSendCalls_frame (send : Notification → Desc → Bool) (k : String) :
    ∀ (calls : List SendCall) (st : Dao),
      (∀ c ∈ calls, notificationID c.desc ≠ k) →
      (runSendCalls send st calls).nty = st.nty ∧
      (runSendCalls send st calls).Cache.items k = st.Cache.items k := by
  intro calls
  induction calls with
  | nil => intro st _; exact ⟨rfl, rfl⟩
  | cons c rest ih =>
    intro st hk
    have hf := SendNotification_frame send st c.desc c.muteable c.now
    have hr := ih (SendNotification send st c.desc c.muteable c.now).1
      (fun d hd => hk d (List.mem_cons_of_mem _ hd))
    have hck : k ≠ notificationID c.desc := fun e => hk c (List.mem_cons_self _ _) e.symm
    show (runSendCalls send (SendNotification send st c.desc c.muteable c.now).1 rest).nty = _ ∧
      (runSendCalls send (SendNotification send st c.desc c.muteable c.now).1 rest).Cache.items k
        = _
    exact ⟨hr.1.trans hf.1, hr.2.trans (hf.2.2 k hck)⟩

/-- C13. Two different message texts have different cache keys: the key is the hexadecimal
encoding of the message bytes followed by the fixed digest of the empty input, an injective
function of the message.  Hence any sequence of calls for `m2` leaves the record of `m1`
and the registry alone, and the outcome of a call for `m1` (admitted or suppressed, and the
channels called) is the same after that sequence as without it. -/
theorem notification_keys_independent (send : Notification → Desc → Bool) (st : Dao)
    (m1 m2 : Desc) (calls : List (Bool × Time)) (muteable : Bool) (now : Time)
    (hne : m1 ≠ m2) :
    notificationID m1 ≠ notificationID m2 ∧
    (SendNotification send
        (runSendCalls send st (calls.map fun c => ⟨m2, c.1, c.2⟩)) m1 muteable now).2 =
      (SendNotification send st m1 muteable now).2 := by
  have hk : notificationID m1 ≠ notificationID m2 :=
    fun e => hne (notificationID_injective m1 m2 e)
  refine ⟨hk, ?_⟩
  have hf := runSendCalls_frame send (notificationID m1)
    (calls.map fun c => ⟨m2, c.1, c.2⟩) st (by
      intro c hc
      simp only [List.mem_map] at hc
      obtain ⟨p, _, rfl⟩ := hc
      exact fun e => hk e.symm)
  exact SendNotification_outcome_congr send _ st m1 muteable now hf.1 hf.2

/-- C13, at a concrete input: the messages "hi" and "ho" have different keys, and after two
calls for "ho" a call for "hi" on a state with an empty cache is admitted, as it is without
them. -/
theorem notification_keys_independent_witness :
    notificationID [104, 105] ≠ notificationID [104, 111] ∧
    (SendNotification (fun _ _ => true)
        (runSendCalls (fun _ _ => true) freshDao
          [⟨[104, 111], true, 1000⟩, ⟨[104, 111], true, 2000⟩]) [104, 105] true 3000).2 =
      ⟨true, freshDao.nty, []⟩ := by
  have h := notification_keys_independent (fun _ _ => true) freshDao [104, 105] [104, 111]
    [(true, 1000), (true, 2000)] true 3000 (by decide)
  refine ⟨h.1, ?_⟩
  have h2 := h.2
  simp only [List.map] at h2
  rw [h2, SendNotification_miss (fun _ _ => true) freshDao [104, 105] 3000 rfl]
  rfl

/-! ## Claims on the registry -/

theorem refreshLoop_append (n : Notification) :
    ∀ (suf pre : List Notification) (isEdit : Bool),
      refreshLoop n (pre ++ suf) pre.length isEdit =
        (pre ++ suf.map (fun c => if c.ID = n.ID then n else c),
          isEdit || suf.any (fun c => decide (c.ID = n.ID))) := by
  intro suf
  induction suf with
  | nil =>
    intro pre isEdit
    rw [refreshLoop, dif_neg (by simp)]
    simp
  | cons c rest ih =>
    intro pre isEdit
    have hlt : pre.length < (pre ++ c :: rest).length := by simp
    rw [refreshLoop, dif_pos hlt, getElem_append_length pre rest c hlt]
    by_cases hc : c.ID = n.ID
    · rw [if_pos hc]
      have hset : (pre ++ c :: rest).set pre.length n = (pre ++ [n]) ++ rest := by
        rw [List.set_append_right _ _ (Nat.le_refl _)]
        simp
      have := ih (pre ++ [n]) true
      rw [hset]
      simp only [List.length_append, List.length_singleton] at this
      rw [this]
      simp [hc]
    · rw [if_neg hc]
      have := ih (pre ++ [c]) isEdit
      simp only [List.length_append, List.length_singleton, List.append_assoc,
        List.singleton_append] at this
      rw [this]
      simp [hc]

theorem OnRefreshOrAddNotification_nty (st : Dao) (n : Notification) :
    (OnRefreshOrAddNotification st n).nty =
      (if st.nty.any (fun c => decide (c.ID = n.ID)) then
        st.nty.map (fun c => if c.ID = n.ID then n else c)
      else st.nty ++ [n]) := by
  have hloop := refreshLoop_append n st.nty [] false
  simp only [List.nil_append, List.length_nil, Bool.false_or] at hloop
  unfold OnRefreshOrAddNotification
  simp only [hloop]
  cases hany : st.nty.any (fun c => decide (c.ID = n.ID))
  · have hmap : st.nty.map (fun c => if c.ID = n.ID then n else c) = st.nty := by
      rw [List.any_eq_false] at hany
      conv_rhs => rw [← List.map_id st.nty]
      apply List.map_congr_left
      intro c hc
      have := hany c hc
      simp only [decide_eq_true_eq] at this
      simp [this]
    simp [hmap]
  · simp

theorem OnRefreshOrAddNotification_Cache (st : Dao) (n : Notification) :
    (OnRefreshOrAddNotification st n).Cache = st.Cache := by
  unfold OnRefreshOrAddNotification
  simp only []
  split <;> rfl

/-- C14. `OnRefreshOrAddNotification(n)` on the registry list `L`: when some channel of `L`
has the `ID` of `n`, the result is `L` with every channel of that `ID` replaced by `n` and
every other channel kept in place (same length, same order); otherwise it is `L` with `n`
appended.  The throttle cache is not touched. -/
theorem refresh_or_add_result (st : Dao) (n : Notification) :
    (OnRefreshOrAddNotification st n).nty =
      (if st.nty.any (fun c => decide (c.ID = n.ID)) then
        st.nty.map (fun c => if c.ID = n.ID then n else c)
      else st.nty ++ [n]) ∧
    (st.nty.any (fun c => decide (c.ID = n.ID)) = true →
      (OnRefreshOrAddNotification st n).nty.length = st.nty.length) ∧
    (OnRefreshOrAddNotification st n).Cache = st.Cache := by
  refine ⟨OnRefreshOrAddNotification_nty st n, fun hany => ?_,
    OnRefreshOrAddNotification_Cache st n⟩
  rw [OnRefreshOrAddNotification_nty, hany]
  simp

theorem get_append_length (pre suf : List Notification) (c : Notification)
    (h : pre.length < (pre ++ c :: suf).length) :
    (pre ++ c :: suf).get ⟨pre.length, h⟩ = c := by
  rw [List.get_eq_getElem, List.getElem_append_right (Nat.le_refl _)]
  simp

theorem deleteLoop_append (id : Nat) :
    ∀ (suf pre : List Notification),
      deleteLoop id (pre ++ suf) (pre.length : Int) =
        some (pre ++ suf.filter (fun c => decide (c.ID ≠ id))) := by
  intro suf
  induction suf with
  | nil =>
    intro pre
    rw [deleteLoop, dif_neg (by simp)]
    simp
  | cons c rest ih =>
    intro pre
    have hlt : (pre.length : Int) < ((pre ++ c :: rest).length : Int) := by
      simp only [List.length_append, List.length_cons]
      omega
    have h0 : (0 : Int) ≤ (pre.length : Int) := Int.ofNat_nonneg _
    rw [deleteLoop, dif_pos hlt, dif_pos h0]
    have hget : ((pre ++ c :: rest).get ⟨(pre.length : Int).toNat, by simp⟩) = c := by
      have h1 : (pre.length : Int).toNat = pre.length := Int.toNat_ofNat _
      simp only [h1]
      exact get_append_length pre rest c (by simp)
    rw [hget]
    by_cases hc : c.ID = id
    · rw [if_pos hc]
      have htake : (pre ++ c :: rest).take (pre.length : Int).toNat ++
          (pre ++ c :: rest).drop ((pre.length : Int).toNat + 1) = pre ++ rest := by
        rw [Int.toNat_ofNat, List.take_left, ← List.drop_drop, List.drop_left]
        rfl
      have hi : ((pre.length : Int) - 1) + 1 = (pre.length : Int) := by omega
      rw [htake, hi, ih pre]
      simp [hc]
    · rw [if_neg hc]
      have := ih (pre ++ [c])
      simp only [List.length_append, List.length_singleton, List.append_assoc,
        List.singleton_append, Nat.cast_add, Nat.cast_one] at this
      rw [this]
      simp [hc]

theorem OnDeleteNotification_eq (st : Dao) (id : Nat) :
    OnDeleteNotification st id =
      some { st with nty := st.nty.filter (fun c => decide (c.ID ≠ id)) } := by
  have h := deleteLoop_append id st.nty []
  simp only [List.nil_append, List.length_nil, Nat.cast_zero] at h
  unfold OnDeleteNotification
  rw [h]
  rfl

/-- C15. `OnDeleteNotification(id)` on the registry list `L` returns (the loop ends and never
indexes or slices out of range) and leaves exactly the channels of `L` whose `ID` differs
from `id`, in their order in `L`: every channel of that `ID` is gone, no other is.  The
throttle cache is not touched. -/
theorem delete_notification_result (st : Dao) (id : Nat) :
    ∃ st2, OnDeleteNotification st id = some st2 ∧
      st2.nty = st.nty.filter (fun c => decide (c.ID ≠ id)) ∧
      (∀ c, c ∈ st2.nty ↔ c ∈ st.nty ∧ c.ID ≠ id) ∧
      st2.nty.Sublist st.nty ∧
      st2.Cache = st.Cache := by
  refine ⟨_, OnDeleteNotification_eq st id, rfl, fun c => ?_, List.filter_sublist _, rfl⟩
  simp [List.mem_filter]

/-- C15, at a concrete input: deleting `ID` 7 from a list with adjacent and trailing
channels of that `ID` leaves the two other channels, in order. -/
theorem delete_notification_duplicates :
    OnDeleteNotification
        ⟨freshDao.Cache, [⟨7, "a", ""⟩, ⟨7, "b", ""⟩, ⟨1, "c", ""⟩, ⟨7, "d", ""⟩, ⟨2, "e", ""⟩,
          ⟨7, "f", ""⟩]⟩ 7 =
      some ⟨freshDao.Cache, [⟨1, "c", ""⟩, ⟨2, "e", ""⟩]⟩ := by
  rw [OnDeleteNotification_eq]
  rfl

/-! ## Claims on the re-check delay -/

theorem F64.toInt64_of_nonneg (s : ℚ) (h0 : 0 ≤ s) (h1 : s < 9223372036854775808) :
    F64.toInt64 (F64.fin s) = ⌊s⌋ := by
  have hnum : 0 ≤ s.num := Rat.num_nonneg.mpr h0
  have htd : Int.tdiv s.num (s.den : Int) = ⌊s⌋ := by
    rw [Int.tdiv_eq_ediv hnum (Int.ofNat_nonneg _), Rat.floor_def]
  have hfl0 : 0 ≤ ⌊s⌋ := Int.floor_nonneg.mpr h0
  have hfl1 : ⌊s⌋ < 9223372036854775808 := by
    rw [Int.floor_lt]
    exact_mod_cast h1
  unfold F64.toInt64
  simp only [htd]
  rw [if_pos ⟨by omega, hfl1⟩]

theorem mulDuration_Second (d : Int) (h0 : 0 ≤ d) (h1 : d < 9223372036) :
    Time.mulDuration Time.Second d = d * 1000000000 := by
  unfold Time.mulDuration
  have hs : Time.Second = 1000000000 := rfl
  rw [hs, wrapInt64_of_range _ (by omega) (by omega)]
  exact Int.mul_comm _ _

theorem not_mem_metricTypes_of_cyclic (r : Rule) (hcyc : r.IsTransferDurationRule = true)
    (h1 : r.Type_ ≠ "transfer_in_cycle") (h2 : r.Type_ ≠ "transfer_out_cycle")
    (h3 : r.Type_ ≠ "transfer_all_cycle") : r.Type_ ∉ metricTypes := by
  have key : ∀ t : String, HasSuffix t "_cycle" = false → r.Type_ ≠ t := by
    intro t ht h
    rw [not_cyclic_of_type_eq h ht] at hcyc
    exact Bool.false_ne_true hcyc
  simp only [metricTypes, List.mem_cons, List.mem_singleton, not_or, List.not_mem_nil,
    or_false]
  exact ⟨key _ (by decide), key _ (by decide), key _ (by decide), key _ (by decide),
    key _ (by decide), key _ (by decide), key _ (by decide), key _ (by decide),
    key _ (by decide), key _ (by decide), key _ (by decide), h1, h2, h3, key _ (by decide),
    key _ (by decide), key _ (by decide), key _ (by decide), key _ (by decide),
    key _ (by decide)⟩

/-- A converted `uint64` is 0 or at least 1. -/
theorem F64.ofNat_cases (n : Nat) (h : n < 18446744073709551616) :
    ∃ r, F64.ofNat n = F64.fin r ∧ (r = 0 ∨ 1 ≤ r) ∧ r ≤ 2 ^ (64 : Int) := by
  obtain ⟨r, hr, hr0, hr1⟩ := F64.ofNat_nonneg n h
  refine ⟨r, hr, ?_, hr1⟩
  rcases Nat.eq_zero_or_pos n with hn | hn
  · subst hn
    left
    have : F64.ofNat 0 = F64.fin 0 := by simp [F64.ofNat, F64.round, F64.zero]
    rw [this] at hr
    injection hr with hr
    exact hr.symm
  · right
    have h1 : (1 : ℚ) ≤ (n : ℚ) := by exact_mod_cast hn
    have hge := F64.round_ge false h1 (F64.isFloat_intCast 1 (by norm_num))
    have hr2 : F64.round (n : ℚ) false = F64.fin r := hr
    rw [hr2] at hge
    exact_mod_cast hge

/-- The sum of two converted `uint64` values is finite, and 0 or at least 1. -/
theorem F64.add_ofNat_cases (a b : Nat) (ha : a < 18446744073709551616)
    (hb : b < 18446744073709551616) :
    ∃ r, F64.add (F64.ofNat a) (F64.ofNat b) = F64.fin r ∧ (r = 0 ∨ 1 ≤ r) := by
  obtain ⟨x, hx, hx0, hx1⟩ := F64.ofNat_cases a ha
  obtain ⟨y, hy, hy0, hy1⟩ := F64.ofNat_cases b hb
  have hxn : 0 ≤ x := by rcases hx0 with h | h <;> linarith
  have hyn : 0 ≤ y := by rcases hy0 with h | h <;> linarith
  rw [hx, hy, F64.add_fin, decide_eq_false (not_lt.mpr hxn), Bool.false_and]
  obtain ⟨r, hr, hr0, -⟩ := F64.round_nonneg (add_nonneg hxn hyn)
    (show x + y ≤ 2 ^ (65 : Int) by
      have : (2 : ℚ) ^ (65 : Int) = 2 ^ (64 : Int) + 2 ^ (64 : Int) := by norm_num
      rw [this]; exact add_le_add hx1 hy1)
    (F64.isFloat_zpow 65 (by norm_num) (by norm_num))
  refine ⟨r, hr, ?_⟩
  by_cases hz : x + y = 0
  · left
    rw [hz] at hr
    have : F64.round 0 false = F64.fin 0 := by simp [F64.round, F64.zero]
    rw [this] at hr
    injection hr with hr
    exact hr.symm
  · right
    have h1 : (1 : ℚ) ≤ x + y := by
      rcases hx0 with h | h <;> rcases hy0 with h2 | h2
      · exact absurd (by rw [h, h2]; norm_num) hz
      · linarith
      · linarith
      · linarith
    have hge := F64.round_ge false h1 (F64.isFloat_intCast 1 (by norm_num))
    rw [hr] at hge
    exact_mod_cast hge

theorem cycle_value_cases (a : Nat) (o : Option Time) (f : Time → Nat) (src : F64)
    (c : Prop) [Decidable c] (ha : a < 18446744073709551616)
    (hf : ∀ t, f t < 18446744073709551616)
    (h : (if c then o.map (fun start => F64.add (F64.ofNat a) (F64.ofNat (f start)))
      else some (F64.ofNat a)) = some src) : ∃ q : ℚ, src = F64.fin q ∧ (q = 0 ∨ 1 ≤ q) := by
  by_cases hc : c
  · rw [if_pos hc] at h
    cases o with
    | none => exact absurd h (by simp)
    | some start =>
      rw [Option.map_some'] at h
      obtain ⟨q, hq, hq0⟩ := F64.add_ofNat_cases a (f start) ha (hf start)
      exact ⟨q, (Option.some.inj h).symm.trans hq, hq0⟩
  · rw [if_neg hc] at h
    obtain ⟨q, hq, hq0, -⟩ := F64.ofNat_cases a ha
    exact ⟨q, (Option.some.inj h).symm.trans hq, hq0⟩

/-- The usage sampled by a cyclic rule is a finite number, 0 or at least 1. -/
theorem cyclic_sample_cases (r : Rule) (server : Server) (db : List Transfer) (now : Time)
    (src : F64) (hcyc : r.IsTransferDurationRule = true)
    (hs : r.sample server db now = some src) : ∃ q : ℚ, src = F64.fin q ∧ (q = 0 ∨ 1 ≤ q) := by
  have hl : ∀ (col : Transfer → Nat) (t : Time),
      (ledgerSum db col t server.ID).N < 18446744073709551616 :=
    fun col t => lt_trans (ledgerSum_lt db col t server.ID) (by decide)
  by_cases h1 : r.Type_ = "transfer_in_cycle"
  · rw [sample_in_cycle r server db now h1] at hs
    exact cycle_value_cases _ _ (fun start => (ledgerSum db Transfer.In start server.ID).N)
      src _ (u64sub_lt _ _) (hl _) hs
  by_cases h2 : r.Type_ = "transfer_out_cycle"
  · rw [sample_out_cycle r server db now h2] at hs
    exact cycle_value_cases _ _ (fun start => (ledgerSum db Transfer.Out start server.ID).N)
      src _ (u64sub_lt _ _) (hl _) hs
  by_cases h3 : r.Type_ = "transfer_all_cycle"
  · rw [sample_all_cycle r server db now h3] at hs
    exact cycle_value_cases _ _
      (fun start => (ledgerSum db (fun t => t.In + t.Out) start server.ID).N) src _
      (u64sub_lt _ _) (hl _) hs
  rw [sample_unknown r server db now (not_mem_metricTypes_of_cyclic r hcyc h1 h2 h3)] at hs
  exact ⟨0, (Option.some.inj hs).symm, Or.inl rfl⟩

/-- The instant a sampling evaluation of a cyclic rule stores in `NextTransferAt`. -/
theorem Snapshot_cyclic_next (r : Rule) (stats : CycleTransferStats) (server : Server)
    (db : List Transfer) (now : Time) (src : F64)
    (hex : r.excluded server.ID = false) (hni : r.notIncluded server.ID = false)
    (hdeb : r.debounced server.ID now = false)
    (hcyc : r.IsTransferDurationRule = true) (hint : r.interval ≠ 0)
    (hs : r.sample server db now = some src) :
    ∃ res, r.Snapshot stats server db now = some res ∧
      res.rule.NextTransferAt server.ID =
        Time.Add now (Time.mulDuration Time.Second (F64.toInt64 (r.rearmSeconds src))) := by
  obtain ⟨stats1, -, h⟩ := Snapshot_cyclic r stats server db now src hex hni hdeb hcyc hint hs
  exact ⟨_, h, rearmCaches_next r server src now⟩

/-- With `Max = +0` and a usage of at least 1 the quotient is `-Inf` and the delay is the
minimum. -/
theorem rearmSeconds_zero_max (r : Rule) (q : ℚ) (hmax : r.Max = F64.fin 0) (hq : 1 ≤ q) :
    r.rearmSeconds (F64.fin q) = F64.fin 180 := by
  have h1 : F64.LeRat (F64.sub (F64.fin 0) (F64.fin q)) (-1) := by
    rw [F64.sub_fin]
    exact F64.round_le false (by linarith) (by simpa using F64.isFloat_intCast (-1) (by norm_num))
  unfold Rule.rearmSeconds
  rw [hmax]
  generalize F64.sub (F64.fin 0) (F64.fin q) = a at h1
  cases a with
  | fin v =>
    have hv : v ≤ -1 := h1
    have hv0 : v ≠ 0 := by linarith
    have hvn : v < 0 := by linarith
    simp [F64.div, F64.mul, F64.isNaN, F64.isInf, F64.val, F64.sign, F64.inf, F64.lt, hv0, hvn]
  | negZero => exact absurd (show (0 : ℚ) ≤ -1 from h1) (by norm_num)
  | negInf => simp [F64.div, F64.mul, F64.isNaN, F64.isInf, F64.val, F64.sign, F64.inf, F64.lt]
  | posInf => exact absurd h1 (by simp [F64.LeRat])
  | nan => exact absurd h1 (by simp [F64.LeRat])

/-- With `Max = -0` and a usage of at least 1 the quotient is `+Inf`, and so is the delay. -/
theorem rearmSeconds_negZero_max (r : Rule) (q : ℚ) (hmax : r.Max = F64.negZero)
    (hq : 1 ≤ q) : r.rearmSeconds (F64.fin q) = F64.posInf := by
  have hq0 : q ≠ 0 := by linarith
  have hs : F64.sub F64.negZero (F64.fin q) = F64.round (-q) false := by
    show F64.add F64.negZero (if q = 0 then F64.negZero else F64.fin (-q)) = _
    rw [if_neg hq0]
    show F64.round (0 + -q) _ = _
    rw [zero_add]
    exact F64.round_flag _ (by linarith) _ _
  have h1 : F64.LeRat (F64.sub F64.negZero (F64.fin q)) (-1) := by
    rw [hs]
    exact F64.round_le false (by linarith) (by simpa using F64.isFloat_intCast (-1) (by norm_num))
  unfold Rule.rearmSeconds
  rw [hmax]
  generalize F64.sub F64.negZero (F64.fin q) = a at h1
  cases a with
  | fin v =>
    have hv : v ≤ -1 := h1
    have hv0 : v ≠ 0 := by linarith
    have hvn : v < 0 := by linarith
    norm_num [F64.div, F64.mul, F64.isNaN, F64.isInf, F64.val, F64.sign, F64.inf, F64.lt, hv0, hvn]
  | negZero => exact absurd (show (0 : ℚ) ≤ -1 from h1) (by norm_num)
  | negInf => norm_num [F64.div, F64.mul, F64.isNaN, F64.isInf, F64.val, F64.sign, F64.inf, F64.lt]
  | posInf => exact absurd h1 (by simp [F64.LeRat])
  | nan => exact absurd h1 (by simp [F64.LeRat])

/-- With a `Max < 0` the `float64` value of `1800 * ((Max - src) / Max)` is `+Inf` or a
finite value of at least 1800, and the lower clamp leaves it as it is. -/
theorem rearmSeconds_neg_max (r : Rule) (m q : ℚ) (hmax : r.Max = F64.fin m) (hm : m < 0)
    (hrep : F64.IsFloat m) (hq : 0 ≤ q) :
    r.rearmSeconds (F64.fin q) =
        F64.mul (F64.fin 1800) (F64.div (F64.sub (F64.fin m) (F64.fin q)) (F64.fin m)) ∧
      (r.rearmSeconds (F64.fin q) = F64.posInf ∨
        ∃ s, r.rearmSeconds (F64.fin q) = F64.fin s ∧ 1800 ≤ s) := by
  have h1 := F64.sub_LeRat m q hq hrep
  have h2 := F64.div_neg_GeRat h1 hm hm (le_of_eq (div_self hm.ne).symm)
    (F64.isFloat_intCast 1 (by norm_num))
  have h3 := F64.mul_pos_GeRat (k := 1800) (d := 1800) h2 (by norm_num) (by norm_num)
    (by norm_num) (by simpa using F64.isFloat_intCast 1800 (by norm_num))
  have key : ∀ x : F64, F64.GeRat x 1800 →
      (if F64.lt x (F64.fin 180) then F64.fin 180 else x) = x ∧
        (x = F64.posInf ∨ ∃ s, x = F64.fin s ∧ 1800 ≤ s) := by
    intro x hx
    cases x with
    | fin v =>
      have hv : 1800 ≤ v := hx
      exact ⟨by simp [F64.lt, not_lt.mpr (by linarith : (180 : ℚ) ≤ v)], Or.inr ⟨v, rfl, hv⟩⟩
    | negZero => exact absurd (show (1800 : ℚ) ≤ 0 from hx) (by norm_num)
    | posInf => exact ⟨by simp [F64.lt], Or.inl rfl⟩
    | negInf => exact absurd hx (by simp [F64.GeRat])
    | nan => exact absurd hx (by simp [F64.GeRat])
  have hk := key _ h3
  have he : r.rearmSeconds (F64.fin q) =
      F64.mul (F64.fin 1800) (F64.div (F64.sub (F64.fin m) (F64.fin q)) (F64.fin m)) := by
    unfold Rule.rearmSeconds
    rw [hmax]
    exact hk.1
  exact ⟨he, by rw [he]; exact hk.2⟩

/-- C17 (as amended). A cyclic rule with `Max <= 0` gets no fallback to the maximum delay;
the formula `1800 * ((Max - src) / Max)` is evaluated in `float64` as it stands.  With a
finite `Max < 0` its value is `+Inf` or at least 1800, never clamped, and when it fits the
nanoseconds of a `time.Duration` the delay is its whole seconds, at least 1800; with
`Max = +0` and a sampled usage `src > 0` the quotient is `-Inf` and the delay is the
minimum, 180 seconds; with `Max = -0` and `src > 0` the quotient and the delay are
`+Inf`. -/
theorem rearm_delay_unset_max (r : Rule) (stats : CycleTransferStats) (server : Server)
    (db : List Transfer) (now : Time) (q : ℚ)
    (hcyc : r.IsTransferDurationRule = true)
    (hex : r.excluded server.ID = false) (hni : r.notIncluded server.ID = false)
    (hdeb : r.debounced server.ID now = false) (hint : r.interval ≠ 0)
    (hs : r.sample server db now = some (F64.fin q)) :
    ∃ res, r.Snapshot stats server db now = some res ∧
      (∀ m : ℚ, r.Max = F64.fin m → m < 0 → F64.IsFloat m →
        r.rearmSeconds (F64.fin q) =
          F64.mul (F64.fin 1800) (F64.div (F64.sub (F64.fin m) (F64.fin q)) (F64.fin m)) ∧
        (r.rearmSeconds (F64.fin q) = F64.posInf ∨
          ∃ s, r.rearmSeconds (F64.fin q) = F64.fin s ∧ 1800 ≤ s ∧
            (s < 9223372036 → (1800 : Int) ≤ ⌊s⌋ ∧
              res.rule.NextTransferAt server.ID = now + ⌊s⌋ * 1000000000))) ∧
      (r.Max = F64.fin 0 → 0 < q →
        res.rule.NextTransferAt server.ID = now + 180 * 1000000000) ∧
      (r.Max = F64.negZero → 0 < q → r.rearmSeconds (F64.fin q) = F64.posInf) := by
  obtain ⟨q2, hq2, hq0⟩ := cyclic_sample_cases r server db now _ hcyc hs
  have hqq : q = q2 := by injection hq2
  rw [← hqq] at hq0
  have hqn : 0 ≤ q := by rcases hq0 with h | h <;> linarith
  have hq1 : 0 < q → 1 ≤ q := by
    intro hp
    rcases hq0 with h | h
    · linarith
    · exact h
  obtain ⟨res, hres, hnext⟩ := Snapshot_cyclic_next r stats server db now _ hex hni hdeb hcyc
    hint hs
  refine ⟨res, hres, fun m hmax hneg hrep => ?_, fun hzero hpos => ?_, fun hzero hpos => ?_⟩
  · obtain ⟨he, hcases⟩ := rearmSeconds_neg_max r m q hmax hneg hrep hqn
    refine ⟨he, ?_⟩
    rcases hcases with hinf | ⟨s, hsv, hs1800⟩
    · exact Or.inl hinf
    · refine Or.inr ⟨s, hsv, hs1800, fun hfit => ?_⟩
      have hfl : (1800 : Int) ≤ ⌊s⌋ := by
        rw [Int.le_floor]; exact_mod_cast hs1800
      have hfl2 : ⌊s⌋ < (9223372036 : Int) := by
        rw [Int.floor_lt]; exact_mod_cast hfit
      refine ⟨hfl, ?_⟩
      rw [hnext, hsv, F64.toInt64_of_nonneg _ (by linarith) (by linarith),
        mulDuration_Second _ (by omega) hfl2]
      rfl
  · rw [hnext, rearmSeconds_zero_max r q hzero (hq1 hpos),
      F64.toInt64_of_nonneg _ (by norm_num) (by norm_num),
      mulDuration_Second _ (by rw [Int.floor_ofNat]; decide) (by rw [Int.floor_ofNat]; decide),
      Int.floor_ofNat]
    rfl
  · exact rearmSeconds_negZero_max r q hzero (hq1 hpos)

/-- The three rounded steps of `1800 * ((-200 - 1) / -200)`: the quotient `1.005` is not a
`float64`, and the product comes out just below 1809. -/
theorem rearm_steps_neg200_1 :
    F64.mul (F64.fin 1800) (F64.div (F64.sub (F64.fin (-200)) (F64.fin 1)) (F64.fin (-200))) =
      F64.fin (7956066138587135 * 2 ^ (-42 : Int)) := by
  rw [F64.sub_fin, F64.round_eq_int _ (-201) (-201) _ (by norm_num) (by norm_num) (by norm_num)
      (by norm_num),
    F64.div_fin _ _ (by norm_num),
    F64.round_near_pos _ 0 4526117625507348 _ (by norm_num) (by norm_num) (by norm_num) (by norm_num)
      (by norm_num) (by norm_num) (by norm_num),
    F64.mul_fin,
    F64.round_near_pos _ 10 7956066138587135 _ (by norm_num) (by norm_num) (by norm_num) (by norm_num)
      (by norm_num) (by norm_num) (by norm_num)]
  norm_num

/-- C17, at a concrete input: `Max = -200` and a sampled usage of 1 at time 0 re-arm for
1808 seconds, the `float64` value of `1800 * ((-200 - 1) / -200)` being
`1808.9999999999998`. -/
theorem rearm_delay_unset_max_witness :
    ∃ res, (ruleOf "transfer_in_cycle" (F64.fin 0) (F64.fin (-200))).Snapshot emptyStats
        (serverOf 0 0 (stateOf (F64.fin 0) 1)) [] 0 = some res ∧
      res.rule.NextTransferAt 1 = 1808000000000 := by
  have hint : (ruleOf "transfer_in_cycle" (F64.fin 0) (F64.fin (-200))).interval ≠ 0 := by
    norm_num [Rule.interval, int64OfUint64, wrapInt64, ruleOf]
  have hs : (ruleOf "transfer_in_cycle" (F64.fin 0) (F64.fin (-200))).sample
      (serverOf 0 0 (stateOf (F64.fin 0) 1)) [] 0 = some (F64.fin 1) := by
    rw [sample_in_cycle _ _ _ _ rfl]
    norm_num [ruleOf, serverOf, stateOf, u64sub, wrapUint64, uint64OfInt64]
    exact F64.ofNat_eq 1 1 (by norm_num) (by norm_num)
  obtain ⟨res, hres, h1, -, -⟩ := rearm_delay_unset_max
    (ruleOf "transfer_in_cycle" (F64.fin 0) (F64.fin (-200))) emptyStats
    (serverOf 0 0 (stateOf (F64.fin 0) 1)) [] 0 1
    (by decide) (by decide) (by decide) (by decide) hint hs
  refine ⟨res, hres, ?_⟩
  obtain ⟨he, hcases⟩ := h1 (-200) rfl (by norm_num)
    (by simpa using F64.isFloat_intCast (-200) (by norm_num))
  rw [rearm_steps_neg200_1] at he
  rw [he] at hcases
  rcases hcases with hinf | ⟨s, hsv, -, hfit⟩
  · exact absurd hinf (by simp)
  · injection hsv with hsv
    have hfl : ⌊s⌋ = 1808 := by
      rw [← hsv, Int.floor_eq_iff]
      norm_num
    have h2 := (hfit (by rw [← hsv]; norm_num)).2
    rw [hfl] at h2
    have h3 : res.rule.NextTransferAt 1 = 0 + 1808 * 1000000000 := h2
    rw [h3]
    rfl

/-- C17, counterexample.  A cyclic rule with `Max = 0` on a covered host, sampled usage 50,
evaluated at time 0: `NextTransferAt[host]` is 180 seconds, not the 1800 seconds of the
maximum delay. -/
theorem rearm_delay_zero_max_counterexample :
    (ruleOf "transfer_in_cycle" (F64.fin 0) (F64.fin 0)).IsTransferDurationRule = true ∧
    F64.gt (ruleOf "transfer_in_cycle" (F64.fin 0) (F64.fin 0)).Max (F64.fin 0) = false ∧
    (ruleOf "transfer_in_cycle" (F64.fin 0) (F64.fin 0)).sample
        (serverOf 0 0 (stateOf (F64.fin 0) 50)) [] 0 = some (F64.fin 50) ∧
    ∃ res, (ruleOf "transfer_in_cycle" (F64.fin 0) (F64.fin 0)).Snapshot emptyStats
        (serverOf 0 0 (stateOf (F64.fin 0) 50)) [] 0 = some res ∧
      res.rule.NextTransferAt 1 = 180 * 1000000000 ∧
      res.rule.NextTransferAt 1 ≠ 0 + 1800 * 1000000000 := by
  have hint : (ruleOf "transfer_in_cycle" (F64.fin 0) (F64.fin 0)).interval ≠ 0 := by
    norm_num [Rule.interval, int64OfUint64, wrapInt64, ruleOf]
  have hs : (ruleOf "transfer_in_cycle" (F64.fin 0) (F64.fin 0)).sample
      (serverOf 0 0 (stateOf (F64.fin 0) 50)) [] 0 = some (F64.fin 50) := by
    rw [sample_in_cycle _ _ _ _ rfl]
    norm_num [ruleOf, serverOf, stateOf, u64sub, wrapUint64, uint64OfInt64]
    exact F64.ofNat_eq 50 50 (by norm_num) (by norm_num)
  obtain ⟨res, hres, hnext⟩ := Snapshot_cyclic_next
    (ruleOf "transfer_in_cycle" (F64.fin 0) (F64.fin 0)) emptyStats
    (serverOf 0 0 (stateOf (F64.fin 0) 50)) [] 0 _ (by decide) (by decide) (by decide)
    (by decide) hint hs
  have hn : res.rule.NextTransferAt 1 = 180 * 1000000000 := by
    have h1 : res.rule.NextTransferAt 1 = _ := hnext
    rw [h1, rearmSeconds_zero_max _ 50 rfl (by norm_num),
      F64.toInt64_of_nonneg _ (by norm_num) (by norm_num),
      mulDuration_Second _ (by rw [Int.floor_ofNat]; decide) (by rw [Int.floor_ofNat]; decide),
      Int.floor_ofNat]
    rfl
  refine ⟨by decide, by simp [ruleOf, F64.gt, F64.lt], hs, res, hres, hn, ?_⟩
  rw [hn]
  decide

/-! ## Claims on the backoff -/

theorem Cache_Get_some (c : Cache) (k : String) (now : Time) (h : NotificationHistory)
    (hget : c.Get k now = some h) : ∃ item, c.items k = some item ∧ item.Object = h := by
  unfold Cache.Get at hget
  cases hitem : c.items k with
  | none => rw [hitem] at hget; exact absurd hget (by simp)
  | some item =>
    rw [hitem] at hget
    simp only [] at hget
    by_cases hexp : 0 < item.Expiration ∧ item.Expiration < now
    · rw [if_pos hexp] at hget; exact absurd hget (by simp)
    · rw [if_neg hexp] at hget
      exact ⟨item, rfl, Option.some.inj hget⟩

theorem Cache_Set_items (c : Cache) (k : String) (x : NotificationHistory) (d : Duration)
    (now : Time) (k2 : String) (item : CacheItem)
    (h : (c.Set k x d now).items k2 = some item) :
    (k2 = k ∧ item.Object = x) ∨ c.items k2 = some item := by
  unfold Cache.Set at h
  simp only [] at h
  by_cases hk : k2 = k
  · left
    rw [hk, Function.update_same] at h
    exact ⟨hk, by rw [← Option.some.inj h]⟩
  · right
    rw [Function.update_noteq hk] at h
    exact h

/-- The backoff invariant: every stored record has a `Duration` between 15 minutes and 24
hours. -/
theorem SendNotification_durations (send : Notification → Desc → Bool) (st : Dao)
    (desc : Desc) (muteable : Bool) (now : Time)
    (hinv : ∀ k item, st.Cache.items k = some item →
      @LE.le Int _ 900000000000 item.Object.Duration ∧
        @LE.le Int _ item.Object.Duration 86400000000000) :
    ∀ k item, (SendNotification send st desc muteable now).1.Cache.items k = some item →
      @LE.le Int _ 900000000000 item.Object.Duration ∧
        @LE.le Int _ item.Object.Duration 86400000000000 := by
  cases muteable with
  | false =>
    have h : SendNotification send st desc false now = (st, broadcast send st.nty desc) := by
      unfold SendNotification
      simp only [Bool.false_eq_true, if_false]
    rw [h]
    exact hinv
  | true =>
    cases hget : st.Cache.Get (notificationID desc) now with
    | none =>
      rw [SendNotification_miss send st desc now hget]
      intro k item hitem
      rcases Cache_Set_items _ _ _ _ _ _ _ hitem with ⟨-, ho⟩ | hold
      · rw [ho]
        show @LE.le Int _ 900000000000 firstNotificationDelay ∧
          @LE.le Int _ firstNotificationDelay 86400000000000
        exact ⟨by decide, by decide⟩
      · exact hinv k item hold
    | some h =>
      by_cases hexp : h.Until < now
      · rw [SendNotification_expired send st desc now h hget hexp]
        intro k item hitem
        rcases Cache_Set_items _ _ _ _ _ _ _ hitem with ⟨-, ho⟩ | hold
        · obtain ⟨old, hold, hobj⟩ := Cache_Get_some _ _ _ _ hget
          have hb := hinv _ old hold
          rw [hobj] at hb
          rw [ho]
          show @LE.le Int _ 900000000000 (if Time.Hour * 24 < Time.mulDuration h.Duration 2
              then Time.Hour * 24 else Time.mulDuration h.Duration 2) ∧
            @LE.le Int _ (if Time.Hour * 24 < Time.mulDuration h.Duration 2
              then Time.Hour * 24 else Time.mulDuration h.Duration 2) 86400000000000
          rw [backoff_duration_eq h.Duration (by omega) (by omega)]
          exact ⟨le_min (by omega) (by decide), min_le_right _ _⟩
        · exact hinv k item hold
      · rw [SendNotification_muted send st desc now h hget (not_lt.mp hexp)]
        exact hinv

theorem runSendCalls_durations (send : Notification → Desc → Bool) :
    ∀ (calls : List SendCall) (st : Dao),
      (∀ k item, st.Cache.items k = some item →
        @LE.le Int _ 900000000000 item.Object.Duration ∧
          @LE.le Int _ item.Object.Duration 86400000000000) →
      ∀ k item, (runSendCalls send st calls).Cache.items k = some item →
        @LE.le Int _ 900000000000 item.Object.Duration ∧
          @LE.le Int _ item.Object.Duration 86400000000000 := by
  intro calls
  induction calls with
  | nil => intro st hinv; exact hinv
  | cons c rest ih =>
    intro st hinv
    exact ih _ (SendNotification_durations send st c.desc c.muteable c.now hinv)

/-- C18. After any sequence of `SendNotification` calls that starts from an empty cache,
every `NotificationHistory` in the cache has a `Duration` between 15 minutes and 24 hours;
and a call that finds the record `h` of its key expired (`now` after `h.Until`) stores a
record whose `Duration` is `min(2 * h.Duration, 24 hours)`, not less than `h.Duration`. -/
theorem backoff_bounded_monotone (send : Notification → Desc → Bool)
    (nty : List Notification) (defaultExpiration : Duration) (calls : List SendCall) :
    (∀ k item,
      (runSendCalls send ⟨⟨fun _ => none, defaultExpiration⟩, nty⟩ calls).Cache.items k =
        some item →
      @LE.le Int _ 900000000000 item.Object.Duration ∧
        @LE.le Int _ item.Object.Duration 86400000000000) ∧
    (∀ (desc : Desc) (now : Time) (h : NotificationHistory),
      (runSendCalls send ⟨⟨fun _ => none, defaultExpiration⟩, nty⟩ calls).Cache.Get
        (notificationID desc) now = some h →
      h.Until < now →
      ∃ item, (SendNotification send
          (runSendCalls send ⟨⟨fun _ => none, defaultExpiration⟩, nty⟩ calls)
          desc true now).1.Cache.items (notificationID desc) = some item ∧
        item.Object.Duration = min (2 * h.Duration) (86400000000000 : Int) ∧
        @LE.le Int _ h.Duration item.Object.Duration) := by
  have hinv := runSendCalls_durations send calls ⟨⟨fun _ => none, defaultExpiration⟩, nty⟩
    (fun k item h => by simp at h)
  refine ⟨hinv, fun desc now h hget hexp => ?_⟩
  obtain ⟨old, hold, hobj⟩ := Cache_Get_some _ _ _ _ hget
  have hb := hinv _ old hold
  rw [hobj] at hb
  rw [SendNotification_expired send _ desc now h hget hexp,
    backoff_duration_eq h.Duration (by omega) (by omega)]
  refine ⟨_, Function.update_same _ _ _, rfl, ?_⟩
  show @LE.le Int _ h.Duration (min (2 * h.Duration) 86400000000000)
  exact le_min (by omega) hb.2

theorem refreshed_filter (n : Notification) :
    ∀ L : List Notification, (L.map Notification.ID).Nodup →
      (L.map (fun c => if c.ID = n.ID then n else c)).filter (fun c => decide (c.ID = n.ID)) =
        if L.any (fun c => decide (c.ID = n.ID)) then [n] else [] := by
  intro L
  induction L with
  | nil => intro _; rfl
  | cons c rest ih =>
    intro hu
    rw [List.map_cons, List.nodup_cons] at hu
    have hrest := ih hu.2
    by_cases hc : c.ID = n.ID
    · have hnone : rest.any (fun c => decide (c.ID = n.ID)) = false := by
        rw [List.any_eq_false]
        intro d hd
        simp only [decide_eq_true_eq]
        intro hdn
        exact hu.1 (List.mem_map.mpr ⟨d, hd, by rw [hdn, hc]⟩)
      rw [hnone] at hrest
      simp [hc, hrest]
    · simp only [List.map_cons, hc, if_false, List.any_cons, decide_False, Bool.false_or]
      rw [List.filter_cons_of_neg (by simp [hc])]
      exact hrest

theorem refreshed_ids (n : Notification) (L : List Notification) :
    (L.map (fun c => if c.ID = n.ID then n else c)).map Notification.ID =
      L.map Notification.ID := by
  rw [List.map_map]
  apply List.map_congr_left
  intro c _
  by_cases hc : c.ID = n.ID
  · simp [hc]
  · simp [hc]

/-- C19. When the channel `ID`s of the registry are pairwise distinct they are still
pairwise distinct after `OnRefreshOrAddNotification(n)` and after
`OnDeleteNotification(id)`; after `OnRefreshOrAddNotification(n)` the channels with the
`ID` of `n` are exactly one, `n` itself, and after `OnDeleteNotification(id)` no channel has
the `ID` `id`. -/
theorem registry_unique_ids (st : Dao) (n : Notification) (id : Nat)
    (hu : (st.nty.map Notification.ID).Nodup) :
    ((OnRefreshOrAddNotification st n).nty.map Notification.ID).Nodup ∧
    (OnRefreshOrAddNotification st n).nty.filter (fun c => decide (c.ID = n.ID)) = [n] ∧
    ∃ st2, OnDeleteNotification st id = some st2 ∧
      (st2.nty.map Notification.ID).Nodup ∧ ∀ c ∈ st2.nty, c.ID ≠ id := by
  refine ⟨?_, ?_, _, OnDeleteNotification_eq st id, ?_, ?_⟩
  · rw [OnRefreshOrAddNotification_nty]
    cases hany : st.nty.any (fun c => decide (c.ID = n.ID))
    · simp only [Bool.false_eq_true, if_false, List.map_append, List.map_cons, List.map_nil]
      rw [List.any_eq_false] at hany
      refine List.Nodup.append hu (List.nodup_singleton _) ?_
      intro x hx hx2
      rw [List.mem_singleton] at hx2
      obtain ⟨c, hc, rfl⟩ := List.mem_map.mp hx
      have := hany c hc
      simp only [decide_eq_true_eq] at this
      exact this hx2
    · simp only [if_true]
      rw [refreshed_ids]
      exact hu
  · rw [OnRefreshOrAddNotification_nty]
    cases hany : st.nty.any (fun c => decide (c.ID = n.ID))
    · simp only [Bool.false_eq_true, if_false, List.filter_append]
      rw [List.any_eq_false] at hany
      have hnil : st.nty.filter (fun c => decide (c.ID = n.ID)) = [] := by
        rw [List.filter_eq_nil_iff]
        intro c hc
        exact hany c hc
      rw [hnil]
      simp
    · simp only [if_true]
      rw [refreshed_filter n st.nty hu, hany]
      rfl
  · exact List.Nodup.sublist (List.Sublist.map _ (List.filter_sublist _)) hu
  · intro c hc
    have := (List.mem_filter.mp hc).2
    simpa using this

/-- C19, at a concrete input: a registry with the `ID`s 1 and 2; refreshing `ID` 2 and
deleting `ID` 1. -/
theorem registry_unique_ids_witness :
    (OnRefreshOrAddNotification ⟨freshDao.Cache, [⟨1, "a", ""⟩, ⟨2, "b", ""⟩]⟩
        ⟨2, "c", ""⟩).nty.filter (fun c => decide (c.ID = 2)) = [⟨2, "c", ""⟩] ∧
    ((OnRefreshOrAddNotification ⟨freshDao.Cache, [⟨1, "a", ""⟩, ⟨2, "b", ""⟩]⟩
        ⟨2, "c", ""⟩).nty.map Notification.ID).Nodup ∧
    ∃ st2, OnDeleteNotification ⟨freshDao.Cache, [⟨1, "a", ""⟩, ⟨2, "b", ""⟩]⟩ 1 = some st2 ∧
      (st2.nty.map Notification.ID).Nodup ∧ ∀ c ∈ st2.nty, c.ID ≠ 1 :=
  have h := registry_unique_ids ⟨freshDao.Cache, [⟨1, "a", ""⟩, ⟨2, "b", ""⟩]⟩ ⟨2, "c", ""⟩ 1
    (by decide)
  ⟨h.2.1, h.1, h.2.2⟩

/-! ## Claims on the cycle window -/

/-- The value of `Rule.GetTransferDurationStart` when nothing overflows and `now` is not
before the anchor. -/
theorem GetTransferDurationStart_of_anchor_le (r : Rule) (now : Time)
    (hc : 1 ≤ r.CycleInterval)
    (hI : 3600 * (r.CycleInterval : Int) < 9223372036854775808)
    (hnow : Time.Unix r.CycleStart ≤ Time.Unix now)
    (ha : -4611686018427387904 ≤ Time.Unix r.CycleStart)
    (hn : Time.Unix now < 4611686018427387904) :
    r.GetTransferDurationStart now = some (Time.ofUnix (Time.Unix r.CycleStart +
      (Time.Unix now - Time.Unix r.CycleStart) / (3600 * (r.CycleInterval : Int)) *
        (3600 * (r.CycleInterval : Int)))) := by
  have hpos : 0 < 3600 * (r.CycleInterval : Int) := by omega
  have hd0 : 0 ≤ Time.Unix now - Time.Unix r.CycleStart := by omega
  have hq0 : 0 ≤ (Time.Unix now - Time.Unix r.CycleStart) / (3600 * (r.CycleInterval : Int)) :=
    Int.ediv_nonneg hd0 (le_of_lt hpos)
  have hqle : (Time.Unix now - Time.Unix r.CycleStart) / (3600 * (r.CycleInterval : Int)) ≤
      Time.Unix now - Time.Unix r.CycleStart := Int.ediv_le_self _ hd0
  have hmul : (Time.Unix now - Time.Unix r.CycleStart) / (3600 * (r.CycleInterval : Int)) *
      (3600 * (r.CycleInterval : Int)) ≤ Time.Unix now - Time.Unix r.CycleStart :=
    Int.ediv_mul_le _ (ne_of_gt hpos)
  have hmul0 : 0 ≤ (Time.Unix now - Time.Unix r.CycleStart) / (3600 * (r.CycleInterval : Int)) *
      (3600 * (r.CycleInterval : Int)) := mul_nonneg hq0 (le_of_lt hpos)
  unfold Rule.GetTransferDurationStart
  simp only []
  rw [interval_eq r hI, if_neg (ne_of_gt hpos),
    wrapInt64_of_range (Time.Unix now - Time.Unix r.CycleStart) (by omega) (by omega),
    Int.tdiv_eq_ediv hd0 (le_of_lt hpos),
    wrapInt64_of_range ((Time.Unix now - Time.Unix r.CycleStart) /
      (3600 * (r.CycleInterval : Int))) (by omega) (by omega),
    wrapInt64_of_range ((Time.Unix now - Time.Unix r.CycleStart) /
      (3600 * (r.CycleInterval : Int)) * (3600 * (r.CycleInterval : Int))) (by omega) (by omega),
    wrapInt64_of_range _ (by omega) (by omega)]

theorem mulDuration_Hour (c : Nat)
    (hI : 3600000000000 * (c : Int) < 9223372036854775808) :
    Time.mulDuration Time.Hour (int64OfUint64 c) = 3600000000000 * (c : Int) := by
  have hh : Time.Hour = 3600000000000 := by decide
  unfold Time.mulDuration int64OfUint64
  rw [hh, wrapInt64_of_range (c : Int) (by omega) (by omega),
    wrapInt64_of_range _ (by omega) hI]

theorem fillStats_window (r : Rule) (stats stats1 : CycleTransferStats) (server : Server)
    (src : F64) (now start : Time) (hstart : r.GetTransferDurationStart now = some start)
    (h : r.fillStats stats server src now = some stats1) :
    stats1.From = start ∧
    stats1.To = Time.Add start (Time.mulDuration Time.Hour (int64OfUint64 r.CycleInterval)) := by
  unfold Rule.fillStats at h
  rw [hstart, Option.map_some'] at h
  have h2 := (Option.some.inj h).symm
  rw [h2]
  exact ⟨rfl, rfl⟩

/-- C20 (as amended). For a cycle interval of at least one hour and at most 2562047 hours
(its length in nanoseconds fits a `time.Duration`) and a clock reading `now` that is not
before the anchor `CycleStart` (whole Unix seconds of magnitude below `2^62`), the instant
`s` returned by `Rule.GetTransferDurationStart` satisfies
`CycleStart <= s <= now < s + 3600 * CycleInterval`, and `s - CycleStart` is a multiple of
`3600 * CycleInterval`; a sampling evaluation of a cyclic rule then writes `From = s` and
`To = s + CycleInterval` hours, and `From <= now < To`. -/
theorem cycle_window_contains_now (r : Rule) (stats : CycleTransferStats) (server : Server)
    (db : List Transfer) (now : Time)
    (hc : 1 ≤ r.CycleInterval)
    (hI : 3600000000000 * (r.CycleInterval : Int) < 9223372036854775808)
    (hnow : Time.Unix r.CycleStart ≤ Time.Unix now)
    (ha : -4611686018427387904 ≤ Time.Unix r.CycleStart)
    (hn : Time.Unix now < 4611686018427387904) :
    ∃ s : Int, r.GetTransferDurationStart now = some (Time.ofUnix s) ∧
      Time.Unix r.CycleStart ≤ s ∧ s ≤ Time.Unix now ∧
      Time.Unix now < s + 3600 * (r.CycleInterval : Int) ∧
      3600 * (r.CycleInterval : Int) ∣ s - Time.Unix r.CycleStart ∧
      (r.IsTransferDurationRule = true → r.excluded server.ID = false →
        r.notIncluded server.ID = false → r.debounced server.ID now = false →
        ∃ res, r.Snapshot stats server db now = some res ∧
          res.stats.From = Time.ofUnix s ∧
          res.stats.To = Time.ofUnix s + 3600000000000 * (r.CycleInterval : Int) ∧
          res.stats.From ≤ now ∧ now < res.stats.To) := by
  have hI2 : 3600 * (r.CycleInterval : Int) < 9223372036854775808 := by omega
  have hpos : 0 < 3600 * (r.CycleInterval : Int) := by omega
  have hd0 : 0 ≤ Time.Unix now - Time.Unix r.CycleStart := by omega
  have hq0 : 0 ≤ (Time.Unix now - Time.Unix r.CycleStart) / (3600 * (r.CycleInterval : Int)) :=
    Int.ediv_nonneg hd0 (le_of_lt hpos)
  have hmul : (Time.Unix now - Time.Unix r.CycleStart) / (3600 * (r.CycleInterval : Int)) *
      (3600 * (r.CycleInterval : Int)) ≤ Time.Unix now - Time.Unix r.CycleStart :=
    Int.ediv_mul_le _ (ne_of_gt hpos)
  have hlt : Time.Unix now - Time.Unix r.CycleStart <
      (Time.Unix now - Time.Unix r.CycleStart) / (3600 * (r.CycleInterval : Int)) *
        (3600 * (r.CycleInterval : Int)) + 3600 * (r.CycleInterval : Int) := by
    have := Int.lt_ediv_add_one_mul_self (Time.Unix now - Time.Unix r.CycleStart) hpos
    rw [add_mul, one_mul] at this
    exact this
  have hmul0 : 0 ≤ (Time.Unix now - Time.Unix r.CycleStart) / (3600 * (r.CycleInterval : Int)) *
      (3600 * (r.CycleInterval : Int)) := mul_nonneg hq0 (le_of_lt hpos)
  have hstart := GetTransferDurationStart_of_anchor_le r now hc hI2 hnow ha hn
  refine ⟨_, hstart, by omega, by omega, by omega, ?_, fun hcyc hex hni hdeb => ?_⟩
  · rw [add_sub_cancel_left]
    exact Dvd.intro_left _ rfl
  · have hint : r.interval ≠ 0 := by
      rw [interval_eq r hI2]; exact ne_of_gt hpos
    obtain ⟨src, hs⟩ := sample_isSome r server db now (fun _ => hint)
    obtain ⟨stats1, hfill, hres⟩ := Snapshot_cyclic r stats server db now src hex hni hdeb hcyc
      hint hs
    have hstart2 : (r.rearmCaches server src now).GetTransferDurationStart now =
        some (Time.ofUnix (Time.Unix r.CycleStart +
          (Time.Unix now - Time.Unix r.CycleStart) / (3600 * (r.CycleInterval : Int)) *
            (3600 * (r.CycleInterval : Int)))) := hstart
    obtain ⟨hfrom, hto⟩ := fillStats_window _ stats stats1 server src now _ hstart2 hfill
    have hto2 : stats1.To = Time.ofUnix (Time.Unix r.CycleStart +
          (Time.Unix now - Time.Unix r.CycleStart) / (3600 * (r.CycleInterval : Int)) *
            (3600 * (r.CycleInterval : Int))) + 3600000000000 * (r.CycleInterval : Int) := by
      rw [hto]
      have hci : (r.rearmCaches server src now).CycleInterval = r.CycleInterval := rfl
      rw [hci, mulDuration_Hour _ hI]
      rfl
    refine ⟨_, hres, hfrom, hto2, ?_, ?_⟩
    · show stats1.From ≤ now
      rw [hfrom]
      exact ofUnix_le_of_le_Unix _ _ (by omega)
    · show now < stats1.To
      rw [hto2]
      have h1 := lt_ofUnix_of_Unix_lt (Time.Unix r.CycleStart +
          (Time.Unix now - Time.Unix r.CycleStart) / (3600 * (r.CycleInterval : Int)) *
            (3600 * (r.CycleInterval : Int)) + 3600 * (r.CycleInterval : Int)) now (by omega)
      have h2 : ∀ a b : Int, Time.ofUnix (a + 3600 * b) = Time.ofUnix a + 3600000000000 * b := by
        intro a b
        unfold Time.ofUnix
        show (a + 3600 * b) * 1000000000 = a * 1000000000 + 3600000000000 * b
        ring
      rw [h2] at h1
      exact h1

/-- C20, at a concrete input: a 24-hour cycle anchored at the epoch, evaluated at second
100000: the window written is `[86400 s, 172800 s)`. -/
theorem cycle_window_contains_now_witness :
    ∃ s : Int, dailyRule.GetTransferDurationStart 100000000000000 = some (Time.ofUnix s) ∧
      s = 86400 ∧
      ∃ res, dailyRule.Snapshot emptyStats (serverOf 0 0 (stateOf (F64.fin 0) 50)) sampleLedger
          100000000000000 = some res ∧
        res.stats.From = 86400000000000 ∧ res.stats.To = 172800000000000 := by
  obtain ⟨s, hs, -, -, -, -, hwin⟩ := cycle_window_contains_now dailyRule emptyStats
    (serverOf 0 0 (stateOf (F64.fin 0) 50)) sampleLedger 100000000000000
    (by decide) (by decide) (by decide) (by decide) (by decide)
  have hstart2 : dailyRule.GetTransferDurationStart 100000000000000 =
      some (Time.ofUnix 86400) := by
    norm_num [Rule.GetTransferDurationStart, Rule.interval, int64OfUint64, wrapInt64,
      Time.Unix, Time.ofUnix, dailyRule, ruleOf, (by decide : Int.tdiv 100000 86400 = 1)]
  have he : Time.ofUnix s = Time.ofUnix 86400 := Option.some.inj (hs.symm.trans hstart2)
  have hs86 : s = 86400 := by
    unfold Time.ofUnix at he
    have he2 : s * 1000000000 = 86400 * 1000000000 := he
    omega
  obtain ⟨res, hres, hfrom, hto, -, -⟩ := hwin (by decide) (by decide) (by decide) (by decide)
  refine ⟨s, hs, hs86, res, hres, ?_, ?_⟩
  · rw [hfrom, hs86]; rfl
  · rw [hto, hs86]; rfl

/-- C20, counterexample.  With a cycle interval of `2^60` hours the `int64` product
`3600 * CycleInterval` is 0 and `Rule.GetTransferDurationStart` panics on the division,
although `CycleInterval >= 1` and `now` is after the anchor.  With a cycle interval of
2562048 hours the `time.Duration` product `time.Hour * CycleInterval` wraps to a negative
value: the sampling evaluation at second 1000 writes a `To` that is before `From`, so the
window does not contain `now`. -/
theorem cycle_window_overflow_counterexample :
    (1 ≤ hugeIntervalRule.CycleInterval ∧
      Time.Unix hugeIntervalRule.CycleStart ≤ Time.Unix 1000000000000 ∧
      hugeIntervalRule.GetTransferDurationStart 1000000000000 = none) ∧
    (1 ≤ centuriesRule.CycleInterval ∧
      Time.Unix centuriesRule.CycleStart ≤ Time.Unix 1000000000000 ∧
      ∃ res, centuriesRule.Snapshot emptyStats (serverOf 0 0 (stateOf (F64.fin 0) 50)) []
          1000000000000 = some res ∧
        res.stats.From = 0 ∧ res.stats.To = -9223371273709551616 ∧
        ¬ ((1000000000000 : Int) < res.stats.To)) := by
  refine ⟨⟨by decide, by decide, ?_⟩, by decide, by decide, ?_⟩
  · norm_num [Rule.GetTransferDurationStart, Rule.interval, int64OfUint64, wrapInt64,
      hugeIntervalRule, ruleOf]
  · have hint : centuriesRule.interval ≠ 0 := by
      norm_num [Rule.interval, int64OfUint64, wrapInt64, centuriesRule, ruleOf]
    have hstart : centuriesRule.GetTransferDurationStart 1000000000000 = some 0 := by
      norm_num [Rule.GetTransferDurationStart, Rule.interval, int64OfUint64, wrapInt64,
        Time.Unix, Time.ofUnix, centuriesRule, ruleOf,
        (by decide : Int.tdiv 1000 9223372800 = 0)]
    obtain ⟨src, hs⟩ := sample_isSome centuriesRule (serverOf 0 0 (stateOf (F64.fin 0) 50)) []
      1000000000000 (fun _ => hint)
    obtain ⟨stats1, hfill, hres⟩ := Snapshot_cyclic centuriesRule emptyStats
      (serverOf 0 0 (stateOf (F64.fin 0) 50)) [] 1000000000000 src (by decide) (by decide)
      (by decide) (by decide) hint hs
    have hstart2 : (centuriesRule.rearmCaches (serverOf 0 0 (stateOf (F64.fin 0) 50)) src
        1000000000000).GetTransferDurationStart 1000000000000 = some 0 := hstart
    obtain ⟨hfrom, hto⟩ := fillStats_window _ emptyStats stats1 _ src 1000000000000 0 hstart2
      hfill
    have hto2 : stats1.To = -9223371273709551616 := by
      rw [hto]
      norm_num [Time.Add, Time.mulDuration, Time.Hour, Time.Minute, Time.Second, int64OfUint64,
        wrapInt64, Rule.rearmCaches, centuriesRule]
    refine ⟨_, hres, hfrom, hto2, ?_⟩
    show ¬ ((1000000000000 : Int) < stats1.To)
    rw [hto2]
    decide

end Nezha
